import Mathlib

/-!
Verification development for the kaydet diary system.

Strings are modelled as `List Char` (`Str`), mirroring Python string
operations character by character.  All definitions are translated from
the repository sources (`src/kaydet/parsers.py`, `sync.py`,
`commands/search.py`, `commands/add.py`, `database.py`); each definition
carries a note saying which source symbol it embeds.
-/

namespace Kaydet

/-- Python strings, modelled as lists of characters. -/
abbrev Str := List Char

/-- Characters stripped by Python `str.strip()` (ASCII whitespace:
space, tab, newline, vertical tab, form feed, carriage return). -/
def isPySpace (c : Char) : Bool :=
  c.toNat = 32 || (9 ≤ c.toNat && c.toNat ≤ 13)

/-- Python `str.lstrip()`. -/
def pyLStrip (s : Str) : Str := s.dropWhile isPySpace

/-- Python `str.rstrip()`. -/
def pyRStrip (s : Str) : Str := (s.reverse.dropWhile isPySpace).reverse

/-- Python `str.strip()`. -/
def pyStrip (s : Str) : Str := pyRStrip (pyLStrip s)

/-- Python `str.lower()` (ASCII model). -/
def pyLower (s : Str) : Str := s.map Char.toLower

/-- Python `str.split()` with no separator: split on whitespace runs,
discarding empty pieces. -/
def pyWords (s : Str) : List Str := (s.splitOnP isPySpace).filter (· ≠ [])

/-- Python `str.split(sep)` for a one-character separator. -/
def pySplitOn (sep : Char) (s : Str) : List Str := s.splitOn sep

/-- Python `str.startswith(p)`. -/
def pyStartsWith (p s : Str) : Bool := p.isPrefixOf s

/-- Python `str.endswith(c)` for a single character. -/
def pyEndsWith (c : Char) (s : Str) : Bool := s.getLast? = some c

/-- Regex class `[a-z]` (code points 97-122). -/
def isLowerAlpha (c : Char) : Bool := 97 ≤ c.toNat && c.toNat ≤ 122

/-- Regex class `[A-Z]` (code points 65-90). -/
def isUpperAlpha (c : Char) : Bool := 65 ≤ c.toNat && c.toNat ≤ 90

/-- Regex class `\d` (code points 48-57). -/
def isDigitC (c : Char) : Bool := 48 ≤ c.toNat && c.toNat ≤ 57

/-- Regex class `[a-z0-9_-]` (the tail class of `KEY_VALUE_PATTERN`'s key;
`_` is 95 and `-` is 45). -/
def isKeyChar (c : Char) : Bool :=
  isLowerAlpha c || isDigitC c || c.toNat = 95 || c.toNat = 45

/-- Regex class `[a-z-]` (`HASHTAG_PATTERN` and `TAG_PATTERN`). -/
def isTagChar (c : Char) : Bool := isLowerAlpha c || c.toNat = 45

/-- Regex class `[a-zA-Z0-9_-]` (the legacy UUID prefix of
`ENTRY_LINE_PATTERN`). -/
def isUuidChar (c : Char) : Bool :=
  isLowerAlpha c || isUpperAlpha c || isDigitC c || c.toNat = 95 || c.toNat = 45

/-- Regex class `\w` (ASCII model), used by `extract_words_from_text`. -/
def isWordChar (c : Char) : Bool :=
  isLowerAlpha c || isUpperAlpha c || isDigitC c || c.toNat = 95

/-- Whether a claim-side key (everything before the first colon) matches
`[a-z][a-z0-9_-]*`. -/
def metaKeyOk (key : Str) : Bool :=
  match key with
  | [] => false
  | c :: t => isLowerAlpha c && t.all isKeyChar

/-- Helper: value of a decimal digit character. -/
def digitVal (c : Char) : Nat := c.toNat - '0'.toNat

/-- Helper: numeric value of a string of decimal digits
(Python `int(s)` on a digit string). -/
def decVal (s : Str) : Nat := s.foldl (fun n c => 10 * n + digitVal c) 0

/-- Helper for `decStr`: the fuel only serves structural recursion. -/
def decStrAux : Nat → Nat → Str
  | 0, _ => []
  | f + 1, n =>
    if n < 10 then [Char.ofNat ('0'.toNat + n)]
    else decStrAux f (n / 10) ++ [Char.ofNat ('0'.toNat + n % 10)]

/-- Helper: decimal rendering of a natural number (Python `str(n)`). -/
def decStr (n : Nat) : Str := decStrAux (n + 1) n

/-- The optional sign `[-+]?` of `NUMERIC_PATTERN`. -/
def numericStrip (s : Str) : Str :=
  match s with
  | [] => []
  | c :: t => if c = '-' then t else if c = '+' then t else c :: t

/-- The `\d+(?:\.\d+)?$` part of `NUMERIC_PATTERN`, applied after the
optional sign. -/
def numericBody (s1 : Str) : Bool :=
  let ds := s1.takeWhile isDigitC
  let rest := s1.drop ds.length
  decide (ds ≠ []) &&
    match rest with
    | [] => true
    | '.' :: fs => decide (fs ≠ []) && fs.all isDigitC
    | _ => false

/-- `NUMERIC_PATTERN = re.compile(r"^[-+]?\d+(?:\.\d+)?$")`
(`parsers.py` line 27), as an anchored recognizer. -/
def numericMatch (s : Str) : Bool := numericBody (numericStrip s)

/-- Python `float(s)` on a string matching `NUMERIC_PATTERN`, modelled
exactly as the denoted rational (no binary rounding). -/
def pyFloat (s : Str) : ℚ :=
  let (sign, s1) : ℚ × Str := match s with
    | [] => (1, [])
    | c :: t => if c = '-' then (-1, t) else if c = '+' then (1, t) else (1, c :: t)
  let ds := s1.takeWhile isDigitC
  let rest := s1.drop ds.length
  match rest with
  | '.' :: fs => sign * ((decVal ds : ℚ) + (decVal fs : ℚ) / (10 : ℚ) ^ fs.length)
  | _ => sign * (decVal ds : ℚ)

/-- `normalize_tag` (`parsers.py` lines 30-38):
`cleaned = tag.strip().lstrip("#").lower()`, `None` when empty. -/
def normalize_tag (tag : Str) : Option Str :=
  let cleaned := pyLower ((pyStrip tag).dropWhile (· = '#'))
  if cleaned = [] then none else some cleaned

/-- Continuation of the `KEY_VALUE_PATTERN` match after the key group: the
literal `:` followed by the value group `.+` (one or more characters
stopping at a newline, since regex `.` does not match `\n`). -/
def keyValueAfter (key : Str) (after : Str) : Option (Str × Str) :=
  match after with
  | [] => none
  | a :: v =>
    if a = ':' then
      if v.takeWhile (· ≠ '\n') = [] then none
      else some (key, v.takeWhile (· ≠ '\n'))
    else none

/-- Match of `KEY_VALUE_PATTERN = r"^(?P<key>[a-z][a-z0-9_-]*):(?P<value>.+)"`
(`parsers.py` line 26).  The key group is the maximal run of key characters
from the start (with backtracking, the run must be followed by `:`, which
its characters can never themselves be). -/
def keyValueMatch (s : Str) : Option (Str × Str) :=
  match s with
  | [] => none
  | c :: rest =>
    if isLowerAlpha c then
      keyValueAfter (c :: rest.takeWhile isKeyChar) (rest.dropWhile isKeyChar)
    else none

/-- `parse_metadata_token` (`parsers.py` lines 41-55). -/
def parse_metadata_token (token : Str) : Option (Str × Str) :=
  match keyValueMatch token with
  | none => none
  | some (k, v) =>
    let key := pyLower k
    let value := pyStrip v
    if value = [] || pyStartsWith ('/' :: '/' :: []) value then none
    else some (key, value)

/-- `parse_numeric_value` (`parsers.py` lines 58-72). -/
def parse_numeric_value (rawValue : Str) : Option ℚ :=
  let value := pyLower (pyStrip rawValue)
  if pyEndsWith 'h' value && numericMatch value.dropLast then
    some (pyFloat value.dropLast)
  else if pyEndsWith 'm' value && numericMatch value.dropLast then
    some (pyFloat value.dropLast / 60)
  else if numericMatch value then
    some (pyFloat value)
  else none

/-- `build_numeric_metadata` (`parsers.py` lines 75-87); metadata mappings
are association lists in insertion order. -/
def build_numeric_metadata (metadata : List (Str × Str)) : List (Str × ℚ) :=
  metadata.filterMap fun kv =>
    match parse_numeric_value kv.2 with
    | some q => some (kv.1, q)
    | none => none

/-- Python dict assignment `d[k] = v` on an insertion-ordered association
list: replace in place when the key exists, append otherwise. -/
def dictInsert (d : List (Str × Str)) (k v : Str) : List (Str × Str) :=
  match d with
  | [] => [(k, v)]
  | (k', v') :: rest =>
    if k' = k then (k', v) :: rest else (k', v') :: dictInsert rest k v

/-- Python dict lookup `d.get(k)`. -/
def dictGet (d : List (Str × Str)) (k : Str) : Option Str :=
  match d with
  | [] => none
  | (k', v') :: rest => if k' = k then some v' else dictGet rest k

/-!  ### The entry line pattern

`ENTRY_LINE_PATTERN` (`parsers.py` lines 15-20):

    ^(?:([a-zA-Z0-9_-]{22}):)?   optional legacy UUID prefix
    (\d{2}:\d{2})                timestamp (HH:MM)
    (?:\s+\[(.+?)\])?            optional identifier like `[123]`
    :\s*(.*)                     remainder of the header line

The matcher below reproduces `re.match` semantics: the optional groups are
tried greedily with backtracking, the lazy `(.+?)` takes the shortest
nonempty newline-free content followed by `]` and then `:`, and the final
`(.*)` is the maximal newline-free run after the greedy `\s*`. -/

/-- Groups of a successful `ENTRY_LINE_PATTERN` match. -/
structure EntryLineGroups where
  uuidPart : Option Str
  timePart : Str
  identPart : Option Str
  remainder : Str
  deriving DecidableEq, Repr

/-- The lazy optional group `(?:\s+\[(.+?)\])?` followed by the literal `:`
of `ENTRY_LINE_PATTERN`: returns the identifier group (if matched) and
what follows the colon.  `fuel` bounds the growth of the lazy `.+?`. -/
def matchIdentRest (content : Str) (rest : Str) (fuel : Nat) :
    Option (Str × Str) :=
  match fuel, rest with
  | _, ']' :: ':' :: tail => if content = [] then none else some (content.reverse, tail)
  | Nat.succ f, c :: tail =>
    if c = '\n' then none else matchIdentRest (c :: content) tail f
  | _, _ => none

/-- `(?:\s+\[(.+?)\])?:` — try the bracketed identifier first (regex optional
groups are greedy), else fall back to a bare `:`. -/
def matchIdentThenColon (s : Str) : Option (Option Str × Str) :=
  let ws := s.takeWhile isPySpace
  let afterWs := s.drop ws.length
  let withIdent : Option (Option Str × Str) :=
    if ws = [] then none
    else match afterWs with
      | '[' :: t =>
        match matchIdentRest [] t t.length with
        | some (ident, tail) => some (some ident, tail)
        | none => none
      | _ => none
  match withIdent with
  | some r => some r
  | none => match s with
    | ':' :: tail => some (none, tail)
    | _ => none

/-- The part of `ENTRY_LINE_PATTERN` after the optional UUID prefix:
`(\d{2}:\d{2})(?:\s+\[(.+?)\])?:\s*(.*)`. -/
def matchFromTimestamp (uuid : Option Str) (s : Str) : Option EntryLineGroups :=
  match s with
  | d1 :: d2 :: ':' :: d3 :: d4 :: rest =>
    if isDigitC d1 && isDigitC d2 && isDigitC d3 && isDigitC d4 then
      match matchIdentThenColon rest with
      | some (ident, tail) =>
        let remainder := (tail.dropWhile isPySpace).takeWhile (· ≠ '\n')
        some ⟨uuid, [d1, d2, ':', d3, d4], ident, remainder⟩
      | none => none
    else none
  | _ => none

/-- `ENTRY_LINE_PATTERN.match(line)`: try the optional 22-character legacy
UUID prefix first; if the rest fails to match, backtrack to no prefix. -/
def matchEntryLine (line : Str) : Option EntryLineGroups :=
  let tryUuid : Option EntryLineGroups :=
    let p := line.take 22
    if p.length = 22 && p.all isUuidChar then
      match line.drop 22 with
      | ':' :: rest => matchFromTimestamp (some p) rest
      | _ => none
    else none
  match tryUuid with
  | some g => some g
  | none => matchFromTimestamp none line

/-- `format_entry_header` (`parsers.py` lines 114-133). -/
def format_entry_header (timestamp message : Str)
    (metadata : List (Str × Str)) (extraTagMarkers : List Str) : Str :=
  let base := if message = [] then timestamp ++ [':']
    else timestamp ++ [':', ' '] ++ message
  let segments := [pyRStrip base]
  let segments := if metadata ≠ [] then
      segments ++ [List.intercalate [' ']
        (metadata.map fun kv => kv.1 ++ [':'] ++ kv.2)]
    else segments
  let segments := if extraTagMarkers ≠ [] then
      segments ++ [List.intercalate [' ']
        ((extraTagMarkers.filter (· ≠ [])).map fun t => '#' :: t)]
    else segments
  List.intercalate [' ', '|', ' '] segments

/-- State of the token-classification loop in
`parse_stored_entry_remainder`. -/
structure RemState where
  message : Str
  metadata : List (Str × Str)
  explicitTags : List Str
  deriving DecidableEq, Repr

/-- One token of `parse_stored_entry_remainder`'s inner loop
(`parsers.py` lines 153-162). -/
def remStep (st : RemState) (token : Str) : RemState :=
  if pyStartsWith ['#'] token then
    match normalize_tag token with
    | some tag => { st with explicitTags := st.explicitTags ++ [tag] }
    | none => st
  else match parse_metadata_token token with
    | some (k, v) => { st with metadata := dictInsert st.metadata k v }
    | none => { st with message := pyStrip (st.message ++ [' '] ++ token) }

/-- `parse_stored_entry_remainder` (`parsers.py` lines 136-163). -/
def parse_stored_entry_remainder (remainder : Str) : RemState :=
  if '|' ∉ remainder then ⟨pyRStrip remainder, [], []⟩
  else
    let parts := (pySplitOn '|' remainder).map pyStrip
    let message := match parts with
      | [] => pyRStrip remainder
      | m :: _ => m
    (parts.drop 1).foldl (fun st seg => (pyWords seg).foldl remStep st)
      ⟨message, [], []⟩

/-- Parsing a stored header line with `ENTRY_LINE_PATTERN` and
`parse_stored_entry_remainder`, as `parse_day_entries` does for a header
line: the matched timestamp group together with the parsed remainder. -/
def parseEntryHeaderLine (line : Str) : Option (Str × RemState) :=
  match matchEntryLine line with
  | none => none
  | some g => some (g.timePart, parse_stored_entry_remainder g.remainder)

/-- A well-formed `HH:MM` timestamp (what the `(\d{2}:\d{2})` group and
`strftime("%H:%M")` produce). -/
def validTimestamp (t : Str) : Bool :=
  match t with
  | [d1, d2, c, d3, d4] =>
    isDigitC d1 && isDigitC d2 && c = ':' && isDigitC d3 && isDigitC d4
  | _ => false

/-- A message that survives the round-trip: stripped, with no pipe (the
segment separator) and no newline (header lines are single lines). -/
def validMessage (m : Str) : Bool :=
  decide (pyStrip m = m) && decide ('|' ∉ m) && decide ('\n' ∉ m)

/-- A metadata value that survives the round-trip: nonempty, free of
whitespace (tokens are whitespace-separated) and of the pipe separator,
and not beginning with `//`. -/
def validValue (v : Str) : Bool :=
  decide (v ≠ []) && v.all (fun c => !isPySpace c) &&
    decide ('|' ∉ v) && !pyStartsWith ['/', '/'] v

/-- An explicit tag marker that survives the round-trip: nonempty,
free of whitespace, the pipe, uppercase letters (`normalize_tag`
lowercases) and a leading `#` (`normalize_tag` strips leading hashes). -/
def validTag (tg : Str) : Bool :=
  decide (tg ≠ []) &&
    tg.all (fun c => !isPySpace c && !isUpperAlpha c) &&
    decide ('|' ∉ tg) && decide (tg.head? ≠ some '#')

/-- Validity of a (timestamp, message, metadata, tags) quadruple for the
round-trip law: shaped timestamp, stripped pipe-free message, well-formed
metadata keys (`KEY_VALUE_PATTERN`) with distinct keys and well-formed
values, and well-formed tag markers. -/
def validHeader (t m : Str) (md : List (Str × Str)) (ts : List Str) : Bool :=
  validTimestamp t && validMessage m &&
    md.all (fun kv => metaKeyOk kv.1 && validValue kv.2) &&
    decide (md.map Prod.fst).Nodup &&
    ts.all validTag

/-- `HASHTAG_PATTERN.findall(line)` for `HASHTAG_PATTERN = r"#([a-z-]+)"`
(`parsers.py` line 24): scan left to right; at each `#`, a nonempty maximal
run of `[a-z-]` characters yields a match and scanning resumes after it. -/
def fhAux (fuel : Nat) (s : Str) : List Str :=
  match fuel, s with
  | 0, _ => []
  | _ + 1, [] => []
  | f + 1, c :: rest =>
    if c = '#' then
      if rest.takeWhile isTagChar = [] then fhAux f rest
      else rest.takeWhile isTagChar ::
        fhAux f (rest.drop (rest.takeWhile isTagChar).length)
    else fhAux f rest

/-- See `fhAux`; the fuel (the string length) only serves structural
recursion and never runs out. -/
def findHashtags (s : Str) : List Str := fhAux s.length s

/-- The tag-registration step of `deduplicate_tags`: lowercase, keep when
nonempty and unseen. -/
def registerTag (seen : List Str) (tag : Str) : List Str :=
  let tagLower := pyLower tag
  if tagLower ≠ [] ∧ tagLower ∉ seen then seen ++ [tagLower] else seen

/-- `deduplicate_tags` (`parsers.py` lines 347-368). -/
def deduplicate_tags (initialTags : List Str) (lines : List Str) : List Str :=
  let seen := initialTags.foldl registerTag []
  lines.foldl (fun seen line => (findHashtags line).foldl registerTag seen) seen

/-- `extract_words_from_text` (`parsers.py` lines 383-390):
`re.sub(r"[^\w\s]", "", text).lower().split()`. -/
def extract_words_from_text (text : Str) : List Str :=
  pyWords (pyLower (text.filter fun c => isWordChar c || isPySpace c))

/-- Classification state of `tokenize_query`. -/
structure QueryFilters where
  textTerms : List Str
  metadataFilters : List (Str × Str)
  tagFilters : List Str
  deriving DecidableEq, Repr

/-- `tokenize_query` (`parsers.py` lines 166-192).  `shlex.split` is
modelled as whitespace splitting, which is its behaviour on queries free of
quote and escape characters (all queries considered here). -/
def tokenize_query (query : Str) : QueryFilters :=
  let tokens := pyWords query
  tokens.foldl
    (fun st token =>
      if token = [] then st
      else if pyStartsWith ['#'] token then
        match normalize_tag token with
        | some tag => { st with tagFilters := st.tagFilters ++ [tag] }
        | none => st
      else match parse_metadata_token token with
        | some kv => { st with metadataFilters := st.metadataFilters ++ [kv] }
        | none => { st with textTerms := st.textTerms ++ [pyLower token] })
    ⟨[], [], []⟩

/-- `parse_range_expression` (`parsers.py` lines 195-213); the split is
`expression.split("..", 1)`. -/
def splitOnDotDot (s : Str) : Option (Str × Str) :=
  match s with
  | [] => none
  | '.' :: '.' :: rest => some ([], rest)
  | c :: rest =>
    match splitOnDotDot rest with
    | some (l, r) => some (c :: l, r)
    | none => none

/-- `parse_range_expression` (`parsers.py` lines 195-213). -/
def parse_range_expression (expression : Str) :
    Option (Option ℚ × Option ℚ) :=
  match splitOnDotDot expression with
  | none => none
  | some (lowerRaw, upperRaw) =>
    let lower := if pyStrip lowerRaw ≠ [] then parse_numeric_value lowerRaw else none
    let upper := if pyStrip upperRaw ≠ [] then parse_numeric_value upperRaw else none
    if (pyStrip lowerRaw ≠ [] ∧ lower = none) ∨
       (pyStrip upperRaw ≠ [] ∧ upper = none) then none
    else some (lower, upper)

/-- Comparison operators recognized by `parse_comparison_expression`. -/
inductive CmpOp | ge | le | gt | lt
  deriving DecidableEq, Repr

/-- Claim-side description of `parse_numeric_value` (spec §4.1, "Numeric
metadata derivation"): a value that, stripped and lowercased, is a numeric
literal followed by `h` denotes that many hours; followed by `m`, that many
minutes over 60; a bare numeric literal denotes itself; anything else has
no numeric value. -/
def numericValueSpec (v : Str) : Option ℚ :=
  let w := pyLower (pyStrip v)
  match w.reverse with
  | [] => none
  | c :: u' =>
    let u := u'.reverse
    if c = 'h' then if numericMatch u then some (pyFloat u) else none
    else if c = 'm' then if numericMatch u then some (pyFloat u / 60) else none
    else if numericMatch w then some (pyFloat w) else none

/-- The remainder of a claim-side token after its first colon. -/
def metaRestPart (s : Str) : Str :=
  (s.drop (s.takeWhile (fun c => c ≠ ':')).length).drop 1

/-- Claim-side description of `parse_metadata_token` (spec §4.1): a token
of the form `key:value` — `key` being everything before the first colon and
matching `[a-z][a-z0-9_-]*`, and the remainder after the first colon being
non-empty after stripping and not beginning with `//` — yields the key and
the stripped remainder; every other token yields nothing. -/
def metadataTokenSpec (s : Str) : Option (Str × Str) :=
  if ':' ∈ s then
    if metaKeyOk (s.takeWhile (fun c => c ≠ ':')) &&
        decide (pyStrip (metaRestPart s) ≠ []) &&
        !pyStartsWith ['/', '/'] (pyStrip (metaRestPart s)) then
      some (s.takeWhile (fun c => c ≠ ':'), pyStrip (metaRestPart s))
    else none
  else none

/-- Claim-side description of inline hashtag recognition: the maximal runs
of characters from `[a-z-]` that immediately follow a `#`, listed by the
position of their `#`. -/
def hashAt (l : Str) : Option Str :=
  match l with
  | [] => none
  | c :: rest =>
    if c = '#' then
      if rest.takeWhile isTagChar = [] then none
      else some (rest.takeWhile isTagChar)
    else none

/-- See `hashAt`: all maximal `[a-z-]` runs following a `#`, by position. -/
def hashRuns (l : Str) : List Str :=
  (List.range l.length).filterMap fun i => hashAt (l.drop i)

/-- First-seen-order deduplication keeping nonempty items, the claim-side
reading of `deduplicate_tags`'s registration on already-lowercase tags. -/
def dedupFirstSeen (ts : List Str) : List Str :=
  ts.foldl (fun seen t => if t ≠ [] ∧ t ∉ seen then seen ++ [t] else seen) []

/-- One iteration of `parse_comparison_expression`'s operator loop. -/
def tryCmpOp (expression : Str) (op : CmpOp) (pat : Str) : Option (CmpOp × ℚ) :=
  if pyStartsWith pat expression then
    (parse_numeric_value (pyStrip (expression.drop pat.length))).map (op, ·)
  else none

/-- `parse_comparison_expression` (`parsers.py` lines 216-230): operators
tried in the order `>=`, `<=`, `>`, `<`; a prefix whose remainder is not
numeric falls through to the next operator. -/
def parse_comparison_expression (expression : Str) : Option (CmpOp × ℚ) :=
  tryCmpOp expression CmpOp.ge ['>', '='] <|>
  tryCmpOp expression CmpOp.le ['<', '='] <|>
  tryCmpOp expression CmpOp.gt ['>'] <|>
  tryCmpOp expression CmpOp.lt ['<']

/-!  ### The index database and the search query

`database.py` keeps the index in SQLite; the searches of
`commands/search.py` are embedded below as predicates over an explicit
relational state.  SQL joins become existentials over the row lists,
`NOT EXISTS` subqueries become negated existentials, `LIKE '%x%'` becomes
case-folded substring containment and `GLOB` a glob matcher. -/

/-- A row of the `entries` table.  `uuid` is the `entry_uuid` column that
`sync.py`'s statements read and write. -/
structure DbEntry where
  id : Nat
  uuid : Str
  sourceFile : Str
  timestamp : Str
  deriving DecidableEq, Repr

/-- A row of the `tags` table. -/
structure TagRow where
  entryId : Nat
  tagName : Str
  deriving DecidableEq, Repr

/-- A row of the `words` table. -/
structure WordRow where
  entryId : Nat
  word : Str
  deriving DecidableEq, Repr

/-- A row of the `metadata` table; `numericValue` is the nullable
`numeric_value` column. -/
structure MetaRow where
  entryId : Nat
  metaKey : Str
  metaValue : Str
  numericValue : Option ℚ
  deriving DecidableEq, Repr

/-- A row of the `synced_files` table; `mtime` is in integer ticks and
`needsFinalSync` is the pending flag of `sync.py`. -/
structure SyncedFileRow where
  path : Str
  mtime : Nat
  needsFinalSync : Bool
  deriving DecidableEq, Repr

/-- The index database: the row lists of each table, kept in insertion
order, and `seq`, the next value of the `entries` AUTOINCREMENT
counter (every used id is below it). -/
structure Db where
  entries : List DbEntry
  tags : List TagRow
  words : List WordRow
  metadata : List MetaRow
  syncedFiles : List SyncedFileRow
  seq : Nat
  deriving DecidableEq, Repr

/-- Strict lexicographic order on strings by character code: how SQLite's
default BINARY collation compares the TEXT `source_file` values. -/
def strLt (a b : Str) : Bool :=
  match a, b with
  | [], [] => false
  | [], _ :: _ => true
  | _ :: _, [] => false
  | c :: as, d :: bs =>
    if c.toNat < d.toNat then true
    else if c.toNat = d.toNat then strLt as bs
    else false

/-- `a <= b` under the BINARY collation. -/
def strLe (a b : Str) : Bool := strLt a b || decide (a = b)

/-- Contiguous substring test. -/
def strContainsSub (p s : Str) : Bool :=
  match s with
  | [] => p.isPrefixOf []
  | c :: rest => p.isPrefixOf (c :: rest) || strContainsSub p rest

/-- `LIKE '%term%'`: substring containment after case folding (SQLite's
`LIKE` ignores case). -/
def sqlLikeContains (pat s : Str) : Bool :=
  strContainsSub (pyLower pat) (pyLower s)

/-- Membership test of one character class item run for `GLOB`'s `[...]`
classes: scans the items (literals and `a-b` ranges) until the closing
`]`, returning whether `c` matched and the pattern after the class. -/
def globClassItems (fuel : Nat) (cs : Str) (c : Char) (found : Bool) :
    Option (Bool × Str) :=
  match fuel, cs with
  | 0, _ => none
  | _ + 1, [] => none
  | _ + 1, ']' :: rest => some (found, rest)
  | f + 1, a :: '-' :: b :: rest =>
    if b = ']' then some (found || decide (a = c) || decide ('-' = c), rest)
    else globClassItems f rest c
      (found || decide (a.toNat ≤ c.toNat && c.toNat ≤ b.toNat))
  | f + 1, a :: rest => globClassItems f rest c (found || decide (a = c))

/-- `GLOB` pattern matching: `*` any run, `?` any character, `[...]` a
character class (`^` negates), everything else literal and
case-sensitive. `fuel` bounds the backtracking of `*`. -/
def globAux (fuel : Nat) (p t : Str) : Bool :=
  match fuel, p, t with
  | 0, _, _ => false
  | _ + 1, [], t => decide (t = [])
  | f + 1, '*' :: ps, t =>
    globAux f ps t ||
      (match t with
       | [] => false
       | _ :: ts => globAux f ('*' :: ps) ts)
  | f + 1, '?' :: ps, t =>
    (match t with
     | [] => false
     | _ :: ts => globAux f ps ts)
  | f + 1, '[' :: ps, t =>
    (match t with
     | [] => false
     | c :: ts =>
       match ps with
       | '^' :: cs =>
         (match globClassItems cs.length cs c false with
          | none => false
          | some (found, rest) => !found && globAux f rest ts)
       | cs =>
         (match globClassItems cs.length cs c false with
          | none => false
          | some (found, rest) => found && globAux f rest ts))
  | f + 1, c :: ps, t =>
    (match t with
     | [] => false
     | d :: ts => decide (c = d) && globAux f ps ts)

/-- `GLOB` with enough fuel. -/
def sqliteGlob (p t : Str) : Bool := globAux (p.length + t.length + 1) p t

/-- Whether `build_search_query` treats an expression as a glob:
`any(c in expression for c in "*?[]")`. -/
def hasGlobChar (s : Str) : Bool :=
  s.any fun c => c = '*' || c = '?' || c = '[' || c = ']'

/-- SQL comparison of the nullable `numeric_value` column against a
bound: NULL satisfies no comparison. -/
def cmpSat (nv : Option ℚ) (op : CmpOp) (val : ℚ) : Bool :=
  match nv with
  | none => false
  | some x =>
    match op with
    | CmpOp.ge => decide (val ≤ x)
    | CmpOp.le => decide (x ≤ val)
    | CmpOp.gt => decide (val < x)
    | CmpOp.lt => decide (x < val)

/-- The range clauses of `build_search_query`: a bound is only enforced
when present, and NULL `numeric_value` fails any enforced bound. -/
def rangeSat (nv : Option ℚ) (lo hi : Option ℚ) : Bool :=
  (match lo with
   | none => true
   | some l => match nv with | none => false | some x => decide (l ≤ x)) &&
  (match hi with
   | none => true
   | some u => match nv with | none => false | some x => decide (x ≤ u))

/-- The `WHERE` clauses `build_search_query` adds for one joined
`metadata` row and one `key:expression` filter (`search.py` lines
73-94): comparison, then range, then glob, then plain equality on
`meta_value`. -/
def metaRowSat (mr : MetaRow) (key expr : Str) : Bool :=
  decide (mr.metaKey = key) &&
  (match parse_comparison_expression expr with
   | some (op, val) => cmpSat mr.numericValue op val
   | none =>
     match parse_range_expression expr with
     | some (lo, hi) => rangeSat mr.numericValue lo hi
     | none =>
       if hasGlobChar expr then sqliteGlob expr mr.metaValue
       else decide (mr.metaValue = expr))

/-- Whether one entries row satisfies every inclusion clause of the query
`build_search_query` compiles from `tokenize_query`'s filters: a joined
`words` row per text term, a joined `tags` row per tag filter, a joined
`metadata` row per metadata filter, and the `since`/`until` bounds on
`source_file` (skipped for the values `0` and `all`). -/
def entryIncluded (db : Db) (e : DbEntry) (qf : QueryFilters) : Bool :=
  qf.textTerms.all (fun term =>
    db.words.any fun w =>
      decide (w.entryId = e.id) && sqlLikeContains term w.word) &&
  qf.tagFilters.all (fun tg =>
    db.tags.any fun tr =>
      decide (tr.entryId = e.id) && decide (tr.tagName = tg)) &&
  qf.metadataFilters.all (fun kv =>
    if kv.1 = "since".toList then
      (if kv.2 = "0".toList ∨ kv.2 = "all".toList then true
       else strLe kv.2 e.sourceFile)
    else if kv.1 = "until".toList then
      (if kv.2 = "0".toList ∨ kv.2 = "all".toList then true
       else strLe e.sourceFile kv.2)
    else
      db.metadata.any fun mr =>
        decide (mr.entryId = e.id) && metaRowSat mr kv.1 kv.2)

/-- The three-entry index of the query-semantics scenario: entries
carrying `status:wip`, `status:done time:2h`, and `status:done time:45m`
respectively. -/
def searchDemoDb : Db :=
  { entries :=
      [⟨1, "2025-09-01.txt:1".toList, "2025-09-01.txt".toList,
         "09:00".toList⟩,
       ⟨2, "2025-09-02.txt:2".toList, "2025-09-02.txt".toList,
         "10:00".toList⟩,
       ⟨3, "2025-09-03.txt:3".toList, "2025-09-03.txt".toList,
         "11:00".toList⟩],
    tags := [],
    words :=
      [⟨1, "draft".toList⟩, ⟨2, "review".toList⟩, ⟨3, "notes".toList⟩],
    metadata :=
      [⟨1, "status".toList, "wip".toList, none⟩,
       ⟨2, "status".toList, "done".toList, none⟩,
       ⟨2, "time".toList, "2h".toList, some 2⟩,
       ⟨3, "status".toList, "done".toList, none⟩,
       ⟨3, "time".toList, "45m".toList,
         some ⟨3, 4, by norm_num, by norm_num⟩⟩],
    syncedFiles := [],
    seq := 4 }

/-!  ### SHA-256

`parse_day_entries` derives a deterministic UUID for an entry with neither
a numeric id nor a stored UUID as the first 22 hex characters of
`hashlib.sha256(seed.encode()).hexdigest()`.  The hash is embedded below
(FIPS 180-4) over the UTF-8 bytes of the seed; all words are naturals
reduced modulo `2^32`. -/

/-- UTF-8 encoding of one character. -/
def utf8EncodeChar (c : Char) : List Nat :=
  let n := c.toNat
  if n < 128 then [n]
  else if n < 2048 then [192 + n / 64, 128 + n % 64]
  else if n < 65536 then
    [224 + n / 4096, 128 + (n / 64) % 64, 128 + n % 64]
  else
    [240 + n / 262144, 128 + (n / 4096) % 64, 128 + (n / 64) % 64,
     128 + n % 64]

/-- `str.encode()`: the UTF-8 bytes of a string. -/
def utf8Encode (s : Str) : List Nat := s.flatMap utf8EncodeChar

/-- Truncation to a 32-bit word. -/
def w32 (n : Nat) : Nat := n % 4294967296

/-- 32-bit right rotation (the argument is already a 32-bit word). -/
def rotr32 (r x : Nat) : Nat := (x >>> r) + w32 (x % 2 ^ r * 2 ^ (32 - r))

/-- SHA-256 `Ch`. -/
def shaCh (x y z : Nat) : Nat := (x &&& y) ^^^ ((x ^^^ 4294967295) &&& z)

/-- SHA-256 `Maj`. -/
def shaMaj (x y z : Nat) : Nat := (x &&& y) ^^^ (x &&& z) ^^^ (y &&& z)

/-- SHA-256 `Σ0`. -/
def shaBigSigma0 (x : Nat) : Nat :=
  rotr32 2 x ^^^ rotr32 13 x ^^^ rotr32 22 x

/-- SHA-256 `Σ1`. -/
def shaBigSigma1 (x : Nat) : Nat :=
  rotr32 6 x ^^^ rotr32 11 x ^^^ rotr32 25 x

/-- SHA-256 `σ0`. -/
def shaSmallSigma0 (x : Nat) : Nat :=
  rotr32 7 x ^^^ rotr32 18 x ^^^ (x >>> 3)

/-- SHA-256 `σ1`. -/
def shaSmallSigma1 (x : Nat) : Nat :=
  rotr32 17 x ^^^ rotr32 19 x ^^^ (x >>> 10)

/-- The SHA-256 round constants. -/
def shaK : List Nat :=
  [1116352408, 1899447441, 3049323471, 3921009573,
   961987163, 1508970993, 2453635748, 2870763221,
   3624381080, 310598401, 607225278, 1426881987,
   1925078388, 2162078206, 2614888103, 3248222580,
   3835390401, 4022224774, 264347078, 604807628,
   770255983, 1249150122, 1555081692, 1996064986,
   2554220882, 2821834349, 2952996808, 3210313671,
   3336571891, 3584528711, 113926993, 338241895,
   666307205, 773529912, 1294757372, 1396182291,
   1695183700, 1986661051, 2177026350, 2456956037,
   2730485921, 2820302411, 3259730800, 3345764771,
   3516065817, 3600352804, 4094571909, 275423344,
   430227734, 506948616, 659060556, 883997877,
   958139571, 1322822218, 1537002063, 1747873779,
   1955562222, 2024104815, 2227730452, 2361852424,
   2428436474, 2756734187, 3204031479, 3329325298]

/-- Big-endian 8-byte rendering of a length in bits. -/
def be64 (n : Nat) : List Nat :=
  [n / 2 ^ 56 % 256, n / 2 ^ 48 % 256, n / 2 ^ 40 % 256, n / 2 ^ 32 % 256,
   n / 2 ^ 24 % 256, n / 2 ^ 16 % 256, n / 2 ^ 8 % 256, n % 256]

/-- SHA-256 padding: `0x80`, zeros to 56 mod 64, then the bit length. -/
def shaPad (msg : List Nat) : List Nat :=
  msg ++ 128 :: List.replicate ((119 - msg.length % 64) % 64) 0 ++
    be64 (8 * msg.length)

/-- The padded message cut into 64-byte blocks (`fuel` bounds the
recursion by the byte count). -/
def toBlocksAux (fuel : Nat) (l : List Nat) : List (List Nat) :=
  match fuel, l with
  | 0, _ => []
  | _, [] => []
  | f + 1, l => l.take 64 :: toBlocksAux f (l.drop 64)

/-- Four big-endian bytes at a time into 32-bit words. -/
def bytesToWordsAux (fuel : Nat) (l : List Nat) : List Nat :=
  match fuel, l with
  | 0, _ => []
  | _, [] => []
  | f + 1, a :: b :: c :: d :: rest =>
    (((a * 256 + b) * 256 + c) * 256 + d) :: bytesToWordsAux f rest
  | _ + 1, _ => []

/-- Message-schedule extension: appends `fuel` further words `W_t`. -/
def shaExtend (fuel : Nat) (ws : List Nat) : List Nat :=
  match fuel with
  | 0 => ws
  | f + 1 =>
    let n := ws.length
    let w := w32 (shaSmallSigma1 (ws.getD (n - 2) 0) + ws.getD (n - 7) 0 +
      shaSmallSigma0 (ws.getD (n - 15) 0) + ws.getD (n - 16) 0)
    shaExtend f (ws ++ [w])

/-- The eight working variables of the compression function. -/
structure Sha8 where
  a : Nat
  b : Nat
  c : Nat
  d : Nat
  e : Nat
  f : Nat
  g : Nat
  h : Nat
  deriving DecidableEq, Repr

/-- One compression round, consuming `(K_t, W_t)`. -/
def shaRound (st : Sha8) (kw : Nat × Nat) : Sha8 :=
  let t1 := w32 (st.h + shaBigSigma1 st.e + shaCh st.e st.f st.g +
    kw.1 + kw.2)
  let t2 := w32 (shaBigSigma0 st.a + shaMaj st.a st.b st.c)
  ⟨w32 (t1 + t2), st.a, st.b, st.c, w32 (st.d + t1), st.e, st.f, st.g⟩

/-- Compression of one 64-byte block. -/
def shaCompress (st : Sha8) (block : List Nat) : Sha8 :=
  let ws := shaExtend 48 (bytesToWordsAux block.length block)
  let fin := (shaK.zip ws).foldl shaRound st
  ⟨w32 (st.a + fin.a), w32 (st.b + fin.b), w32 (st.c + fin.c),
   w32 (st.d + fin.d), w32 (st.e + fin.e), w32 (st.f + fin.f),
   w32 (st.g + fin.g), w32 (st.h + fin.h)⟩

/-- The SHA-256 initial hash value. -/
def shaInit : Sha8 :=
  ⟨1779033703, 3144134277, 1013904242, 2773480762,
   1359893119, 2600822924, 528734635, 1541459225⟩

/-- A hex digit (lowercase, as `hexdigest()` renders). -/
def hexDigitChar (n : Nat) : Char :=
  if n < 10 then Char.ofNat (48 + n) else Char.ofNat (87 + n)

/-- Eight hex digits of one 32-bit word. -/
def wordHex (n : Nat) : Str :=
  [hexDigitChar (n / 2 ^ 28 % 16), hexDigitChar (n / 2 ^ 24 % 16),
   hexDigitChar (n / 2 ^ 20 % 16), hexDigitChar (n / 2 ^ 16 % 16),
   hexDigitChar (n / 2 ^ 12 % 16), hexDigitChar (n / 2 ^ 8 % 16),
   hexDigitChar (n / 2 ^ 4 % 16), hexDigitChar (n % 16)]

/-- `hashlib.sha256(bytes).hexdigest()`. -/
def sha256hex (msg : List Nat) : Str :=
  let padded := shaPad msg
  let st := (toBlocksAux padded.length padded).foldl shaCompress shaInit
  [st.a, st.b, st.c, st.d, st.e, st.f, st.g, st.h].flatMap wordHex

/-- The deterministic fallback UUID of `parse_day_entries`:
`hashlib.sha256(seed.encode()).hexdigest()[:22]`. -/
def hashUuid (seed : Str) : Str := (sha256hex (utf8Encode seed)).take 22

/-!  ### Calendar dates and day files -/

/-- A calendar date (`datetime.date`). -/
structure Date where
  year : Nat
  month : Nat
  day : Nat
  deriving DecidableEq, Repr

/-- Strict order on dates. -/
def dateLt (a b : Date) : Bool :=
  a.year < b.year || (a.year = b.year &&
    (a.month < b.month || (a.month = b.month && a.day < b.day)))

/-- Gregorian leap years. -/
def isLeapYear (y : Nat) : Bool :=
  decide (y % 4 = 0) && (!decide (y % 100 = 0) || decide (y % 400 = 0))

/-- Days in a month, as `datetime.strptime` validates them. -/
def daysInMonth (y m : Nat) : Nat :=
  if m = 2 then (if isLeapYear y then 29 else 28)
  else if m = 4 ∨ m = 6 ∨ m = 9 ∨ m = 11 then 30
  else 31

/-- `resolve_entry_date` (`parsers.py` lines 393-403) for the default
`DAY_FILE_PATTERN` of `%Y-%m-%d.txt` (the only pattern in play here):
`datetime.strptime(name, pattern).date()`, `None` when the name does not
parse as a calendar-valid date. -/
def resolve_entry_date (name : Str) : Option Date :=
  match name with
  | [y1, y2, y3, y4, '-', m1, m2, '-', d1, d2, '.', 't', 'x', 't'] =>
    if ([y1, y2, y3, y4, m1, m2, d1, d2] : Str).all isDigitC then
      let y := decVal [y1, y2, y3, y4]
      let m := decVal [m1, m2]
      let d := decVal [d1, d2]
      if 1 ≤ m ∧ m ≤ 12 ∧ 1 ≤ d ∧ d ≤ daysInMonth y m then some ⟨y, m, d⟩
      else none
    else none
  | _ => none

/-!  ### Parsed diary entries -/

/-- Python `str.strip(c)` for a single character. -/
def pyStripChar (c : Char) (s : Str) : Str :=
  ((s.dropWhile (· = c)).reverse.dropWhile (· = c)).reverse

/-- `models.Entry` as the sync and search code uses it: `parse_day_entries`
constructs it with a `uuid` (the dataclass in `models.py` is missing that
field mid-refactor; `sync.py` requires it).  The `source` path is the
file the entry came from and is carried by the surrounding code, so it is
not repeated here. -/
structure PEntry where
  uuid : Str
  entryId : Option Str
  day : Option Date
  timestamp : Str
  lines : List Str
  tags : List Str
  metadata : List (Str × Str)
  metadataNumbers : List (Str × ℚ)
  deriving DecidableEq, Repr

/-- Python `entry.entry_id and entry.entry_id.isdigit()`. -/
def hasDigitId (e : PEntry) : Bool :=
  match e.entryId with
  | some s => decide (s ≠ []) && s.all isDigitC
  | none => false

/-- The comma-separated tag runs of `LEGACY_TAG_PATTERN`'s group:
`[a-z-]+(?:,[a-z-]+)*`, greedily; `none` when the match fails (a comma
not followed by a run makes the whole pattern fail, since the closing
bracket can never match mid-run). -/
def legacyRunsAux (fuel : Nat) (s : Str) : Option (List Str × Str) :=
  match fuel with
  | 0 => none
  | f + 1 =>
    let run := s.takeWhile isTagChar
    if run = [] then none
    else
      match s.drop run.length with
      | ',' :: rest2 =>
        match legacyRunsAux f rest2 with
        | some (runs, rest3) => some (run :: runs, rest3)
        | none => none
      | rest => some ([run], rest)

/-- `LEGACY_TAG_PATTERN.match(remainder)`
(`^[\[(](?P<tags>[a-z-]+(?:,[a-z-]+)*)[\])]\s*`, `parsers.py` lines
21-23): the split tag list and the remainder after the match. -/
def legacyTagsMatch (r : Str) : Option (List Str × Str) :=
  match r with
  | c :: rest =>
    if c = '[' ∨ c = '(' then
      match legacyRunsAux rest.length rest with
      | some (runs, rest2) =>
        match rest2 with
        | d :: rest3 =>
          if d = ']' ∨ d = ')' then some (runs, rest3.dropWhile isPySpace)
          else none
        | [] => none
      | none => none
    else none
  | [] => none

/-- The accumulator of `parse_day_entries`'s line loop. -/
structure PDState where
  uuid : Option Str
  time : Option Str
  entryId : Option Str
  lines : List Str
  legacyTags : List Str
  metadata : List (Str × Str)
  explicitTags : List Str
  acc : List PEntry
  deriving DecidableEq, Repr

/-- `finalize_entry` of `parse_day_entries` (`parsers.py` lines 284-316):
flush the current entry (when a timestamp is open), deriving its UUID
from the numeric id, the stored UUID, or the deterministic hash. -/
def finalizePD (fileName : Str) (day : Option Date) (st : PDState) :
    PDState :=
  match st.time with
  | none => st
  | some t =>
    let idDigit : Bool :=
      match st.entryId with
      | some s => decide (s ≠ []) && s.all isDigitC
      | none => false
    let entryUuid :=
      if idDigit then fileName ++ ':' :: (st.entryId.getD [])
      else
        match st.uuid with
        | some u => u
        | none =>
          hashUuid (fileName ++ ':' :: (t ++ ':' :: st.lines.headD []))
    let tags := deduplicate_tags (st.legacyTags ++ st.explicitTags) st.lines
    { st with
      acc := st.acc ++ [⟨entryUuid, st.entryId, day, t, st.lines, tags,
        st.metadata, build_numeric_metadata st.metadata⟩],
      entryId := none }

/-- One line of `parse_day_entries`'s loop (`parsers.py` lines 318-342). -/
def pdStep (fileName : Str) (day : Option Date) (st : PDState)
    (line : Str) : PDState :=
  match matchEntryLine line with
  | some g =>
    let st1 := finalizePD fileName day st
    let (legacy, rem) :=
      match legacyTagsMatch g.remainder with
      | some (runs, rest) => (runs, rest)
      | none => ([], g.remainder)
    let rs := parse_stored_entry_remainder (pyLStrip rem)
    { st1 with
      uuid := g.uuidPart,
      time := some (pyStripChar ':' g.timePart),
      entryId := g.identPart.map pyStrip,
      lines := [rs.message],
      legacyTags := legacy,
      metadata := rs.metadata,
      explicitTags := rs.explicitTags }
  | none =>
    match st.time with
    | some _ => { st with lines := st.lines ++ [line] }
    | none => st

/-- `parse_day_entries` (`parsers.py` lines 263-344) over the file's
lines. -/
def parse_day_entries (fileName : Str) (day : Option Date)
    (lines : List Str) : List PEntry :=
  (finalizePD fileName day
    (lines.foldl (pdStep fileName day) ⟨none, none, none, [], [], [], [], []⟩)).acc

/-!  ### The filesystem and the per-file sync pass -/

/-- A day file on disk: its text as split lines plus whether the raw text
ends in a newline (which `_write_if_changed` preserves), and an mtime in
integer ticks (the float comparison `abs(a - b) > 1e-6` is exact
inequality of ticks). -/
structure FsFile where
  name : Str
  lines : List Str
  trailingNewline : Bool
  mtime : Nat
  deriving DecidableEq, Repr

/-- The diary directory: its files in name order (`sorted(glob)`), and
the tick the next write will stamp as an mtime. -/
structure Fs where
  files : List FsFile
  clock : Nat
  deriving DecidableEq, Repr

/-- `_split_header` (`sync.py` lines 29-35). -/
def split_header (lines : List Str) : List Str :=
  lines.takeWhile fun l => (matchEntryLine l).isNone

/-- Modelled from the spec: the serialized header of an entry carrying an
id block, `HH:MM [id]: message`, then the ` | `-joined metadata and tag
segments.  `_render_entry` and `append_entry` pass `entry_id=` to
`format_entry_header`, whose definition in `parsers.py` (lines 114-133)
is missing that parameter mid-refactor; the spec's storage format and the
repository's test expectations (`10:00 [4]: ...`) fix the id block's
placement inside the timestamp prefix, and every other part of the
rendering is `format_entry_header` itself. -/
def format_entry_header_id (timestamp message : Str)
    (metadata : List (Str × Str)) (extraTagMarkers : List Str)
    (entryId : Option Str) : Str :=
  format_entry_header
    (timestamp ++ (match entryId with
      | none => []
      | some i => ' ' :: '[' :: (i ++ [']'])))
    message metadata extraTagMarkers

/-- `_render_entry` (`sync.py` lines 38-55). -/
def render_entry (e : PEntry) : List Str :=
  let message := e.lines.headD []
  let inlineTags := deduplicate_tags [] e.lines
  let explicitMarkers := e.tags.filter fun tg => tg ∉ inlineTags
  format_entry_header_id e.timestamp message e.metadata explicitMarkers
    e.entryId :: e.lines.drop 1

/-- `_write_if_changed` (`sync.py` lines 58-77): compare the re-rendered
lines with the file's lines (the texts agree exactly when the line lists
do, the trailing newline being preserved) and stamp a fresh mtime on a
real write. -/
def write_if_changed (f : FsFile) (rendered : List Str) (clock : Nat) :
    FsFile × Bool :=
  if rendered = f.lines then (f, false)
  else ({ f with lines := rendered, mtime := clock }, true)

/-- `SELECT entry_uuid, source_file FROM entries WHERE id = ?` (first
row; ids are unique in every database considered). -/
def findEntryRowById (db : Db) (i : Nat) : Option DbEntry :=
  db.entries.find? fun r => r.id = i

/-- The `UPDATE entries SET entry_uuid = ?, source_file = ?,
timestamp = ? WHERE id = ?` of `_normalize_entries`. -/
def updateEntryRow (db : Db) (i : Nat) (u src ts : Str) : Db :=
  { db with entries := db.entries.map fun r =>
      if r.id = i then ⟨i, u, src, ts⟩ else r }

/-- The stamped-id branch of one `_normalize_entries` iteration
(`sync.py` lines 97-121): a usable digit id keeps or inserts the row;
a conflicting owner falls through.  An explicit `INSERT` with an id
raises the AUTOINCREMENT sequence to at least that id. -/
def normalizeStep1 (db : Db) (fileName : Str) (e : PEntry) :
    Option (Db × Nat) :=
  match e.entryId with
  | some s =>
    if s ≠ [] ∧ s.all isDigitC then
      let candidate := decVal s
      match findEntryRowById db candidate with
      | some row =>
        if row.uuid = e.uuid ∧ row.sourceFile = fileName then
          some (db, candidate)
        else none
      | none =>
        some ({ db with
          entries := db.entries ++
            [⟨candidate, e.uuid, fileName, e.timestamp⟩],
          seq := max db.seq candidate }, candidate)
    else none
  | none => none

/-- The id resolution of one `_normalize_entries` iteration: the stamped
id when it is usable, else the uuid lookup, else a fresh
AUTOINCREMENT id. -/
def normalizeResolve (db : Db) (fileName : Str) (e : PEntry) :
    Db × Nat :=
  match normalizeStep1 db fileName e with
  | some r => r
  | none =>
    match db.entries.find? (fun r => r.uuid = e.uuid) with
    | some row => (db, row.id)
    | none =>
      ({ db with
        entries := db.entries ++
          [⟨db.seq + 1, e.uuid, fileName, e.timestamp⟩],
        seq := db.seq + 1 }, db.seq + 1)

/-- One entry of `_normalize_entries`'s loop (`sync.py` lines 91-148):
the state is `(db, assigned ids, normalized entries)`. -/
def normalizeOne (fileName : Str) (st : Db × List Nat × List PEntry)
    (e : PEntry) : Db × List Nat × List PEntry :=
  let (db, assigned, norm) := st
  let (db1, idv) := normalizeResolve db fileName e
  let newUuid := fileName ++ ':' :: decStr idv
  let db2 := updateEntryRow db1 idv newUuid fileName e.timestamp
  (db2, assigned ++ [idv],
   norm ++ [{ e with entryId := some (decStr idv), uuid := newUuid }])

/-- `_normalize_entries` (`sync.py` lines 80-165): assign ids, then drop
the index rows of this file's ids that vanished from the file. -/
def normalize_entries (db : Db) (fileName : Str) (entries : List PEntry) :
    Db × List PEntry :=
  let (db1, assigned, norm) :=
    entries.foldl (normalizeOne fileName) (db, [], [])
  let existing :=
    (db1.entries.filter fun r => r.sourceFile = fileName).map fun r => r.id
  let missing := existing.filter fun i => i ∉ assigned
  ({ db1 with
    tags := db1.tags.filter fun t => t.entryId ∉ missing,
    words := db1.words.filter fun w => w.entryId ∉ missing,
    metadata := db1.metadata.filter fun m => m.entryId ∉ missing,
    entries := db1.entries.filter fun r => r.id ∉ missing }, norm)

/-- Numeric lookup `entry.metadata_numbers.get(key)`. -/
def qLookup (l : List (Str × ℚ)) (k : Str) : Option ℚ :=
  (l.find? fun kv => kv.1 = k).map fun kv => kv.2

/-- One entry of `_reindex_entries` (`sync.py` lines 168-211): replace
the tag, word, and metadata rows of every entry holding a numeric id.
Python's `set()` is modelled as first-occurrence deduplication. -/
def reindexOne (db : Db) (e : PEntry) : Db :=
  if hasDigitId e then
    let i := decVal ((e.entryId).getD [])
    let ws := extract_words_from_text (List.intercalate ['\n'] e.lines)
    { db with
      tags := db.tags.filter (fun t => ¬t.entryId = i) ++
        (if e.tags ≠ [] then e.tags.eraseDups.map fun tg => ⟨i, tg⟩
         else []),
      words := db.words.filter (fun w => ¬w.entryId = i) ++
        (if ws ≠ [] then ws.eraseDups.map fun w => ⟨i, w⟩ else []),
      metadata := db.metadata.filter (fun m => ¬m.entryId = i) ++
        (if e.metadata ≠ [] then
          e.metadata.map fun kv =>
            ⟨i, kv.1, kv.2, qLookup e.metadataNumbers kv.1⟩
         else []) }
  else db

/-- `_reindex_entries` (`sync.py` lines 168-211). -/
def reindex_entries (db : Db) (entries : List PEntry) : Db :=
  entries.foldl reindexOne db

/-- The index effect of one full sync pass over one file: id assignment
followed by reindexing. -/
def syncIndexFile (db : Db) (fileName : Str) (entries : List PEntry) :
    Db × List PEntry :=
  let (db1, norm) := normalize_entries db fileName entries
  (reindex_entries db1 norm, norm)

/-- The uuid shape `parse_day_entries` gives the entries of one day
file: a digit-stamped entry's uuid is `fileName:id`, and any other
entry's uuid — a stored uuid token or a truncated SHA-256 hex digest —
contains no ':'. -/
@[reducible] def entryShape (fileName : Str) (e : PEntry) : Prop :=
  (∀ s, e.entryId = some s → s ≠ [] → s.all isDigitC = true →
    e.uuid = fileName ++ ':' :: s) ∧
  (hasDigitId e = false → ':' ∉ e.uuid)

/-- The row invariant `_normalize_entries` maintains on the `entries`
table: every `entry_uuid` is `source_file:id` and no source file name
contains ':'. -/
@[reducible] def rowShape (r : DbEntry) : Prop :=
  r.uuid = r.sourceFile ++ ':' :: decStr r.id ∧ ':' ∉ r.sourceFile

/-- The loop invariant of `_normalize_entries` relative to a
conflicting id's original owner row: the owner is present and is the
only row with its id, ids never exceed the AUTOINCREMENT sequence, the
sequence never decreases, and every row keeps `rowShape`. -/
@[reducible] def normInv (db0 : Db) (owner : DbEntry) (dbc : Db) : Prop :=
  owner ∈ dbc.entries ∧
  (∀ r ∈ dbc.entries, r.id = owner.id → r = owner) ∧
  (∀ r ∈ dbc.entries, r.id ≤ dbc.seq) ∧
  db0.seq ≤ dbc.seq ∧
  (∀ r ∈ dbc.entries, rowShape r)

/-- The `INSERT ... ON CONFLICT(path) DO UPDATE` upsert into
`synced_files`. -/
def upsertSyncedFile (db : Db) (name : Str) (mtime : Nat) (flag : Bool) :
    Db :=
  if db.syncedFiles.any (fun r => r.path = name) then
    { db with syncedFiles := db.syncedFiles.map fun r =>
        if r.path = name then ⟨name, mtime, flag⟩ else r }
  else { db with syncedFiles := db.syncedFiles ++ [⟨name, mtime, flag⟩] }

/-- What processing one file returns: the database, the file, the next
mtime tick, whether the file was rewritten, and whether the body
raised. -/
structure FileOutcome where
  db : Db
  file : FsFile
  clock : Nat
  wrote : Bool
  raised : Bool
  deriving DecidableEq, Repr

/-- The transaction body of `synchronize_diary` for one file (`sync.py`
lines 275-305): parse, normalize, reindex, re-render, defer or write,
upsert `synced_files`.  `fault` injects an exception before the
normalization (0), the reindexing (1), the write (2), or the
`synced_files` upsert (3); an exception triggers `ROLLBACK`, which
restores the database read at `BEGIN`, while a write already performed
stays on disk. -/
def syncFileBody (db : Db) (f : FsFile) (clock : Nat) (now : Date)
    (processToday : Bool) (fault : Option Nat) : FileOutcome :=
  let entryDate := resolve_entry_date f.name
  let headerLines := split_header f.lines
  let entries := parse_day_entries f.name entryDate f.lines
  let hadMissing := entries.any fun e => !hasDigitId e
  if fault = some 0 then ⟨db, f, clock, false, true⟩ else
  let dn := normalize_entries db f.name entries
  if fault = some 1 then ⟨db, f, clock, false, true⟩ else
  let db2 := reindex_entries dn.1 dn.2
  let rendered := headerLines ++ dn.2.flatMap render_entry
  let skipToday : Bool :=
    match entryDate with
    | some d => decide (d = now) && !processToday && hadMissing
    | none => false
  if fault = some 2 then ⟨db, f, clock, false, true⟩ else
  if skipToday then
    if fault = some 3 then ⟨db, f, clock, false, true⟩ else
    ⟨upsertSyncedFile db2 f.name f.mtime true, f, clock, false, false⟩
  else
    let wc := write_if_changed f rendered clock
    let clock1 := if wc.2 then clock + 1 else clock
    if fault = some 3 then ⟨db, wc.1, clock1, wc.2, true⟩ else
    ⟨upsertSyncedFile db2 f.name wc.1.mtime false, wc.1, clock1, wc.2,
     false⟩

/-- The outcome of a sync pass: the database, the files and clock of the
filesystem, the rewritten file names, and whether an exception
propagated. -/
structure SyncOutcome where
  db : Db
  files : List FsFile
  clock : Nat
  normalized : List Str
  raised : Bool
  deriving DecidableEq, Repr

/-- The pending-file condition of `synchronize_diary` (`sync.py` lines
256-259): a deferred file is due once its date is strictly before
`now`. -/
def pendingDue (name : Str) (now : Date) : Bool :=
  match resolve_entry_date name with
  | some d => dateLt d now
  | none => false

/-- The per-file skip decision of `synchronize_diary` (`sync.py` lines
249-261): a file is processed when forced, untracked, when its mtime
moved, or when its pending flag is set with the file's date strictly
before `now`. -/
def syncNeeds (tracked : List SyncedFileRow) (f : FsFile) (now : Date)
    (force : Bool) : Bool :=
  let record := (tracked.find? fun r => r.path = f.name).map
    fun r => (r.mtime, r.needsFinalSync)
  if force || record.isNone then true
  else
    match record with
    | some (m, p) =>
      if m ≠ f.mtime then true
      else if p then pendingDue f.name now
      else false
    | none => false

/-- A `synced_files` record that makes `synchronize_diary` skip the
file: the stored mtime is current and a set pending flag is not yet
due. -/
@[reducible] def goodRecord (tracked : List SyncedFileRow) (now : Date)
    (f : FsFile) : Prop :=
  ∃ p, tracked.find? (fun r => r.path = f.name) =
      some ⟨f.name, f.mtime, p⟩ ∧
    (p = true → pendingDue f.name now = false)

/-- The file loop of `synchronize_diary` (`sync.py` lines 244-312):
`tracked` is the `synced_files` snapshot read once before the loop.
`fault` names a file position and a step of `syncFileBody` at which an
exception fires; the exception aborts the loop after the rollback. -/
def syncLoop (now : Date) (force processToday : Bool)
    (tracked : List SyncedFileRow) :
    Db → List FsFile → Nat → Option (Nat × Nat) → SyncOutcome
  | db, [], clock, _ => ⟨db, [], clock, [], false⟩
  | db, f :: rest, clock, fault =>
    let restFault : Option (Nat × Nat) :=
      match fault with
      | some (i + 1, k) => some (i, k)
      | _ => none
    if syncNeeds tracked f now force then
      let thisFault : Option Nat :=
        match fault with
        | some (0, k) => some k
        | _ => none
      let bd := syncFileBody db f clock now processToday thisFault
      if bd.raised then ⟨bd.db, bd.file :: rest, bd.clock, [], true⟩
      else
        let out := syncLoop now force processToday tracked bd.db rest
          bd.clock restFault
        ⟨out.db, bd.file :: out.files, out.clock,
         (if bd.wrote then [f.name] else []) ++ out.normalized,
         out.raised⟩
    else
      let out := syncLoop now force processToday tracked db rest clock
        restFault
      ⟨out.db, f :: out.files, out.clock, out.normalized, out.raised⟩

/-- `synchronize_diary` (`sync.py` lines 214-312): read the
`synced_files` snapshot and run the file loop. -/
def synchronize_diary (db : Db) (fs : Fs) (now : Date)
    (force processToday : Bool) (fault : Option (Nat × Nat)) :
    SyncOutcome :=
  syncLoop now force processToday db.syncedFiles db fs.files fs.clock
    fault

/-!  ### Search result loading and entry creation -/

/-- The matched `(source_file, id)` rows of the compiled search query
(see `searchIds`). -/
def searchLocations (db : Db) (query : Str) : List (Str × Nat) :=
  (db.entries.filter fun e =>
    entryIncluded db e (tokenize_query query)).map fun e =>
      (e.sourceFile, e.id)

/-- Appending one location into the insertion-ordered
`defaultdict(list)` grouping of `load_matches`. -/
def addLoc (acc : List (Str × List Nat)) (loc : Str × Nat) :
    List (Str × List Nat) :=
  if acc.any fun g => g.1 = loc.1 then
    acc.map fun g => if g.1 = loc.1 then (g.1, g.2 ++ [loc.2]) else g
  else acc ++ [(loc.1, [loc.2])]

/-- The dict comprehension of `load_matches`: diary entries of a file
keyed by their numeric-id string, the last entry winning a duplicate
key. -/
def lookupDigitEntry (es : List PEntry) (key : Str) : Option PEntry :=
  es.foldl
    (fun acc e =>
      if hasDigitId e ∧ e.entryId = some key then some e else acc)
    none

/-- Insertion into a sorted list, after every element not strictly
greater (so the overall sort below is stable, as Python's `sort`). -/
def insOrdered {α : Type} (lt : α → α → Bool) (a : α) :
    List α → List α
  | [] => [a]
  | b :: l => if lt a b then a :: b :: l else b :: insOrdered lt a l

/-- Stable sort by a strict comparator. -/
def stableSortBy {α : Type} (lt : α → α → Bool) (l : List α) : List α :=
  l.foldl (fun acc a => insOrdered lt a acc) []

/-- The sort key order of `load_matches`:
`(entry.day or date.min, entry.timestamp)`. -/
def entryOrdLt (a b : PEntry) : Bool :=
  let ka := a.day.getD ⟨1, 1, 1⟩
  let kb := b.day.getD ⟨1, 1, 1⟩
  dateLt ka kb || (ka = kb && strLt a.timestamp b.timestamp)

/-- `load_matches` (`search.py` lines 133-161): group the matched
locations by file, re-parse each file, keep only entries whose id
*in the file's text* is numeric, and sort. -/
def load_matches (files : List FsFile) (locations : List (Str × Nat)) :
    List PEntry :=
  let fileMap := locations.foldl addLoc []
  let found := fileMap.flatMap fun g =>
    match files.find? (fun f => f.name = g.1) with
    | none => []
    | some f =>
      let es := parse_day_entries f.name (resolve_entry_date f.name)
        f.lines
      g.2.filterMap fun i => lookupDigitEntry es (decStr i)
  stableSortBy entryOrdLt found

/-- The `UPDATE entries SET source_file = ?, timestamp = ? WHERE id = ?`
of `_ensure_entry_id`. -/
def updateEntrySrcTs (db : Db) (i : Nat) (src ts : Str) : Db :=
  { db with entries := db.entries.map fun r =>
      if r.id = i then { r with sourceFile := src, timestamp := ts }
      else r }

/-- `_ensure_entry_id` (`database.py` lines 135-161).  The `entries`
schema of `database.py` has no `entry_uuid` column, so rows it inserts
carry the empty string there (SQL NULL, equal to no parsed UUID). -/
def ensure_entry_id (db : Db) (sourceFile timestamp : Str)
    (entryId : Option Nat) : Db × Nat :=
  match entryId with
  | none =>
    ({ db with
      entries := db.entries ++ [⟨db.seq + 1, [], sourceFile, timestamp⟩],
      seq := db.seq + 1 }, db.seq + 1)
  | some i =>
    match findEntryRowById db i with
    | some _ => (updateEntrySrcTs db i sourceFile timestamp, i)
    | none =>
      ({ db with
        entries := db.entries ++ [⟨i, [], sourceFile, timestamp⟩],
        seq := max db.seq i }, i)

/-- `_upsert_source_records` (`database.py` lines 164-186); `set()` is
modelled as first-occurrence deduplication. -/
def upsert_source_records (db : Db) (i : Nat) (tags words : List Str)
    (metadata : List (Str × (Str × Option ℚ))) : Db :=
  { db with
    tags := db.tags ++
      (if tags ≠ [] then tags.eraseDups.map fun tg => ⟨i, tg⟩ else []),
    words := db.words ++
      (if words ≠ [] then words.eraseDups.map fun w => ⟨i, w⟩ else []),
    metadata := db.metadata ++
      (if metadata ≠ [] then
        metadata.map fun kv => ⟨i, kv.1, kv.2.1, kv.2.2⟩
       else []) }

/-- `database.add_entry` (`database.py` lines 189-217). -/
def add_entry (db : Db) (sourceFile timestamp : Str)
    (tags words : List Str) (metadata : List (Str × (Str × Option ℚ)))
    (entryId : Option Nat) : Db × Nat :=
  let (db1, i) := ensure_entry_id db sourceFile timestamp entryId
  (upsert_source_records db1 i tags words metadata, i)

/-- The index effect of `create_entry` (`add.py` lines 128-157):
`database.add_entry` first, then the day-file write; when the write
raises, the tags, words, metadata, and entries rows of the new id are
deleted and the exception propagates (`none`). -/
def create_entry (db : Db) (sourceFile timestamp : Str)
    (tags words : List Str) (metadata : List (Str × (Str × Option ℚ)))
    (writeOk : Bool) : Db × Option Nat :=
  let (db1, i) := add_entry db sourceFile timestamp tags words metadata
    none
  if writeOk then (db1, some i)
  else
    ({ db1 with
      tags := db1.tags.filter fun t => ¬t.entryId = i,
      words := db1.words.filter fun w => ¬w.entryId = i,
      metadata := db1.metadata.filter fun m => ¬m.entryId = i,
      entries := db1.entries.filter fun r => ¬r.id = i }, none)

/-- See `searchLocations`: the matched ids alone, over a database whose
entries list is kept in `(source_file, id)` order with distinct ids (as
every database considered here is), realizing the query's
`SELECT DISTINCT ... ORDER BY e.source_file, e.id`. -/
def searchIds (db : Db) (query : Str) : List Nat :=
  (searchLocations db query).map fun loc => loc.2

/-! ## Supporting lemmas -/

theorem drop_takeWhile_length {α} (p : α → Bool) (l : List α) :
    l.drop (l.takeWhile p).length = l.dropWhile p := by
  induction l with
  | nil => rfl
  | cons a l ih =>
    simp only [List.takeWhile_cons, List.dropWhile_cons]
    split <;> simp [ih]

theorem takeWhile_append_stop {α} (p : α → Bool) {xs : List α} {c : α}
    (v : List α) (hxs : ∀ x ∈ xs, p x = true) (hc : p c = false) :
    (xs ++ c :: v).takeWhile p = xs := by
  induction xs with
  | nil => simp [List.takeWhile_cons, hc]
  | cons a xs ih =>
    have ha := hxs a (by simp)
    simp only [List.cons_append, List.takeWhile_cons, ha, if_true]
    rw [ih fun x hx => hxs x (by simp [hx])]

theorem dropWhile_head_false {α} (p : α → Bool) {l : List α} {c : α}
    {t : List α} (h : l.dropWhile p = c :: t) : p c = false := by
  induction l with
  | nil => simp at h
  | cons a l ih =>
    by_cases hp : p a = true
    · rw [List.dropWhile_cons, if_pos hp] at h
      exact ih h
    · rw [List.dropWhile_cons, if_neg hp] at h
      cases h
      exact Bool.eq_false_iff.mpr hp

theorem numericBody_concat_false {y : Str} {c : Char}
    (hc : isDigitC c = false) : numericBody (y ++ [c]) = false := by
  unfold numericBody
  simp only [drop_takeWhile_length]
  split
  · rename_i heq
    exfalso
    have hall : (y ++ [c]).takeWhile isDigitC = y ++ [c] := by
      have h2 := List.takeWhile_append_dropWhile (p := isDigitC) (l := y ++ [c])
      rw [heq, List.append_nil] at h2
      exact h2
    have hmem : c ∈ (y ++ [c]).takeWhile isDigitC := by rw [hall]; simp
    have h3 := List.mem_takeWhile_imp hmem
    rw [h3] at hc
    cases hc
  · rename_i fs heq
    apply Bool.and_eq_false_iff.mpr
    right
    have hsplit := List.takeWhile_append_dropWhile (p := isDigitC) (l := y ++ [c])
    rw [heq] at hsplit
    cases hfs : fs.reverse with
    | nil =>
      have hfse : fs = [] := by simpa using congrArg List.reverse hfs
      subst hfse
      simp
    | cons d fs' =>
      have hfs2 : fs = fs'.reverse ++ [d] := by
        simpa using congrArg List.reverse hfs
      have h1 : ((y ++ [c]).takeWhile isDigitC ++ '.' :: fs).getLast? =
          (y ++ [c]).getLast? := by rw [hsplit]
      rw [List.getLast?_concat, List.getLast?_append_of_ne_nil _ (by simp)] at h1
      rw [hfs2, ← List.cons_append, List.getLast?_concat] at h1
      have hdc : d = c := Option.some.inj h1
      have hcfs : c ∈ fs := by rw [hfs2, ← hdc]; simp
      cases hall : fs.all isDigitC with
      | false => simp [hall]
      | true =>
        exfalso
        have h4 := List.all_eq_true.mp hall c hcfs
        rw [h4] at hc
        cases hc
  · rename_i heq _
    simp

theorem numericMatch_concat_false {u : Str} {c : Char}
    (hc : isDigitC c = false) : numericMatch (u ++ [c]) = false := by
  unfold numericMatch numericStrip
  cases u with
  | nil =>
    simp only [List.nil_append]
    by_cases h1 : c = '-'
    · rw [if_pos h1]; rfl
    · rw [if_neg h1]
      by_cases h2 : c = '+'
      · rw [if_pos h2]; rfl
      · rw [if_neg h2]
        simpa using numericBody_concat_false (y := []) hc
  | cons x u' =>
    simp only [List.cons_append]
    by_cases h1 : x = '-'
    · rw [if_pos h1]
      exact numericBody_concat_false hc
    · rw [if_neg h1]
      by_cases h2 : x = '+'
      · rw [if_pos h2]
        exact numericBody_concat_false hc
      · rw [if_neg h2]
        simpa using numericBody_concat_false (y := x :: u') hc

theorem toLower_eq_self {c : Char} (h : isUpperAlpha c = false) :
    c.toLower = c := by
  unfold Char.toLower
  simp only [isUpperAlpha, Bool.and_eq_false_iff, decide_eq_false_iff_not,
    not_le] at h
  rw [if_neg]
  omega

theorem pyLower_eq_self {s : Str} (h : ∀ c ∈ s, isUpperAlpha c = false) :
    pyLower s = s := by
  induction s with
  | nil => rfl
  | cons a s ih =>
    unfold pyLower
    simp only [List.map_cons]
    rw [toLower_eq_self (h a (by simp))]
    have := ih fun c hc => h c (by simp [hc])
    unfold pyLower at this
    rw [this]

/-! ## Claim theorems -/

/-- C7: for every metadata value string `v`, if `v` stripped and lowercased
is a numeric literal followed by `h`, `parse_numeric_value v` is that
number; followed by `m`, that number divided by 60; a bare numeric literal
parses directly; in every other case there is no numeric value.  Stated as
equality with the claim-side description `numericValueSpec`. -/
theorem claim_C7_parse_numeric_value (v : Str) :
    parse_numeric_value v = numericValueSpec v := by
  unfold parse_numeric_value numericValueSpec
  generalize pyLower (pyStrip v) = w
  induction w using List.reverseRecOn with
  | nil => rfl
  | append_singleton u c _ =>
    simp only [pyEndsWith, List.getLast?_concat, List.dropLast_concat,
      List.reverse_concat', List.reverse_reverse, Option.some.injEq]
    by_cases hch : c = 'h'
    · subst hch
      by_cases hnm : numericMatch u
      · simp [hnm]
      · simp only [Bool.false_eq_true] at hnm
        simp [hnm, numericMatch_concat_false (u := u) (c := 'h') (by decide)]
    · by_cases hcm : c = 'm'
      · subst hcm
        by_cases hnm : numericMatch u
        · simp [hnm]
        · simp only [Bool.false_eq_true] at hnm
          simp [hnm, numericMatch_concat_false (u := u) (c := 'm') (by decide)]
      · simp [hch, hcm]

theorem ne_colon_of_isKeyChar {c : Char} (h : isKeyChar c = true) : c ≠ ':' :=
  fun hc => absurd (hc ▸ h) (by decide)

theorem ne_colon_of_isLowerAlpha {c : Char} (h : isLowerAlpha c = true) :
    c ≠ ':' :=
  fun hc => absurd (hc ▸ h) (by decide)

theorem not_upper_of_isKeyChar {c : Char} (h : isKeyChar c = true) :
    isUpperAlpha c = false := by
  unfold isKeyChar isLowerAlpha isDigitC at h
  unfold isUpperAlpha
  simp only [Bool.or_eq_true, Bool.and_eq_true, decide_eq_true_eq] at h
  simp only [Bool.and_eq_false_iff, decide_eq_false_iff_not, not_le]
  omega

theorem not_upper_of_isLowerAlpha {c : Char} (h : isLowerAlpha c = true) :
    isUpperAlpha c = false := by
  unfold isLowerAlpha at h
  unfold isUpperAlpha
  simp only [Bool.and_eq_true, decide_eq_true_eq] at h
  simp only [Bool.and_eq_false_iff, decide_eq_false_iff_not, not_le]
  omega

theorem takeWhile_append_sat {α} (p : α → Bool) {xs : List α} (ys : List α)
    (hxs : ∀ x ∈ xs, p x = true) :
    (xs ++ ys).takeWhile p = xs ++ ys.takeWhile p := by
  induction xs with
  | nil => rfl
  | cons a xs ih =>
    simp only [List.cons_append, List.takeWhile_cons, hxs a (by simp), if_true]
    rw [ih fun x hx => hxs x (by simp [hx])]

/-- C8 counterexample: at the token `k:` + newline + `x` the claim's
characterization (`metadataTokenSpec`) yields the pair `(k, x)` while
`parse_metadata_token` yields nothing, because the regex `.` of the value
group does not match a newline. -/
theorem claim_C8_counterexample :
    parse_metadata_token ['k', ':', '\n', 'x'] = none ∧
      metadataTokenSpec ['k', ':', '\n', 'x'] = some (['k'], ['x']) ∧
      parse_metadata_token ['k', ':', '\n', 'x'] ≠
        metadataTokenSpec ['k', ':', '\n', 'x'] := by
  refine ⟨by decide, by decide, by decide⟩

/-- C8 (amended): for every token string `s` containing no newline
character, `parse_metadata_token s` returns a pair exactly when `s` has the
form `key:value` with the key (everything before the first colon) matching
`[a-z][a-z0-9_-]*` and the remainder after the first colon non-empty after
stripping and not beginning with `//`; the result is then the key and the
stripped remainder (`metadataTokenSpec`). -/
theorem claim_C8_parse_metadata_token (s : Str) (h : '\n' ∉ s) :
    parse_metadata_token s = metadataTokenSpec s := by
  cases s with
  | nil => rfl
  | cons c rest =>
    cases hca : isLowerAlpha c with
    | false =>
      have hcode : parse_metadata_token (c :: rest) = none := by
        unfold parse_metadata_token keyValueMatch
        simp [hca]
      rw [hcode]
      unfold metadataTokenSpec
      by_cases hco : ':' ∈ c :: rest
      · rw [if_pos hco]
        by_cases hcc : c = ':'
        · subst hcc
          simp [List.takeWhile_cons, metaKeyOk]
        · simp [List.takeWhile_cons, hcc, hca, metaKeyOk]
      · rw [if_neg hco]
    | true =>
      have hkt : ∀ x ∈ rest.takeWhile isKeyChar, isKeyChar x = true :=
        fun x hx => List.mem_takeWhile_imp hx
      have hrest := List.takeWhile_append_dropWhile (p := isKeyChar) (l := rest)
      cases hd : rest.dropWhile isKeyChar with
      | nil =>
        rw [hd, List.append_nil] at hrest
        have hcode : parse_metadata_token (c :: rest) = none := by
          unfold parse_metadata_token keyValueMatch keyValueAfter
          simp [hca, hd]
        rw [hcode]
        unfold metadataTokenSpec
        rw [if_neg]
        intro hco
        rcases List.mem_cons.mp hco with hcc | hcc
        · exact ne_colon_of_isLowerAlpha hca hcc.symm
        · rw [← hrest] at hcc
          exact ne_colon_of_isKeyChar (hkt ':' hcc) rfl
      | cons c' v =>
        rw [hd] at hrest
        have hc' : isKeyChar c' = false := dropWhile_head_false _ hd
        by_cases hcolon : c' = ':'
        · subst hcolon
          have hvnl : ∀ x ∈ v, x ≠ '\n' := by
            intro x hx hxn
            apply h
            subst hxn
            rw [List.mem_cons]
            right
            rw [← hrest]
            simp [hx]
          have hval : v.takeWhile (fun c => c ≠ '\n') = v := by
            rw [List.takeWhile_eq_self_iff]
            intro x hx
            simp [hvnl x hx]
          have hkey : pyLower (c :: rest.takeWhile isKeyChar) =
              c :: rest.takeWhile isKeyChar := by
            apply pyLower_eq_self
            intro x hx
            rcases List.mem_cons.mp hx with hxx | hxx
            · subst hxx; exact not_upper_of_isLowerAlpha hca
            · exact not_upper_of_isKeyChar (hkt x hxx)
          have hcode : parse_metadata_token (c :: rest) =
              (if v = [] then none
               else if pyStrip v = [] ∨ pyStartsWith ['/', '/'] (pyStrip v)
                 then none
               else some (c :: rest.takeWhile isKeyChar, pyStrip v)) := by
            unfold parse_metadata_token keyValueMatch keyValueAfter
            simp only [hca, if_true, hd, if_pos rfl, hval]
            by_cases hv : v = []
            · simp [hv]
            · simp only [hv, if_neg hv, if_false]
              simp [hkey]
          rw [hcode]
          have hkeyspec : (c :: rest).takeWhile (fun x => x ≠ ':') =
              c :: rest.takeWhile isKeyChar := by
            rw [List.takeWhile_cons]
            rw [if_pos (by simp [ne_colon_of_isLowerAlpha hca])]
            congr 1
            conv_lhs => rw [← hrest]
            rw [takeWhile_append_stop _ _
              (fun x hx => by simp [ne_colon_of_isKeyChar (hkt x hx)])
              (by simp)]
          have hrp : metaRestPart (c :: rest) = v := by
            unfold metaRestPart
            rw [hkeyspec]
            simp only [List.length_cons, List.drop_succ_cons]
            rw [drop_takeWhile_length, hd]
            rfl
          have hko : metaKeyOk (c :: rest.takeWhile isKeyChar) = true := by
            show (isLowerAlpha c &&
              (rest.takeWhile isKeyChar).all isKeyChar) = true
            rw [hca, List.all_eq_true.mpr hkt]
            rfl
          have hco : ':' ∈ c :: rest := by
            rw [List.mem_cons]
            right
            rw [← hrest]
            simp
          unfold metadataTokenSpec
          rw [if_pos hco, hkeyspec, hrp, hko]
          by_cases hv : v = []
          · subst hv
            rw [if_pos rfl, if_neg]
            simp [pyStrip, pyLStrip, pyRStrip]
          · rw [if_neg hv]
            by_cases hvs : pyStrip v = []
            · simp [hvs]
            · by_cases hss : pyStartsWith ['/', '/'] (pyStrip v) = true
              · simp [hvs, hss]
              · simp only [Bool.not_eq_true] at hss
                simp [hvs, hss]
        · have hcode : parse_metadata_token (c :: rest) = none := by
            unfold parse_metadata_token keyValueMatch keyValueAfter
            simp [hca, hd, hcolon]
          rw [hcode]
          unfold metadataTokenSpec
          by_cases hco : ':' ∈ c :: rest
          · rw [if_pos hco]
            have hkeyspec : (c :: rest).takeWhile (fun x => x ≠ ':') =
                c :: (rest.takeWhile isKeyChar ++ c' ::
                  v.takeWhile (fun x => x ≠ ':')) := by
              rw [List.takeWhile_cons,
                if_pos (by simp [ne_colon_of_isLowerAlpha hca])]
              congr 1
              conv_lhs => rw [← hrest]
              rw [takeWhile_append_sat _ _
                (fun x hx => by simp [ne_colon_of_isKeyChar (hkt x hx)])]
              rw [List.takeWhile_cons, if_pos (by simp [hcolon])]
            rw [hkeyspec]
            have hkof : metaKeyOk (c :: (rest.takeWhile isKeyChar ++ c' ::
                v.takeWhile (fun x => x ≠ ':'))) = false := by
              show (isLowerAlpha c && ((rest.takeWhile isKeyChar ++ c' ::
                v.takeWhile (fun x => x ≠ ':')).all isKeyChar)) = false
              rw [List.all_append]
              simp [List.all_cons, hc']
            rw [hkof]
            rfl
          · rw [if_neg hco]

/-- C8 witness: the amended theorem applies to the newline-free token
`time:2h` and recovers the pair `(time, 2h)`. -/
theorem claim_C8_parse_metadata_token_witness :
    ('\n' ∉ ['t', 'i', 'm', 'e', ':', '2', 'h']) ∧
      parse_metadata_token ['t', 'i', 'm', 'e', ':', '2', 'h'] =
        metadataTokenSpec ['t', 'i', 'm', 'e', ':', '2', 'h'] :=
  ⟨by decide, claim_C8_parse_metadata_token _ (by decide)⟩

theorem length_pyRStrip_le (s : Str) : (pyRStrip s).length ≤ s.length := by
  unfold pyRStrip
  rw [List.length_reverse]
  calc (s.reverse.dropWhile isPySpace).length
      ≤ s.reverse.length := (List.dropWhile_sublist _).length_le
    _ = s.length := List.length_reverse s

theorem length_pyLStrip_le (s : Str) : (pyLStrip s).length ≤ s.length :=
  (List.dropWhile_sublist _).length_le

theorem pyLStrip_eq_self_of_strip {m : Str} (h : pyStrip m = m) :
    pyLStrip m = m := by
  apply (List.dropWhile_suffix isPySpace).eq_of_length
  show (pyLStrip m).length = m.length
  have h1 := length_pyRStrip_le (pyLStrip m)
  have h2 := length_pyLStrip_le m
  have h3 : (pyRStrip (pyLStrip m)).length = m.length := congrArg List.length h
  omega

theorem pyRStrip_eq_self_of_strip {m : Str} (h : pyStrip m = m) :
    pyRStrip m = m := by
  have h1 := pyLStrip_eq_self_of_strip h
  unfold pyStrip at h
  rw [h1] at h
  exact h

theorem head_not_space_of_lstrip {c : Char} {t : Str}
    (h : pyLStrip (c :: t) = c :: t) : isPySpace c = false := by
  by_cases hc : isPySpace c = true
  · exfalso
    unfold pyLStrip at h
    rw [List.dropWhile_cons, if_pos hc] at h
    have := (List.dropWhile_sublist (l := t) isPySpace).length_le
    have hlen := congrArg List.length h
    simp only [List.length_cons] at hlen
    omega
  · exact Bool.eq_false_iff.mpr hc

theorem pyLStrip_cons_of_not_space {c : Char} {t : Str}
    (h : isPySpace c = false) : pyLStrip (c :: t) = c :: t := by
  unfold pyLStrip
  rw [List.dropWhile_cons, if_neg (by simp [h])]

theorem pyRStrip_eq_self_of_last {x : Str} {c : Char}
    (hx : x.getLast? = some c) (hc : isPySpace c = false) :
    pyRStrip x = x := by
  unfold pyRStrip
  cases hr : x.reverse with
  | nil =>
    have : x = [] := by simpa using congrArg List.reverse hr
    subst this
    cases hx
  | cons c' r =>
    have hc' : c' = c := by
      have := List.head?_reverse x
      rw [hr] at this
      simp only [List.head?_cons] at this
      rw [hx] at this
      exact Option.some.inj this
    subst hc'
    rw [List.dropWhile_cons, if_neg (by simp [hc])]
    rw [← hr, List.reverse_reverse]

theorem pyStrip_cons_space (x : Str) : pyStrip (' ' :: x) = pyStrip x := by
  unfold pyStrip pyLStrip
  rw [List.dropWhile_cons, if_pos (by decide)]

theorem pyRStrip_append_space (x : Str) : pyRStrip (x ++ [' ']) = pyRStrip x := by
  unfold pyRStrip
  rw [List.reverse_append]
  show ((' ' :: x.reverse).dropWhile isPySpace).reverse = _
  rw [List.dropWhile_cons, if_pos (by decide)]

theorem pyStrip_append_space_of_strip {m : Str} (h : pyStrip m = m) :
    pyStrip (m ++ [' ']) = m := by
  cases m with
  | nil => rfl
  | cons c t =>
    have hl := pyLStrip_eq_self_of_strip h
    have hr := pyRStrip_eq_self_of_strip h
    have hc := head_not_space_of_lstrip hl
    unfold pyStrip
    rw [show (c :: t) ++ [' '] = c :: (t ++ [' ']) from rfl]
    rw [pyLStrip_cons_of_not_space hc]
    rw [show c :: (t ++ [' ']) = (c :: t) ++ [' '] from rfl]
    rw [pyRStrip_append_space, hr]

theorem pyLStrip_no_space {s : Str}
    (h : s.all (fun c => !isPySpace c) = true) : pyLStrip s = s := by
  cases s with
  | nil => rfl
  | cons c t =>
    apply pyLStrip_cons_of_not_space
    have := List.all_eq_true.mp h c (by simp)
    simpa using this

theorem pyRStrip_no_space {s : Str}
    (h : s.all (fun c => !isPySpace c) = true) : pyRStrip s = s := by
  cases hr : s.reverse with
  | nil =>
    have : s = [] := by simpa using congrArg List.reverse hr
    subst this
    rfl
  | cons c r =>
    have hmem : c ∈ s := by
      have : c ∈ s.reverse := by rw [hr]; simp
      simpa using this
    apply pyRStrip_eq_self_of_last (c := c)
    · rw [← List.head?_reverse, hr]
      rfl
    · have := List.all_eq_true.mp h c hmem
      simpa using this

theorem pyStrip_no_space {s : Str}
    (h : s.all (fun c => !isPySpace c) = true) : pyStrip s = s := by
  unfold pyStrip
  rw [pyLStrip_no_space h, pyRStrip_no_space h]

theorem dropWhile_append_stop {α} (p : α → Bool) {xs : List α} {c : α}
    (v : List α) (hxs : ∀ x ∈ xs, p x = true) (hc : p c = false) :
    (xs ++ c :: v).dropWhile p = c :: v := by
  induction xs with
  | nil => simp [List.dropWhile_cons, hc]
  | cons a xs ih =>
    simp only [List.cons_append, List.dropWhile_cons, hxs a (by simp),
      if_true]
    exact ih fun x hx => hxs x (by simp [hx])

theorem splitOn_first_of_no_bar {xs : Str} (h : '|' ∉ xs) (as : Str) :
    (xs ++ '|' :: as).splitOn '|' = xs :: as.splitOn '|' := by
  show (xs ++ '|' :: as).splitOnP (· == '|') = xs :: as.splitOnP (· == '|')
  refine List.splitOnP_first _ _ ?_ '|' (by simp) as
  intro x hx
  simp only [beq_iff_eq]
  exact fun he => h (he ▸ hx)

theorem splitOn_single_of_no_bar {s : Str} (h : '|' ∉ s) :
    s.splitOn '|' = [s] := by
  show s.splitOnP (· == '|') = [s]
  refine List.splitOnP_eq_single _ _ ?_
  intro x hx
  simp only [beq_iff_eq]
  exact fun he => h (he ▸ hx)

theorem splitOn_cons_sep (rest : Str) :
    ('|' :: rest).splitOn '|' = [] :: rest.splitOn '|' := by
  show ('|' :: rest).splitOnP (· == '|') = [] :: rest.splitOnP (· == '|')
  rw [List.splitOnP_cons, if_pos (by simp)]

theorem splitOn_cons_nonsep {c : Char} (h : c ≠ '|') (rest : Str) :
    (c :: rest).splitOn '|' =
      (rest.splitOn '|').modifyHead (List.cons c) := by
  show (c :: rest).splitOnP (· == '|') = _
  rw [List.splitOnP_cons, if_neg (by simp [h])]
  rfl

theorem map_pyStrip_modifyHead_space (L : List Str) :
    (L.modifyHead (List.cons ' ')).map pyStrip = L.map pyStrip := by
  cases L with
  | nil => rfl
  | cons x xs => simp [List.modifyHead, pyStrip_cons_space]

theorem intercalate_cons_cons {α} (sep : List α) (x y : List α)
    (l : List (List α)) :
    List.intercalate sep (x :: y :: l) =
      x ++ sep ++ List.intercalate sep (y :: l) := by
  unfold List.intercalate
  rw [List.intersperse_cons_cons]
  simp [List.append_assoc]

theorem intercalate_singleton' {α} (sep : List α) (x : List α) :
    List.intercalate sep [x] = x := by
  unfold List.intercalate
  simp

theorem map_pyStrip_splitOn_intercalate :
    ∀ parts : List Str, parts ≠ [] →
      (∀ s ∈ parts, '|' ∉ s ∧ pyStrip s = s) →
      ((List.intercalate [' ', '|', ' '] parts).splitOn '|').map pyStrip
        = parts := by
  intro parts
  induction parts with
  | nil => intro h; cases h rfl
  | cons p parts ih =>
    intro _ hv
    cases parts with
    | nil =>
      rw [intercalate_singleton']
      rw [splitOn_single_of_no_bar (hv p (by simp)).1]
      simp [(hv p (by simp)).2]
    | cons q parts' =>
      rw [intercalate_cons_cons]
      have hshape : p ++ [' ', '|', ' '] ++
          List.intercalate [' ', '|', ' '] (q :: parts') =
          (p ++ [' ']) ++ '|' ::
            (' ' :: List.intercalate [' ', '|', ' '] (q :: parts')) := by
        simp [List.append_assoc]
      rw [hshape]
      rw [splitOn_first_of_no_bar (by
        intro hmem
        rcases List.mem_append.mp hmem with h1 | h1
        · exact (hv p (by simp)).1 h1
        · simp at h1)]
      rw [splitOn_cons_nonsep (by decide)]
      rw [List.map_cons, map_pyStrip_modifyHead_space]
      rw [ih (by simp) (fun s hs => hv s (by simp [hs]))]
      rw [pyStrip_append_space_of_strip (hv p (by simp)).2]

theorem pyWords_intercalate_space :
    ∀ tokens : List Str,
      (∀ t ∈ tokens, t ≠ [] ∧ t.all (fun c => !isPySpace c) = true) →
      pyWords (List.intercalate [' '] tokens) = tokens := by
  intro tokens
  induction tokens with
  | nil => intro _; rfl
  | cons t tokens ih =>
    intro hv
    have hts : ∀ x ∈ t, ¬(isPySpace x = true) := fun x hx => by
      have := List.all_eq_true.mp (hv t (by simp)).2 x hx
      simpa using this
    cases tokens with
    | nil =>
      rw [intercalate_singleton']
      unfold pyWords
      rw [List.splitOnP_eq_single _ _ hts]
      simp [(hv t (by simp)).1]
    | cons t2 tokens' =>
      rw [intercalate_cons_cons]
      have hshape : t ++ [' '] ++ List.intercalate [' '] (t2 :: tokens') =
          t ++ ' ' :: List.intercalate [' '] (t2 :: tokens') := by
        simp
      rw [hshape]
      unfold pyWords
      rw [List.splitOnP_first _ _ hts ' ' (by decide)]
      rw [List.filter_cons]
      rw [if_pos (by simpa using (hv t (by simp)).1)]
      have := ih fun x hx => hv x (by simp [hx])
      unfold pyWords at this
      rw [this]

theorem ne_hash_of_isTagChar {c : Char} (h : isTagChar c = true) : c ≠ '#' :=
  fun hc => absurd (hc ▸ h) (by decide)

theorem not_upper_of_isTagChar {c : Char} (h : isTagChar c = true) :
    isUpperAlpha c = false := by
  unfold isTagChar isLowerAlpha at h
  unfold isUpperAlpha
  simp only [Bool.or_eq_true, Bool.and_eq_true, decide_eq_true_eq] at h
  simp only [Bool.and_eq_false_iff, decide_eq_false_iff_not, not_le]
  omega

theorem hashAt_cons (c : Char) (t : Str) :
    hashAt (c :: t) = (if c = '#' ∧ t.takeWhile isTagChar ≠ []
      then some (t.takeWhile isTagChar) else none) := by
  show (if c = '#' then
      if t.takeWhile isTagChar = [] then none
      else some (t.takeWhile isTagChar)
    else none) = _
  by_cases hc : c = '#'
  · rw [if_pos hc]
    by_cases hrun : t.takeWhile isTagChar = []
    · rw [if_pos hrun, if_neg fun hcon => hcon.2 hrun]
    · rw [if_neg hrun, if_pos ⟨hc, hrun⟩]
  · rw [if_neg hc, if_neg fun hcon => hc hcon.1]

theorem hashRuns_cons (c : Char) (t : Str) :
    hashRuns (c :: t) =
      (if c = '#' ∧ t.takeWhile isTagChar ≠ []
        then [t.takeWhile isTagChar] else []) ++ hashRuns t := by
  unfold hashRuns
  rw [List.length_cons, List.range_succ_eq_map, List.filterMap_cons,
    List.filterMap_map]
  have hcomp : ((fun i => hashAt ((c :: t).drop i)) ∘ Nat.succ) =
      (fun i => hashAt (t.drop i)) := funext fun i => rfl
  rw [hcomp, List.drop_zero, hashAt_cons]
  by_cases h : c = '#' ∧ t.takeWhile isTagChar ≠ []
  · rw [if_pos h, if_pos h]
    rfl
  · rw [if_neg h, if_neg h]
    rfl

theorem hashRuns_prepend_nonhash {xs : Str} (ys : Str)
    (h : ∀ x ∈ xs, x ≠ '#') : hashRuns (xs ++ ys) = hashRuns ys := by
  induction xs with
  | nil => rfl
  | cons a xs ih =>
    rw [List.cons_append, hashRuns_cons]
    rw [if_neg fun hcon => h a (by simp) hcon.1]
    simpa using ih fun x hx => h x (by simp [hx])

theorem fhAux_eq_hashRuns (f : Nat) :
    ∀ s : Str, s.length ≤ f → fhAux f s = hashRuns s := by
  induction f with
  | zero =>
    intro s hs
    have : s = [] := List.length_eq_zero.mp (Nat.le_zero.mp hs)
    subst this
    rfl
  | succ f ih =>
    intro s hs
    cases s with
    | nil => rfl
    | cons c rest =>
      rw [List.length_cons, Nat.succ_le_succ_iff] at hs
      rw [hashRuns_cons]
      show (if c = '#' then _ else _) = _
      by_cases hc : c = '#'
      · rw [if_pos hc]
        by_cases hrun : rest.takeWhile isTagChar = []
        · rw [if_pos hrun, if_neg fun hcon => hcon.2 hrun, ih rest hs]
          rfl
        · rw [if_neg hrun, if_pos ⟨hc, hrun⟩]
          have hdw : rest.drop (rest.takeWhile isTagChar).length =
              rest.dropWhile isTagChar := drop_takeWhile_length _ _
          have hlen : (rest.drop (rest.takeWhile isTagChar).length).length
              ≤ f := by
            rw [List.length_drop]
            omega
          rw [ih _ hlen, hdw]
          have hsplit : rest = rest.takeWhile isTagChar ++
              rest.dropWhile isTagChar :=
            (List.takeWhile_append_dropWhile (p := isTagChar) (l := rest)).symm
          have h2 : hashRuns rest = hashRuns (rest.dropWhile isTagChar) := by
            conv_lhs => rw [hsplit]
            exact hashRuns_prepend_nonhash _ fun x hx =>
              ne_hash_of_isTagChar (List.mem_takeWhile_imp hx)
          rw [h2]
          rfl
      · rw [if_neg hc, if_neg fun hcon => hc hcon.1, ih rest hs]
        rfl

theorem findHashtags_eq_hashRuns (l : Str) : findHashtags l = hashRuns l :=
  fhAux_eq_hashRuns l.length l (Nat.le_refl _)

theorem hashAt_some_all_tagChar {l t : Str} (h : hashAt l = some t) :
    t.all isTagChar = true := by
  cases l with
  | nil => cases h
  | cons c rest =>
    rw [hashAt_cons] at h
    by_cases hcon : c = '#' ∧ rest.takeWhile isTagChar ≠ []
    · rw [if_pos hcon] at h
      cases h
      exact List.all_eq_true.mpr fun x hx => List.mem_takeWhile_imp hx
    · rw [if_neg hcon] at h
      cases h

theorem findHashtags_all_tagChar (l : Str) :
    (findHashtags l).all (fun t => t.all isTagChar) = true := by
  rw [findHashtags_eq_hashRuns]
  apply List.all_eq_true.mpr
  intro t ht
  obtain ⟨i, _, hsome⟩ := List.mem_filterMap.mp ht
  exact hashAt_some_all_tagChar hsome

theorem foldl_flatMap {α β γ : Type} (l : List α) (g : α → List β)
    (f : γ → β → γ) (b : γ) :
    (l.flatMap g).foldl f b = l.foldl (fun b a => (g a).foldl f b) b := by
  induction l generalizing b with
  | nil => rfl
  | cons a l ih => simp [List.flatMap_cons, List.foldl_append, ih]

theorem registerTag_eq_step {seen : List Str} {t : Str}
    (h : t.all isTagChar = true) :
    registerTag seen t =
      (if t ≠ [] ∧ t ∉ seen then seen ++ [t] else seen) := by
  show (if pyLower t ≠ [] ∧ pyLower t ∉ seen
    then seen ++ [pyLower t] else seen) = _
  rw [pyLower_eq_self fun c hc =>
    not_upper_of_isTagChar (List.all_eq_true.mp h c hc)]

theorem foldl_registerTag_eq {ts : List Str}
    (h : ∀ t ∈ ts, t.all isTagChar = true) (seen : List Str) :
    ts.foldl registerTag seen = ts.foldl
      (fun seen t => if t ≠ [] ∧ t ∉ seen then seen ++ [t] else seen) seen := by
  induction ts generalizing seen with
  | nil => rfl
  | cons a ts ih =>
    rw [List.foldl_cons, List.foldl_cons, registerTag_eq_step (h a (by simp))]
    exact ih (fun t ht => h t (by simp [ht])) _

theorem bandE {a b : Bool} (h : (a && b) = true) : a = true ∧ b = true := by
  simpa using h

theorem bandI {a b : Bool} (h1 : a = true) (h2 : b = true) :
    (a && b) = true := by
  simp [h1, h2]

theorem metaKeyOk_shape {k : Str} (h : metaKeyOk k = true) :
    ∃ c kt, k = c :: kt ∧ isLowerAlpha c = true ∧ kt.all isKeyChar = true := by
  cases k with
  | nil => cases h
  | cons c kt =>
    have h2 : (isLowerAlpha c && kt.all isKeyChar) = true := h
    exact ⟨c, kt, rfl, (bandE h2).1, (bandE h2).2⟩

theorem not_space_of_isKeyChar {c : Char} (h : isKeyChar c = true) :
    isPySpace c = false := by
  unfold isKeyChar isLowerAlpha isDigitC at h
  unfold isPySpace
  simp only [Bool.or_eq_true, Bool.and_eq_true, decide_eq_true_eq] at h
  simp only [Bool.or_eq_false_iff, Bool.and_eq_false_iff,
    decide_eq_false_iff_not, not_le]
  omega

theorem not_space_of_isLowerAlpha {c : Char} (h : isLowerAlpha c = true) :
    isPySpace c = false := by
  unfold isLowerAlpha at h
  unfold isPySpace
  simp only [Bool.and_eq_true, decide_eq_true_eq] at h
  simp only [Bool.or_eq_false_iff, Bool.and_eq_false_iff,
    decide_eq_false_iff_not, not_le]
  omega

theorem ne_hash_of_isLowerAlpha {c : Char} (h : isLowerAlpha c = true) :
    c ≠ '#' :=
  fun hc => absurd (hc ▸ h) (by decide)

theorem validValue_parts {v : Str} (h : validValue v = true) :
    v ≠ [] ∧ (∀ x ∈ v, isPySpace x = false) ∧ '|' ∉ v ∧
      pyStartsWith ['/', '/'] v = false := by
  have h1 := bandE h
  have h2 := bandE h1.1
  have h3 := bandE h2.1
  refine ⟨by simpa using h3.1, ?_, by simpa using h2.2, by simpa using h1.2⟩
  intro x hx
  have := List.all_eq_true.mp h3.2 x hx
  simpa using this

theorem validValue_no_newline {v : Str} (h : validValue v = true) :
    v.takeWhile (fun c => c ≠ '\n') = v := by
  rw [List.takeWhile_eq_self_iff]
  intro x hx
  have hns := (validValue_parts h).2.1 x hx
  simp only [decide_eq_true_eq]
  intro he
  rw [he] at hns
  exact absurd hns (by decide)

theorem parse_metadata_token_valid {k v : Str} (hk : metaKeyOk k = true)
    (hv : validValue v = true) :
    parse_metadata_token (k ++ ':' :: v) = some (k, v) := by
  obtain ⟨c, kt, hkeq, hca, hkt⟩ := metaKeyOk_shape hk
  subst hkeq
  have hktall : ∀ x ∈ kt, isKeyChar x = true := List.all_eq_true.mp hkt
  obtain ⟨hvne, hvns, _, hvss⟩ := validValue_parts hv
  have hkv : keyValueMatch ((c :: kt) ++ ':' :: v) = some (c :: kt, v) := by
    show (if isLowerAlpha c then
        keyValueAfter (c :: (kt ++ ':' :: v).takeWhile isKeyChar)
          ((kt ++ ':' :: v).dropWhile isKeyChar)
      else none) = _
    rw [if_pos hca]
    rw [takeWhile_append_stop _ _ hktall (by decide),
      dropWhile_append_stop _ _ hktall (by decide)]
    show (if ':' = ':' then
        if v.takeWhile (fun c => c ≠ '\n') = [] then none
        else some (c :: kt, v.takeWhile (fun c => c ≠ '\n'))
      else none) = _
    rw [if_pos rfl, validValue_no_newline hv, if_neg hvne]
  have hkey : pyLower (c :: kt) = c :: kt := by
    apply pyLower_eq_self
    intro x hx
    rcases List.mem_cons.mp hx with hxx | hxx
    · subst hxx; exact not_upper_of_isLowerAlpha hca
    · exact not_upper_of_isKeyChar (hktall x hxx)
  have hvstrip : pyStrip v = v := by
    apply pyStrip_no_space
    apply List.all_eq_true.mpr
    intro x hx
    simp [hvns x hx]
  unfold parse_metadata_token
  rw [hkv]
  show (if (decide (pyStrip v = []) || pyStartsWith ['/', '/'] (pyStrip v))
      = true then none else some (pyLower (c :: kt), pyStrip v)) = _
  rw [hvstrip, hkey, if_neg]
  simp [hvne, hvss]

theorem validTag_parts {tg : Str} (h : validTag tg = true) :
    tg ≠ [] ∧ (∀ x ∈ tg, isPySpace x = false ∧ isUpperAlpha x = false) ∧
      '|' ∉ tg ∧ tg.head? ≠ some '#' := by
  have h1 := bandE h
  have h2 := bandE h1.1
  have h3 := bandE h2.1
  refine ⟨by simpa using h3.1, ?_, by simpa using h2.2, by simpa using h1.2⟩
  intro x hx
  have := List.all_eq_true.mp h3.2 x hx
  simp only [Bool.and_eq_true, Bool.not_eq_true'] at this
  exact this

theorem normalize_tag_valid {tg : Str} (h : validTag tg = true) :
    normalize_tag ('#' :: tg) = some tg := by
  obtain ⟨hne, hch, _, hhd⟩ := validTag_parts h
  have hstrip : pyStrip ('#' :: tg) = '#' :: tg := by
    apply pyStrip_no_space
    rw [List.all_cons]
    refine bandI (by decide) (List.all_eq_true.mpr ?_)
    intro x hx
    simp [(hch x hx).1]
  have hdrop : ('#' :: tg).dropWhile (· = '#') = tg := by
    rw [List.dropWhile_cons, if_pos (by simp)]
    cases tg with
    | nil => rfl
    | cons c t =>
      rw [List.dropWhile_cons, if_neg]
      simp only [List.head?_cons, ne_eq, Option.some.injEq] at hhd
      simp [hhd]
  have hlow : pyLower tg = tg :=
    pyLower_eq_self fun c hc => (hch c hc).2
  unfold normalize_tag
  rw [hstrip, hdrop, hlow, if_neg hne]

theorem dictInsert_append_of_not_mem {A : List (Str × Str)} {k v : Str}
    (h : k ∉ A.map Prod.fst) : dictInsert A k v = A ++ [(k, v)] := by
  induction A with
  | nil => rfl
  | cons kv A ih =>
    unfold dictInsert
    rw [if_neg]
    · rw [ih fun hm => h (by simp [hm])]
      rfl
    · intro he
      exact h (by simp [he])

theorem remStep_meta_fold :
    ∀ (md : List (Str × Str)) (st : RemState),
      (∀ kv ∈ md, metaKeyOk kv.1 = true ∧ validValue kv.2 = true) →
      (md.map Prod.fst).Nodup →
      (∀ kv ∈ md, kv.1 ∉ st.metadata.map Prod.fst) →
      (md.map fun kv => kv.1 ++ ':' :: kv.2).foldl remStep st =
        ⟨st.message, st.metadata ++ md, st.explicitTags⟩ := by
  intro md
  induction md with
  | nil =>
    intro st _ _ _
    cases st
    simp
  | cons kv md ih =>
    intro st hval hnodup hdisj
    rw [List.map_cons, List.foldl_cons]
    obtain ⟨c, kt, hkeq, hca, _⟩ := metaKeyOk_shape (hval kv (by simp)).1
    have hstep : remStep st (kv.1 ++ ':' :: kv.2) =
        { st with metadata := st.metadata ++ [(kv.1, kv.2)] } := by
      unfold remStep
      rw [if_neg]
      · rw [parse_metadata_token_valid (hval kv (by simp)).1
          (hval kv (by simp)).2]
        show ({ st with metadata := dictInsert st.metadata kv.1 kv.2 }
          : RemState) = _
        rw [dictInsert_append_of_not_mem (hdisj kv (by simp))]
      · rw [hkeq]
        show ¬(['#'].isPrefixOf (c :: (kt ++ ':' :: kv.2)) = true)
        unfold List.isPrefixOf
        simp only [Bool.and_eq_true, beq_iff_eq]
        intro hcon
        exact ne_hash_of_isLowerAlpha hca hcon.1.symm
    rw [hstep]
    have hnodup2 : (md.map Prod.fst).Nodup :=
      (List.nodup_cons.mp (by simpa using hnodup)).2
    have hknotmd : kv.1 ∉ md.map Prod.fst :=
      (List.nodup_cons.mp (by simpa using hnodup)).1
    rw [ih _ (fun kv2 h2 => hval kv2 (by simp [h2])) hnodup2 ?_]
    · simp
    · intro kv2 h2
      simp only [List.map_append, List.mem_append]
      intro hcon
      rcases hcon with hcon | hcon
      · exact hdisj kv2 (by simp [h2]) hcon
      · simp only [List.map_cons, List.map_nil, List.mem_singleton] at hcon
        exact hknotmd (hcon ▸ List.mem_map_of_mem Prod.fst h2)

theorem remStep_tag_fold :
    ∀ (ts : List Str) (st : RemState),
      (∀ t ∈ ts, validTag t = true) →
      (ts.map fun t => '#' :: t).foldl remStep st =
        ⟨st.message, st.metadata, st.explicitTags ++ ts⟩ := by
  intro ts
  induction ts with
  | nil =>
    intro st _
    cases st
    simp
  | cons t ts ih =>
    intro st hval
    rw [List.map_cons, List.foldl_cons]
    have hstep : remStep st ('#' :: t) =
        { st with explicitTags := st.explicitTags ++ [t] } := by
      unfold remStep
      rw [if_pos]
      · rw [normalize_tag_valid (hval t (by simp))]
      · show ['#'].isPrefixOf ('#' :: t) = true
        unfold List.isPrefixOf
        simp
    rw [hstep, ih _ fun t2 h2 => hval t2 (by simp [h2])]
    simp

theorem validTimestamp_shape {t : Str} (h : validTimestamp t = true) :
    ∃ d1 d2 d3 d4, t = [d1, d2, ':', d3, d4] ∧ isDigitC d1 = true ∧
      isDigitC d2 = true ∧ isDigitC d3 = true ∧ isDigitC d4 = true := by
  cases t with
  | nil => cases h
  | cons d1 t1 =>
  cases t1 with
  | nil => cases h
  | cons d2 t2 =>
  cases t2 with
  | nil => cases h
  | cons c t3 =>
  cases t3 with
  | nil => cases h
  | cons d3 t4 =>
  cases t4 with
  | nil => cases h
  | cons d4 t5 =>
  cases t5 with
  | cons x t6 => cases h
  | nil =>
    have h2 : (isDigitC d1 && isDigitC d2 && decide (c = ':') &&
        isDigitC d3 && isDigitC d4) = true := h
    have e1 := bandE h2
    have e2 := bandE e1.1
    have e3 := bandE e2.1
    have e4 := bandE e3.1
    have hc : c = ':' := by simpa using e3.2
    subst hc
    exact ⟨d1, d2, d3, d4, rfl, e4.1, e4.2, e2.2, e1.2⟩

theorem takeWhile_no_newline_dropWhile {rest0 : Str} (hnl : '\n' ∉ rest0) :
    (rest0.dropWhile isPySpace).takeWhile (fun c => c ≠ '\n') =
      rest0.dropWhile isPySpace := by
  rw [List.takeWhile_eq_self_iff]
  intro x hx
  have hmem : x ∈ rest0 :=
    (List.dropWhile_sublist (l := rest0) isPySpace).subset hx
  simp only [decide_eq_true_eq]
  intro he
  rw [he] at hmem
  exact hnl hmem

theorem matchIdentThenColon_colon (rest0 : Str) :
    matchIdentThenColon (':' :: rest0) = some (none, rest0) := by
  unfold matchIdentThenColon
  rw [List.takeWhile_cons, if_neg (by decide)]
  rfl

theorem matchFromTimestamp_valid {d1 d2 d3 d4 : Char}
    (hd1 : isDigitC d1 = true) (hd2 : isDigitC d2 = true)
    (hd3 : isDigitC d3 = true) (hd4 : isDigitC d4 = true)
    (rest0 : Str) (hnl : '\n' ∉ rest0) :
    matchFromTimestamp none (d1 :: d2 :: ':' :: d3 :: d4 :: ':' :: rest0) =
      some ⟨none, [d1, d2, ':', d3, d4], none, rest0.dropWhile isPySpace⟩ := by
  simp only [matchFromTimestamp, hd1, hd2, hd3, hd4, Bool.and_self,
    Bool.and_true, Bool.true_and, if_true, matchIdentThenColon_colon]
  rw [takeWhile_no_newline_dropWhile hnl]

theorem matchEntryLine_valid {t : Str} (ht : validTimestamp t = true)
    (rest0 : Str) (hnl : '\n' ∉ rest0) :
    matchEntryLine (t ++ ':' :: rest0) =
      some ⟨none, t, none, rest0.dropWhile isPySpace⟩ := by
  obtain ⟨d1, d2, d3, d4, hteq, hd1, hd2, hd3, hd4⟩ := validTimestamp_shape ht
  subst hteq
  have hline : ([d1, d2, ':', d3, d4] : Str) ++ ':' :: rest0 =
      d1 :: d2 :: ':' :: d3 :: d4 :: ':' :: rest0 := rfl
  rw [hline]
  have hcond : (((d1 :: d2 :: ':' :: d3 :: d4 :: ':' :: rest0).take 22).length
      = 22 && ((d1 :: d2 :: ':' :: d3 :: d4 :: ':' :: rest0).take 22).all
        isUuidChar) = false := by
    have h1 : isUuidChar ':' = false := by decide
    simp [List.take_succ_cons, List.all_cons, h1]
  simp only [matchEntryLine]
  rw [hcond]
  show matchFromTimestamp none (d1 :: d2 :: ':' :: d3 :: d4 :: ':' :: rest0)
    = _
  exact matchFromTimestamp_valid hd1 hd2 hd3 hd4 rest0 hnl

theorem last_not_space_of_strip {m : Str} {c : Char} (h : pyStrip m = m)
    (hc : m.getLast? = some c) : isPySpace c = false := by
  have hr := pyRStrip_eq_self_of_strip h
  have hrev : m.reverse.dropWhile isPySpace = m.reverse := by
    have h2 := congrArg List.reverse hr
    rw [show pyRStrip m = (m.reverse.dropWhile isPySpace).reverse from rfl,
      List.reverse_reverse] at h2
    exact h2
  cases hrc : m.reverse with
  | nil =>
    have : m = [] := by simpa using congrArg List.reverse hrc
    subst this
    cases hc
  | cons c' r =>
    have hcc : c' = c := by
      have := List.head?_reverse m
      rw [hrc] at this
      simp only [List.head?_cons] at this
      rw [hc] at this
      exact Option.some.inj this
    subst hcc
    rw [hrc] at hrev
    exact head_not_space_of_lstrip hrev

theorem hashAt_some_ne_nil {l t : Str} (h : hashAt l = some t) : t ≠ [] := by
  cases l with
  | nil => cases h
  | cons c rest =>
    rw [hashAt_cons] at h
    by_cases hcon : c = '#' ∧ rest.takeWhile isTagChar ≠ []
    · rw [if_pos hcon] at h
      cases h
      exact hcon.2
    · rw [if_neg hcon] at h
      cases h

theorem toFinset_foldl_register :
    ∀ (ts : List Str) (seen : List Str),
      (∀ t ∈ ts, pyLower t = t ∧ t ≠ []) →
      (ts.foldl registerTag seen).toFinset = seen.toFinset ∪ ts.toFinset := by
  intro ts
  induction ts with
  | nil => intro seen _; simp
  | cons t ts ih =>
    intro seen hv
    rw [List.foldl_cons]
    have hlow := (hv t (by simp)).1
    have hne := (hv t (by simp)).2
    have hreg : registerTag seen t =
        if t ∉ seen then seen ++ [t] else seen := by
      show (if pyLower t ≠ [] ∧ pyLower t ∉ seen
        then seen ++ [pyLower t] else seen) = _
      rw [hlow]
      by_cases hmem : t ∈ seen
      · rw [if_neg fun hcon => hcon.2 hmem, if_neg (not_not_intro hmem)]
      · rw [if_pos ⟨hne, hmem⟩, if_pos hmem]
    rw [hreg]
    by_cases hmem : t ∈ seen
    · rw [if_neg (not_not_intro hmem)]
      rw [ih seen fun x hx => hv x (by simp [hx])]
      ext x
      simp only [Finset.mem_union, List.mem_toFinset, List.mem_cons]
      constructor
      · rintro (h1 | h1)
        · exact Or.inl h1
        · exact Or.inr (Or.inr h1)
      · rintro (h1 | h1 | h1)
        · exact Or.inl h1
        · exact Or.inl (h1 ▸ hmem)
        · exact Or.inr h1
    · rw [if_pos hmem, ih (seen ++ [t]) fun x hx => hv x (by simp [hx])]
      ext x
      simp only [Finset.mem_union, List.mem_toFinset, List.mem_append,
        List.mem_cons, List.mem_singleton]
      tauto

theorem not_upper_of_isTagChar' {c : Char} (h : isTagChar c = true) :
    isUpperAlpha c = false := not_upper_of_isTagChar h

theorem dedup_tags_toFinset {ts : List Str} {m : Str}
    (hts : ∀ t ∈ ts, pyLower t = t ∧ t ≠ []) :
    (deduplicate_tags ts [m]).toFinset =
      ts.toFinset ∪ (findHashtags m).toFinset := by
  unfold deduplicate_tags
  simp only [List.foldl_cons, List.foldl_nil]
  rw [toFinset_foldl_register (findHashtags m) _ ?_]
  · rw [toFinset_foldl_register ts [] hts]
    simp
  · intro x hx
    rw [findHashtags_eq_hashRuns] at hx
    obtain ⟨i, _, hsome⟩ := List.mem_filterMap.mp hx
    constructor
    · apply pyLower_eq_self
      intro c hc
      exact not_upper_of_isTagChar
        (List.all_eq_true.mp (hashAt_some_all_tagChar hsome) c hc)
    · exact hashAt_some_ne_nil hsome

/-- C9: inline hashtag recognition collects exactly the maximal `[a-z-]`
runs immediately following a `#` (so `#Work` contributes no tag and
`#work2` contributes `work`), while `normalize_tag` normalizes the same
tokens to `work` and `work2` respectively; `deduplicate_tags` with no
initial tags records exactly the first-seen deduplication of those runs,
and every such inline tag consists only of lowercase letters and hyphens. -/
theorem claim_C9_inline_hashtags :
    (∀ l : Str, findHashtags l = hashRuns l) ∧
    (∀ lines : List Str, deduplicate_tags [] lines =
      dedupFirstSeen (lines.flatMap findHashtags)) ∧
    findHashtags ['#', 'W', 'o', 'r', 'k'] = [] ∧
    findHashtags ['#', 'w', 'o', 'r', 'k', '2'] = [['w', 'o', 'r', 'k']] ∧
    normalize_tag ['#', 'W', 'o', 'r', 'k'] = some ['w', 'o', 'r', 'k'] ∧
    normalize_tag ['#', 'w', 'o', 'r', 'k', '2'] =
      some ['w', 'o', 'r', 'k', '2'] ∧
    (∀ l : Str, (findHashtags l).all (fun t => t.all isTagChar) = true) := by
  refine ⟨findHashtags_eq_hashRuns, fun lines => ?_, by decide, by decide,
    by decide, by decide, findHashtags_all_tagChar⟩
  unfold deduplicate_tags dedupFirstSeen
  rw [foldl_flatMap]
  show lines.foldl
      (fun seen line => (findHashtags line).foldl registerTag seen) [] = _
  induction lines using List.reverseRecOn with
  | nil => rfl
  | append_singleton ls line ih =>
    rw [List.foldl_append, List.foldl_append, ih]
    simp only [List.foldl_cons, List.foldl_nil]
    exact foldl_registerTag_eq
      (fun t ht => List.all_eq_true.mp (findHashtags_all_tagChar line) t ht) _

theorem exists_getLast_of_ne_nil {α} {l : List α} (h : l ≠ []) :
    ∃ a, l.getLast? = some a := by
  cases hl : l.getLast? with
  | some a => exact ⟨a, rfl⟩
  | none => exact absurd (List.getLast?_eq_none_iff.mp hl) h

theorem notin_intercalate_space {c : Char} (hc : c ≠ ' ') :
    ∀ tokens : List Str, (∀ t ∈ tokens, c ∉ t) →
      c ∉ List.intercalate [' '] tokens := by
  intro tokens
  induction tokens with
  | nil => intro _; simp [List.intercalate]
  | cons t tokens ih =>
    intro hv
    cases tokens with
    | nil =>
      rw [intercalate_singleton']
      exact hv t (by simp)
    | cons t2 rest =>
      rw [intercalate_cons_cons]
      intro hmem
      rcases List.mem_append.mp hmem with h1 | h1
      · rcases List.mem_append.mp h1 with h2 | h2
        · exact hv t (by simp) h2
        · simp only [List.mem_singleton] at h2
          exact hc h2
      · exact ih (fun x hx => hv x (by simp [hx])) h1

theorem intercalate_space_ne_nil :
    ∀ {tokens : List Str}, tokens ≠ [] → (∀ t ∈ tokens, t ≠ []) →
      List.intercalate [' '] tokens ≠ [] := by
  intro tokens h1 h2
  cases tokens with
  | nil => cases h1 rfl
  | cons t rest =>
    cases rest with
    | nil =>
      rw [intercalate_singleton']
      exact h2 t (by simp)
    | cons t2 rest' =>
      rw [intercalate_cons_cons]
      simp

theorem getLast_intercalate_space :
    ∀ tokens : List Str, tokens ≠ [] → (∀ t ∈ tokens, t ≠ []) →
      ∃ tl ∈ tokens,
        (List.intercalate [' '] tokens).getLast? = tl.getLast? := by
  intro tokens
  induction tokens with
  | nil => intro h; cases h rfl
  | cons t tokens ih =>
    intro _ hv
    cases tokens with
    | nil =>
      rw [intercalate_singleton']
      exact ⟨t, by simp, rfl⟩
    | cons t2 rest =>
      obtain ⟨tl, htl, heq⟩ := ih (by simp) (fun x hx => hv x (by simp [hx]))
      refine ⟨tl, by simp [htl], ?_⟩
      rw [intercalate_cons_cons, List.append_assoc]
      rw [List.getLast?_append_of_ne_nil _ (by simp)]
      rw [List.getLast?_append_of_ne_nil _
        (intercalate_space_ne_nil (by simp) (fun x hx => hv x (by simp [hx])))]
      exact heq

theorem strip_intercalate_space :
    ∀ {tokens : List Str}, tokens ≠ [] →
      (∀ t ∈ tokens, t ≠ [] ∧ t.all (fun c => !isPySpace c) = true) →
      pyStrip (List.intercalate [' '] tokens) =
        List.intercalate [' '] tokens := by
  intro tokens hne hv
  have hR : pyRStrip (List.intercalate [' '] tokens) =
      List.intercalate [' '] tokens := by
    obtain ⟨tl, htl, hlast⟩ :=
      getLast_intercalate_space tokens hne (fun x hx => (hv x hx).1)
    obtain ⟨d, hd⟩ := exists_getLast_of_ne_nil (hv tl htl).1
    refine pyRStrip_eq_self_of_last (c := d) ?_ ?_
    · rw [hlast]; exact hd
    · have := List.all_eq_true.mp (hv tl htl).2 d (List.mem_of_mem_getLast? hd)
      simpa using this
  have hL : pyLStrip (List.intercalate [' '] tokens) =
      List.intercalate [' '] tokens := by
    cases tokens with
    | nil => cases hne rfl
    | cons t rest =>
      have ht := hv t (by simp)
      cases htc : t with
      | nil => exact absurd htc ht.1
      | cons c ct =>
        have hcs : isPySpace c = false := by
          have := List.all_eq_true.mp ht.2 c (by rw [htc]; simp)
          simpa using this
        cases rest with
        | nil =>
          rw [intercalate_singleton']
          exact pyLStrip_cons_of_not_space hcs
        | cons t2 rest' =>
          rw [intercalate_cons_cons]
          show pyLStrip (c :: ((ct ++ [' ']) ++
            List.intercalate [' '] (t2 :: rest'))) = _
          exact pyLStrip_cons_of_not_space hcs
  unfold pyStrip
  rw [hL, hR]

theorem newline_notin_of_no_space {s : Str}
    (h : s.all (fun c => !isPySpace c) = true) : '\n' ∉ s := by
  intro hmem
  have := List.all_eq_true.mp h _ hmem
  exact absurd this (by decide)

theorem meta_token_props {k v : Str} (hk : metaKeyOk k = true)
    (hv : validValue v = true) :
    (k ++ ':' :: v) ≠ [] ∧
      (k ++ ':' :: v).all (fun c => !isPySpace c) = true ∧
      '|' ∉ (k ++ ':' :: v) := by
  obtain ⟨c, kt, hkeq, hca, hkt⟩ := metaKeyOk_shape hk
  obtain ⟨hvne, hvns, hvb, _⟩ := validValue_parts hv
  subst hkeq
  refine ⟨by simp, ?_, ?_⟩
  · apply List.all_eq_true.mpr
    intro x hx
    rcases List.mem_append.mp hx with h1 | h1
    · rcases List.mem_cons.mp h1 with he | h2
      · subst he
        simp [not_space_of_isLowerAlpha hca]
      · simp [not_space_of_isKeyChar (List.all_eq_true.mp hkt x h2)]
    · rcases List.mem_cons.mp h1 with he | h2
      · subst he
        decide
      · simp [hvns x h2]
  · intro hmem
    rcases List.mem_append.mp hmem with h1 | h1
    · rcases List.mem_cons.mp h1 with he | h2
      · rw [← he] at hca
        exact absurd hca (by decide)
      · exact absurd (List.all_eq_true.mp hkt _ h2) (by decide)
    · rcases List.mem_cons.mp h1 with he | h2
      · exact absurd he (by decide)
      · exact hvb h2

theorem tag_token_props {tg : Str} (h : validTag tg = true) :
    ('#' :: tg) ≠ [] ∧ ('#' :: tg).all (fun c => !isPySpace c) = true ∧
      '|' ∉ ('#' :: tg) := by
  obtain ⟨hne, hch, hb, _⟩ := validTag_parts h
  refine ⟨by simp, ?_, ?_⟩
  · rw [List.all_cons]
    refine bandI (by decide) (List.all_eq_true.mpr ?_)
    intro x hx
    simp [(hch x hx).1]
  · intro hmem
    rcases List.mem_cons.mp hmem with he | hx
    · exact absurd he (by decide)
    · exact hb hx

theorem validMessage_parts {m : Str} (h : validMessage m = true) :
    pyStrip m = m ∧ '|' ∉ m ∧ '\n' ∉ m := by
  have h1 := bandE h
  have h2 := bandE h1.1
  exact ⟨by simpa using h2.1, by simpa using h2.2, by simpa using h1.2⟩

theorem validHeader_parts {t m : Str} {md : List (Str × Str)} {ts : List Str}
    (h : validHeader t m md ts = true) :
    validTimestamp t = true ∧ validMessage m = true ∧
      (∀ kv ∈ md, metaKeyOk kv.1 = true ∧ validValue kv.2 = true) ∧
      (md.map Prod.fst).Nodup ∧ (∀ tg ∈ ts, validTag tg = true) := by
  have h1 := bandE h
  have h2 := bandE h1.1
  have h3 := bandE h2.1
  have h4 := bandE h3.1
  refine ⟨h4.1, h4.2, ?_, by simpa using h2.2, ?_⟩
  · intro kv hkv
    exact bandE (List.all_eq_true.mp h3.2 kv hkv)
  · intro tg htg
    exact List.all_eq_true.mp h1.2 tg htg

theorem notin_intercalate_of {c : Char} {sep : Str} (hc : c ∉ sep) :
    ∀ blocks : List Str, (∀ B ∈ blocks, c ∉ B) →
      c ∉ List.intercalate sep blocks := by
  intro blocks
  induction blocks with
  | nil => intro _; simp [List.intercalate]
  | cons B rest ih =>
    intro hv
    cases rest with
    | nil =>
      rw [intercalate_singleton']
      exact hv B (by simp)
    | cons B2 rest' =>
      rw [intercalate_cons_cons]
      intro hmem
      rcases List.mem_append.mp hmem with h1 | h1
      · rcases List.mem_append.mp h1 with h2 | h2
        · exact hv B (by simp) h2
        · exact hc h2
      · exact ih (fun x hx => hv x (by simp [hx])) h1

theorem flatten_blocks_eq :
    ∀ {blocks : List Str}, blocks ≠ [] →
      (blocks.map fun B => ' ' :: '|' :: ' ' :: B).flatten =
        ' ' :: '|' :: ' ' :: List.intercalate [' ', '|', ' '] blocks := by
  intro blocks hne
  induction blocks with
  | nil => cases hne rfl
  | cons B rest ih =>
    cases rest with
    | nil => simp [intercalate_singleton']
    | cons B2 rest' =>
      rw [List.map_cons, List.flatten_cons, ih (by simp),
        intercalate_cons_cons]
      simp [List.append_assoc]

theorem dropWhile_space_append_msg {m : Str} (hm : m ≠ [])
    (hmst : pyStrip m = m) (X : Str) :
    List.dropWhile isPySpace ((' ' :: m) ++ X) = m ++ X := by
  cases m with
  | nil => cases hm rfl
  | cons c m2 =>
    have hc := head_not_space_of_lstrip (pyLStrip_eq_self_of_strip hmst)
    show List.dropWhile isPySpace (' ' :: (c :: (m2 ++ X))) = _
    rw [List.dropWhile_cons, if_pos (by decide), List.dropWhile_cons,
      if_neg (by simp [hc])]
    rfl

theorem parse_stored_entry_remainder_msg {m : Str} (hmb : '|' ∉ m)
    (hmst : pyStrip m = m) :
    parse_stored_entry_remainder m = ⟨m, [], []⟩ := by
  unfold parse_stored_entry_remainder
  rw [if_pos hmb, pyRStrip_eq_self_of_strip hmst]

theorem parse_stored_entry_remainder_eq {R : Str} (hbar : '|' ∈ R)
    {m0 : Str} {segs : List Str}
    (hsplit : (pySplitOn '|' R).map pyStrip = m0 :: segs) :
    parse_stored_entry_remainder R =
      segs.foldl (fun st seg => (pyWords seg).foldl remStep st)
        ⟨m0, [], []⟩ := by
  unfold parse_stored_entry_remainder
  rw [if_neg (not_not_intro hbar), hsplit]
  rfl

theorem split_map_sep_blocks {blocks : List Str} (hne : blocks ≠ [])
    (hv : ∀ B ∈ blocks, '|' ∉ B ∧ pyStrip B = B) :
    (pySplitOn '|'
        ('|' :: ' ' :: List.intercalate [' ', '|', ' '] blocks)).map
      pyStrip = [] :: blocks := by
  show (('|' :: ' ' ::
      List.intercalate [' ', '|', ' '] blocks).splitOn '|').map pyStrip = _
  rw [splitOn_cons_sep, splitOn_cons_nonsep (by decide), List.map_cons,
    map_pyStrip_modifyHead_space, map_pyStrip_splitOn_intercalate blocks hne hv]
  rfl

theorem split_map_msg_blocks {m : Str} {blocks : List Str}
    (hmb : '|' ∉ m) (hmst : pyStrip m = m)
    (hv : ∀ B ∈ blocks, '|' ∉ B ∧ pyStrip B = B) :
    (pySplitOn '|' (List.intercalate [' ', '|', ' '] (m :: blocks))).map
      pyStrip = m :: blocks := by
  show ((List.intercalate [' ', '|', ' ']
      (m :: blocks)).splitOn '|').map pyStrip = _
  refine map_pyStrip_splitOn_intercalate (m :: blocks) (by simp) ?_
  intro s hs
  rcases List.mem_cons.mp hs with he | h2
  · subst he
    exact ⟨hmb, hmst⟩
  · exact hv s h2

theorem fold_words_meta {md : List (Str × Str)}
    (hval : ∀ kv ∈ md, metaKeyOk kv.1 = true ∧ validValue kv.2 = true)
    (hnd : (md.map Prod.fst).Nodup) (st : RemState)
    (hdisj : ∀ kv ∈ md, kv.1 ∉ st.metadata.map Prod.fst) :
    (pyWords (List.intercalate [' ']
        (md.map fun kv => kv.1 ++ ':' :: kv.2))).foldl remStep st =
      ⟨st.message, st.metadata ++ md, st.explicitTags⟩ := by
  rw [pyWords_intercalate_space _ ?_]
  · exact remStep_meta_fold md st hval hnd hdisj
  · intro tok htok
    obtain ⟨kv, hkv, htokeq⟩ := List.mem_map.mp htok
    subst htokeq
    have hp := meta_token_props (hval kv hkv).1 (hval kv hkv).2
    exact ⟨hp.1, hp.2.1⟩

theorem fold_words_tag {ts : List Str}
    (hval : ∀ tg ∈ ts, validTag tg = true) (st : RemState) :
    (pyWords (List.intercalate [' ']
        (ts.map fun tg => '#' :: tg))).foldl remStep st =
      ⟨st.message, st.metadata, st.explicitTags ++ ts⟩ := by
  rw [pyWords_intercalate_space _ ?_]
  · exact remStep_tag_fold ts st hval
  · intro tok htok
    obtain ⟨tg, htg, htokeq⟩ := List.mem_map.mp htok
    subst htokeq
    have hp := tag_token_props (hval tg htg)
    exact ⟨hp.1, hp.2.1⟩

theorem meta_block_props {md : List (Str × Str)} (hne : md ≠ [])
    (hval : ∀ kv ∈ md, metaKeyOk kv.1 = true ∧ validValue kv.2 = true) :
    '|' ∉ List.intercalate [' '] (md.map fun kv => kv.1 ++ ':' :: kv.2) ∧
      pyStrip (List.intercalate [' ']
          (md.map fun kv => kv.1 ++ ':' :: kv.2)) =
        List.intercalate [' '] (md.map fun kv => kv.1 ++ ':' :: kv.2) ∧
      '\n' ∉ List.intercalate [' '] (md.map fun kv => kv.1 ++ ':' :: kv.2) := by
  have htok : ∀ tok ∈ md.map (fun kv => kv.1 ++ ':' :: kv.2),
      tok ≠ [] ∧ tok.all (fun c => !isPySpace c) = true ∧ '|' ∉ tok := by
    intro tok htokm
    obtain ⟨kv, hkv, htokeq⟩ := List.mem_map.mp htokm
    subst htokeq
    exact meta_token_props (hval kv hkv).1 (hval kv hkv).2
  refine ⟨?_, ?_, ?_⟩
  · exact notin_intercalate_space (by decide) _ fun tok h2 => (htok tok h2).2.2
  · exact strip_intercalate_space (by simpa using hne)
      fun tok h2 => ⟨(htok tok h2).1, (htok tok h2).2.1⟩
  · exact notin_intercalate_space (by decide) _
      fun tok h2 => newline_notin_of_no_space (htok tok h2).2.1

theorem tag_block_props {ts : List Str} (hne : ts ≠ [])
    (hval : ∀ tg ∈ ts, validTag tg = true) :
    '|' ∉ List.intercalate [' '] (ts.map fun tg => '#' :: tg) ∧
      pyStrip (List.intercalate [' '] (ts.map fun tg => '#' :: tg)) =
        List.intercalate [' '] (ts.map fun tg => '#' :: tg) ∧
      '\n' ∉ List.intercalate [' '] (ts.map fun tg => '#' :: tg) := by
  have htok : ∀ tok ∈ ts.map (fun tg => '#' :: tg),
      tok ≠ [] ∧ tok.all (fun c => !isPySpace c) = true ∧ '|' ∉ tok := by
    intro tok htokm
    obtain ⟨tg, htg, htokeq⟩ := List.mem_map.mp htokm
    subst htokeq
    exact tag_token_props (hval tg htg)
  refine ⟨?_, ?_, ?_⟩
  · exact notin_intercalate_space (by decide) _ fun tok h2 => (htok tok h2).2.2
  · exact strip_intercalate_space (by simpa using hne)
      fun tok h2 => ⟨(htok tok h2).1, (htok tok h2).2.1⟩
  · exact notin_intercalate_space (by decide) _
      fun tok h2 => newline_notin_of_no_space (htok tok h2).2.1

theorem format_entry_header_shape {t m : Str} {md : List (Str × Str)}
    {ts : List Str} (h : validHeader t m md ts = true) :
    format_entry_header t m md ts =
      t ++ ':' ::
        ((if m = [] then [] else ' ' :: m) ++
         (if md = [] then [] else
           ' ' :: '|' :: ' ' :: List.intercalate [' ']
             (md.map fun kv => kv.1 ++ ':' :: kv.2)) ++
         (if ts = [] then [] else
           ' ' :: '|' :: ' ' :: List.intercalate [' ']
             (ts.map fun tg => '#' :: tg))) := by
  obtain ⟨_, hmv, _, _, htsv⟩ := validHeader_parts h
  have hmst := (validMessage_parts hmv).1
  have hfilt : ts.filter (· ≠ []) = ts := by
    apply List.filter_eq_self.mpr
    intro tg htg
    simpa using (validTag_parts (htsv tg htg)).1
  have hbase : pyRStrip (if m = [] then t ++ [':']
      else t ++ [':', ' '] ++ m) =
      t ++ ':' :: (if m = [] then [] else ' ' :: m) := by
    by_cases hm : m = []
    · rw [if_pos hm, if_pos hm,
        pyRStrip_eq_self_of_last (List.getLast?_concat t) (by decide)]
    · rw [if_neg hm, if_neg hm]
      obtain ⟨d, hd⟩ := exists_getLast_of_ne_nil hm
      have hlast : (t ++ [':', ' '] ++ m).getLast? = some d := by
        rw [List.getLast?_append_of_ne_nil _ hm]
        exact hd
      rw [pyRStrip_eq_self_of_last hlast (last_not_space_of_strip hmst hd)]
      simp [List.append_assoc]
  simp only [format_entry_header]
  rw [hfilt, hbase]
  by_cases hmd : md = []
  · rw [if_neg (not_not_intro hmd), if_pos hmd]
    by_cases hts0 : ts = []
    · rw [if_neg (not_not_intro hts0), if_pos hts0, intercalate_singleton']
      simp
    · rw [if_pos hts0, if_neg hts0]
      simp only [List.cons_append, List.nil_append]
      rw [intercalate_cons_cons, intercalate_singleton']
      simp [List.append_assoc]
  · rw [if_pos hmd, if_neg hmd]
    by_cases hts0 : ts = []
    · rw [if_neg (not_not_intro hts0), if_pos hts0]
      simp only [List.cons_append, List.nil_append]
      rw [intercalate_cons_cons, intercalate_singleton']
      simp [List.append_assoc]
    · rw [if_pos hts0, if_neg hts0]
      simp only [List.cons_append, List.nil_append]
      rw [intercalate_cons_cons, intercalate_cons_cons,
        intercalate_singleton']
      simp [List.append_assoc]

theorem parse_line_with_blocks (blocks : List Str) {t m tail : Str}
    (htv : validTimestamp t = true)
    (hmst : pyStrip m = m) (hmb : '|' ∉ m) (hmnl : '\n' ∉ m)
    (hbv : ∀ B ∈ blocks, '|' ∉ B ∧ pyStrip B = B ∧ '\n' ∉ B)
    (htail : tail = (blocks.map fun B => ' ' :: '|' :: ' ' :: B).flatten) :
    parseEntryHeaderLine (t ++ ':' ::
        ((if m = [] then [] else ' ' :: m) ++ tail)) =
      some (t, blocks.foldl
        (fun st B => (pyWords B).foldl remStep st) ⟨m, [], []⟩) := by
  subst htail
  cases blocks with
  | nil =>
    simp only [List.map_nil, List.flatten_nil]
    by_cases hm : m = []
    · subst hm
      rw [if_pos rfl]
      unfold parseEntryHeaderLine
      rw [matchEntryLine_valid htv ([] ++ []) (by simp)]
      rfl
    · rw [if_neg hm]
      unfold parseEntryHeaderLine
      rw [matchEntryLine_valid htv ((' ' :: m) ++ []) (by simp [hmnl])]
      show some (t, parse_stored_entry_remainder
          (List.dropWhile isPySpace ((' ' :: m) ++ []))) = _
      rw [dropWhile_space_append_msg hm hmst [], List.append_nil,
        parse_stored_entry_remainder_msg hmb hmst]
      rfl
  | cons B rest =>
    rw [flatten_blocks_eq (by simp)]
    have hIv : ∀ B2 ∈ B :: rest, '|' ∉ B2 ∧ pyStrip B2 = B2 :=
      fun B2 hB2 => ⟨(hbv B2 hB2).1, (hbv B2 hB2).2.1⟩
    have hInl : '\n' ∉ List.intercalate [' ', '|', ' '] (B :: rest) :=
      notin_intercalate_of (by decide) (B :: rest)
        fun B2 hB2 => (hbv B2 hB2).2.2
    by_cases hm : m = []
    · subst hm
      rw [if_pos rfl, List.nil_append]
      unfold parseEntryHeaderLine
      rw [matchEntryLine_valid htv
        (' ' :: '|' :: ' ' :: List.intercalate [' ', '|', ' '] (B :: rest))
        (by simp [hInl])]
      show some (t, parse_stored_entry_remainder
          (List.dropWhile isPySpace (' ' :: '|' :: ' ' ::
            List.intercalate [' ', '|', ' '] (B :: rest)))) = _
      rw [List.dropWhile_cons, if_pos (by decide), List.dropWhile_cons,
        if_neg (by decide)]
      rw [parse_stored_entry_remainder_eq (by simp)
        (split_map_sep_blocks (by simp) hIv)]
    · rw [if_neg hm]
      unfold parseEntryHeaderLine
      rw [matchEntryLine_valid htv ((' ' :: m) ++ (' ' :: '|' :: ' ' ::
        List.intercalate [' ', '|', ' '] (B :: rest)))
        (by simp [hmnl, hInl])]
      show some (t, parse_stored_entry_remainder
          (List.dropWhile isPySpace ((' ' :: m) ++ (' ' :: '|' :: ' ' ::
            List.intercalate [' ', '|', ' '] (B :: rest))))) = _
      rw [dropWhile_space_append_msg hm hmst _]
      have hre : m ++ (' ' :: '|' :: ' ' ::
          List.intercalate [' ', '|', ' '] (B :: rest)) =
          List.intercalate [' ', '|', ' '] (m :: B :: rest) := by
        rw [intercalate_cons_cons]
        simp [List.append_assoc]
      rw [hre]
      rw [parse_stored_entry_remainder_eq
        (by rw [intercalate_cons_cons]; simp)
        (split_map_msg_blocks hmb hmst hIv)]

/-- C1: for a valid timestamp, message, metadata mapping and extra tag
markers, the header line built by `format_entry_header` is matched by
`ENTRY_LINE_PATTERN` and `parse_stored_entry_remainder` recovers exactly
the original message, metadata mapping and explicit tag markers; the tag
set recorded for such an entry (`deduplicate_tags` over the markers and
the message line) is exactly the markers together with the inline
hashtags of the message. -/
theorem claim_C1_header_round_trip (t m : Str) (md : List (Str × Str))
    (ts : List Str) (h : validHeader t m md ts = true) :
    parseEntryHeaderLine (format_entry_header t m md ts) =
      some (t, ⟨m, md, ts⟩) ∧
    (deduplicate_tags ts [m]).toFinset =
      ts.toFinset ∪ (findHashtags m).toFinset := by
  obtain ⟨htv, hmv, hmdv, hmdnd, htsv⟩ := validHeader_parts h
  obtain ⟨hmst, hmb, hmnl⟩ := validMessage_parts hmv
  constructor
  · rw [format_entry_header_shape h]
    by_cases hmd : md = []
    · by_cases hts0 : ts = []
      · rw [if_pos hmd, if_pos hts0, List.append_nil]
        rw [@parse_line_with_blocks [] t m [] htv hmst hmb hmnl (by simp) rfl]
        simp [hmd, hts0]
      · obtain ⟨hTBb, hTBs, hTBn⟩ := tag_block_props hts0 htsv
        rw [if_pos hmd, if_neg hts0, List.append_nil]
        rw [parse_line_with_blocks [List.intercalate [' ']
            (ts.map fun tg => '#' :: tg)] htv hmst hmb hmnl
          (by
            intro B2 hB2
            rw [List.mem_singleton] at hB2
            subst hB2
            exact ⟨hTBb, hTBs, hTBn⟩)
          (by simp)]
        simp only [List.foldl_cons, List.foldl_nil]
        rw [fold_words_tag htsv _]
        simp [hmd]
    · by_cases hts0 : ts = []
      · obtain ⟨hMBb, hMBs, hMBn⟩ := meta_block_props hmd hmdv
        rw [if_neg hmd, if_pos hts0, List.append_nil]
        rw [parse_line_with_blocks [List.intercalate [' ']
            (md.map fun kv => kv.1 ++ ':' :: kv.2)] htv hmst hmb hmnl
          (by
            intro B2 hB2
            rw [List.mem_singleton] at hB2
            subst hB2
            exact ⟨hMBb, hMBs, hMBn⟩)
          (by simp)]
        simp only [List.foldl_cons, List.foldl_nil]
        rw [fold_words_meta hmdv hmdnd _ (by simp)]
        simp [hts0]
      · obtain ⟨hMBb, hMBs, hMBn⟩ := meta_block_props hmd hmdv
        obtain ⟨hTBb, hTBs, hTBn⟩ := tag_block_props hts0 htsv
        rw [if_neg hmd, if_neg hts0, List.append_assoc]
        rw [parse_line_with_blocks
          [List.intercalate [' '] (md.map fun kv => kv.1 ++ ':' :: kv.2),
           List.intercalate [' '] (ts.map fun tg => '#' :: tg)]
          htv hmst hmb hmnl
          (by
            intro B2 hB2
            rcases List.mem_cons.mp hB2 with he | hB3
            · subst he
              exact ⟨hMBb, hMBs, hMBn⟩
            · rw [List.mem_singleton] at hB3
              subst hB3
              exact ⟨hTBb, hTBs, hTBn⟩)
          (by simp)]
        simp only [List.foldl_cons, List.foldl_nil]
        rw [fold_words_meta hmdv hmdnd _ (by simp)]
        rw [fold_words_tag htsv _]
        simp
  · apply dedup_tags_toFinset
    intro tg htg
    obtain ⟨hne, hch, _, _⟩ := validTag_parts (htsv tg htg)
    exact ⟨pyLower_eq_self fun c hc => (hch c hc).2, hne⟩

theorem claim_C1_header_round_trip_witness :
    validHeader ['0', '9', ':', '1', '5'] ['h', 'i', ' ', '#', 'a']
        [(['k'], ['v', '1'])] [['b']] = true ∧
      (parseEntryHeaderLine (format_entry_header ['0', '9', ':', '1', '5']
          ['h', 'i', ' ', '#', 'a'] [(['k'], ['v', '1'])] [['b']]) =
        some (['0', '9', ':', '1', '5'],
          ⟨['h', 'i', ' ', '#', 'a'], [(['k'], ['v', '1'])], [['b']]⟩) ∧
      (deduplicate_tags [['b']] [['h', 'i', ' ', '#', 'a']]).toFinset =
        [['b']].toFinset ∪
          (findHashtags ['h', 'i', ' ', '#', 'a']).toFinset) :=
  ⟨by decide, claim_C1_header_round_trip _ _ _ _ (by decide)⟩

/-- C2: over the three-entry index holding `status:wip`,
`status:done time:2h` and `status:done time:45m`, the compiled query for
`status:done` selects exactly the two done entries and the one for
`time:>1` selects only the `2h` entry, as the specification says; but
`tokenize_query` classifies `-status:done` as the free-text term
`-status:done` (its result carries no exclusion filters at all), so the
compiled query demands a word containing that text and returns nothing
instead of the `status:wip` entry. -/
theorem claim_C2_exclusion_lost :
    searchIds searchDemoDb "status:done".toList = [2, 3] ∧
    searchIds searchDemoDb "time:>1".toList = [2] ∧
    tokenize_query "-status:done".toList =
      ⟨["-status:done".toList], [], []⟩ ∧
    searchIds searchDemoDb "-status:done".toList = [] := by
  have hpf : pyFloat ['1'] = 1 := by
    show (1 : ℚ) * ((decVal ['1'] : ℕ) : ℚ) = 1
    rw [show decVal ['1'] = 1 from rfl]
    norm_num
  have hcmp : parse_comparison_expression ['>', '1'] = some (CmpOp.gt, 1) := by
    show some (CmpOp.gt, pyFloat ['1']) = _
    rw [hpf]
  refine ⟨by decide, ?_, by decide, by decide⟩
  unfold searchIds searchLocations
  rw [show tokenize_query "time:>1".toList =
    ⟨[], [(['t', 'i', 'm', 'e'], ['>', '1'])], []⟩ from by decide]
  simp only [searchDemoDb, entryIncluded, metaRowSat, List.all_cons,
    List.all_nil, hcmp]
  decide

/-- C6: for a day file whose date equals now's date holding one entry
without a numeric id, the sync pass performs no rewrite (the text stays
unstamped) and records the pending flag, and the entry is indexed (the
compiled search query returns its location); but `load_matches` re-parses
the still-unstamped file and keeps only entries whose id in the text is
numeric, so the search pipeline returns nothing — the entry is *not*
returned by search, contrary to the specification.  The first pass whose
now falls on a later date rewrites the file with an id stamped. -/
theorem claim_C6_deferred_stamping :
    (synchronize_diary ⟨[], [], [], [], [], 0⟩
        ⟨[⟨"2025-09-10.txt".toList, ["21:00: Manual entry".toList],
           true, 5⟩], 6⟩
        ⟨2025, 9, 10⟩ false false none).normalized = [] ∧
    (synchronize_diary ⟨[], [], [], [], [], 0⟩
        ⟨[⟨"2025-09-10.txt".toList, ["21:00: Manual entry".toList],
           true, 5⟩], 6⟩
        ⟨2025, 9, 10⟩ false false none).files =
      [⟨"2025-09-10.txt".toList, ["21:00: Manual entry".toList],
        true, 5⟩] ∧
    (synchronize_diary ⟨[], [], [], [], [], 0⟩
        ⟨[⟨"2025-09-10.txt".toList, ["21:00: Manual entry".toList],
           true, 5⟩], 6⟩
        ⟨2025, 9, 10⟩ false false none).db.syncedFiles =
      [⟨"2025-09-10.txt".toList, 5, true⟩] ∧
    (synchronize_diary ⟨[], [], [], [], [], 0⟩
        ⟨[⟨"2025-09-10.txt".toList, ["21:00: Manual entry".toList],
           true, 5⟩], 6⟩
        ⟨2025, 9, 10⟩ false false none).db.entries =
      [⟨1, "2025-09-10.txt:1".toList, "2025-09-10.txt".toList,
        "21:00".toList⟩] ∧
    searchLocations (synchronize_diary ⟨[], [], [], [], [], 0⟩
        ⟨[⟨"2025-09-10.txt".toList, ["21:00: Manual entry".toList],
           true, 5⟩], 6⟩
        ⟨2025, 9, 10⟩ false false none).db "manual".toList =
      [("2025-09-10.txt".toList, 1)] ∧
    load_matches
      [⟨"2025-09-10.txt".toList, ["21:00: Manual entry".toList],
        true, 5⟩]
      [("2025-09-10.txt".toList, 1)] = [] ∧
    (synchronize_diary
      (synchronize_diary ⟨[], [], [], [], [], 0⟩
        ⟨[⟨"2025-09-10.txt".toList, ["21:00: Manual entry".toList],
           true, 5⟩], 6⟩
        ⟨2025, 9, 10⟩ false false none).db
      ⟨[⟨"2025-09-10.txt".toList, ["21:00: Manual entry".toList],
         true, 5⟩], 6⟩
      ⟨2025, 9, 11⟩ false false none).normalized =
      ["2025-09-10.txt".toList] ∧
    (synchronize_diary
      (synchronize_diary ⟨[], [], [], [], [], 0⟩
        ⟨[⟨"2025-09-10.txt".toList, ["21:00: Manual entry".toList],
           true, 5⟩], 6⟩
        ⟨2025, 9, 10⟩ false false none).db
      ⟨[⟨"2025-09-10.txt".toList, ["21:00: Manual entry".toList],
         true, 5⟩], 6⟩
      ⟨2025, 9, 11⟩ false false none).files =
      [⟨"2025-09-10.txt".toList, ["21:00 [2]: Manual entry".toList],
        true, 6⟩] := by
  set_option maxRecDepth 100000 in decide

theorem filter_append_invariant {α} (p : α → Bool) {l : List α}
    (add : List α) (hl : ∀ x ∈ l, p x = true)
    (ha : ∀ x ∈ add, p x = false) : (l ++ add).filter p = l := by
  rw [List.filter_append, List.filter_eq_self.mpr hl,
    List.filter_eq_nil_iff.mpr ?_, List.append_nil]
  intro a hx
  simp [ha a hx]

/-- C10: when the day-file write inside `create_entry` fails after
`database.add_entry` inserted a fresh entry, the cleanup removes the new
entries row and every tags, words, and metadata row of that id before
the exception propagates, leaving the index exactly as it was (only the
never-reused AUTOINCREMENT counter has advanced). -/
theorem claim_C10_create_entry_cleanup (db : Db) (src ts : Str)
    (tags words : List Str) (md : List (Str × (Str × Option ℚ)))
    (hseq : ∀ r ∈ db.entries, r.id ≤ db.seq)
    (htag : ∀ t ∈ db.tags, t.entryId ≤ db.seq)
    (hword : ∀ w ∈ db.words, w.entryId ≤ db.seq)
    (hmeta : ∀ m ∈ db.metadata, m.entryId ≤ db.seq) :
    create_entry db src ts tags words md false =
      ({ db with seq := db.seq + 1 }, none) := by
  obtain ⟨es, tg0, wd0, md0, sf0, sq⟩ := db
  dsimp only at hseq htag hword hmeta
  have key : create_entry ⟨es, tg0, wd0, md0, sf0, sq⟩ src ts tags words
      md false =
      ((⟨(es ++ [(⟨sq + 1, [], src, ts⟩ : DbEntry)]).filter
          (fun r => ¬r.id = sq + 1),
        (tg0 ++ (if tags ≠ [] then
            tags.eraseDups.map fun tg => (⟨sq + 1, tg⟩ : TagRow)
          else [])).filter (fun t => ¬t.entryId = sq + 1),
        (wd0 ++ (if words ≠ [] then
            words.eraseDups.map fun w => (⟨sq + 1, w⟩ : WordRow)
          else [])).filter (fun w => ¬w.entryId = sq + 1),
        (md0 ++ (if md ≠ [] then
            md.map fun kv => (⟨sq + 1, kv.1, kv.2.1, kv.2.2⟩ : MetaRow)
          else [])).filter (fun m => ¬m.entryId = sq + 1),
        sf0, sq + 1⟩ : Db), (none : Option Nat)) := rfl
  rw [key]
  have he : (es ++ [(⟨sq + 1, [], src, ts⟩ : DbEntry)]).filter
      (fun r => ¬r.id = sq + 1) = es := by
    refine filter_append_invariant _ _ ?_ ?_
    · intro r hr
      have := hseq r hr
      simp only [decide_eq_true_eq]
      omega
    · intro x hx
      rw [List.mem_singleton] at hx
      subst hx
      simp
  have ht : (tg0 ++ (if tags ≠ [] then
      tags.eraseDups.map fun tg => (⟨sq + 1, tg⟩ : TagRow)
    else [])).filter (fun t => ¬t.entryId = sq + 1) = tg0 := by
    refine filter_append_invariant _ _ ?_ ?_
    · intro t htm
      have := htag t htm
      simp only [decide_eq_true_eq]
      omega
    · intro x hx
      by_cases hc : tags ≠ []
      · rw [if_pos hc] at hx
        obtain ⟨b, _, hfb⟩ := List.mem_map.mp hx
        rw [← hfb]
        simp
      · rw [if_neg hc] at hx
        cases hx
  have hw : (wd0 ++ (if words ≠ [] then
      words.eraseDups.map fun w => (⟨sq + 1, w⟩ : WordRow)
    else [])).filter (fun w => ¬w.entryId = sq + 1) = wd0 := by
    refine filter_append_invariant _ _ ?_ ?_
    · intro w hwm
      have := hword w hwm
      simp only [decide_eq_true_eq]
      omega
    · intro x hx
      by_cases hc : words ≠ []
      · rw [if_pos hc] at hx
        obtain ⟨b, _, hfb⟩ := List.mem_map.mp hx
        rw [← hfb]
        simp
      · rw [if_neg hc] at hx
        cases hx
  have hm : (md0 ++ (if md ≠ [] then
      md.map fun kv => (⟨sq + 1, kv.1, kv.2.1, kv.2.2⟩ : MetaRow)
    else [])).filter (fun m => ¬m.entryId = sq + 1) = md0 := by
    refine filter_append_invariant _ _ ?_ ?_
    · intro m hmm
      have := hmeta m hmm
      simp only [decide_eq_true_eq]
      omega
    · intro x hx
      by_cases hc : md ≠ []
      · rw [if_pos hc] at hx
        obtain ⟨b, _, hfb⟩ := List.mem_map.mp hx
        rw [← hfb]
        simp
      · rw [if_neg hc] at hx
        cases hx
  rw [he, ht, hw, hm]

theorem claim_C10_create_entry_cleanup_witness :
    ((∀ r ∈ (⟨[⟨1, [], "a".toList, "09:00".toList⟩], [⟨1, "w".toList⟩],
        [⟨1, "hi".toList⟩], [⟨1, "k".toList, "v".toList, none⟩], [], 1⟩
        : Db).entries, r.id ≤ 1) ∧
      create_entry
        ⟨[⟨1, [], "a".toList, "09:00".toList⟩], [⟨1, "w".toList⟩],
         [⟨1, "hi".toList⟩], [⟨1, "k".toList, "v".toList, none⟩], [], 1⟩
        "2025-09-01.txt".toList "10:00".toList ["new".toList]
        ["hello".toList] [("k".toList, ("v2".toList, none))] false =
      (⟨[⟨1, [], "a".toList, "09:00".toList⟩], [⟨1, "w".toList⟩],
         [⟨1, "hi".toList⟩], [⟨1, "k".toList, "v".toList, none⟩], [], 2⟩,
       none)) :=
  ⟨by decide,
   claim_C10_create_entry_cleanup _ _ _ _ _ _ (by decide) (by decide)
     (by decide) (by decide)⟩

theorem syncFileBody_none_raised (db : Db) (f : FsFile) (clock : Nat)
    (now : Date) (pt : Bool) :
    (syncFileBody db f clock now pt none).raised = false := by
  unfold syncFileBody
  have hno : ∀ j : Nat, ((none : Option Nat) = some j) = False :=
    fun j => by simp
  simp only [hno, if_false]
  split
  · rfl
  · rfl

theorem syncFileBody_fault (db : Db) (f : FsFile) (clock : Nat)
    (now : Date) (pt : Bool) {k : Nat} (hk : k ≤ 3) :
    (syncFileBody db f clock now pt (some k)).db = db ∧
    (syncFileBody db f clock now pt (some k)).raised = true := by
  interval_cases k
  · exact ⟨rfl, rfl⟩
  · exact ⟨rfl, rfl⟩
  · exact ⟨rfl, rfl⟩
  · have h0 : ((some (3 : Nat)) = some 0) = False := by simp
    have h1 : ((some (3 : Nat)) = some 1) = False := by simp
    have h2 : ((some (3 : Nat)) = some 2) = False := by simp
    have h3 : ((some (3 : Nat)) = some 3) = True := by simp
    constructor
    · unfold syncFileBody
      simp only [h0, h1, h2, h3, if_false, if_true]
      split
      · rfl
      · rfl
    · unfold syncFileBody
      simp only [h0, h1, h2, h3, if_false, if_true]
      split
      · rfl
      · rfl

theorem syncLoop_none_no_raise (now : Date) (force pt : Bool)
    (tracked : List SyncedFileRow) :
    ∀ (files : List FsFile) (db : Db) (clock : Nat),
      (syncLoop now force pt tracked db files clock none).raised =
        false := by
  intro files
  induction files with
  | nil => intro db clock; rfl
  | cons f rest ih =>
    intro db clock
    simp only [syncLoop]
    by_cases hn : syncNeeds tracked f now force = true
    · rw [if_pos hn, syncFileBody_none_raised db f clock now pt,
        if_neg (by simp)]
      exact ih _ _
    · rw [if_neg hn]
      exact ih _ _

theorem syncLoop_fault_rolls_back (now : Date) (force pt : Bool)
    (tracked : List SyncedFileRow) :
    ∀ (files : List FsFile) (db : Db) (clock : Nat) (i k : Nat),
      k ≤ 3 →
      (syncLoop now force pt tracked db files clock
        (some (i, k))).raised = true →
      (syncLoop now force pt tracked db files clock (some (i, k))).db =
        (syncLoop now force pt tracked db (files.take i) clock
          none).db := by
  intro files
  induction files with
  | nil =>
    intro db clock i k _ hr
    cases hr
  | cons f rest ih =>
    intro db clock i k hk hr
    cases i with
    | zero =>
      rw [List.take_zero]
      simp only [syncLoop] at hr ⊢
      by_cases hn : syncNeeds tracked f now force = true
      · rw [if_pos hn] at hr ⊢
        obtain ⟨hdb, hrs⟩ := syncFileBody_fault db f clock now pt hk
        rw [hrs, if_pos rfl]
        exact hdb
      · rw [if_neg hn] at hr
        have := syncLoop_none_no_raise now force pt tracked rest db clock
        rw [this] at hr
        cases hr
    | succ j =>
      simp only [List.take_succ_cons, syncLoop] at hr ⊢
      by_cases hn : syncNeeds tracked f now force = true
      · rw [if_pos hn] at hr
        rw [if_pos hn, if_pos hn]
        rw [syncFileBody_none_raised db f clock now pt] at hr ⊢
        simp only [Bool.false_eq_true, if_false] at hr ⊢
        exact ih _ _ j k hk hr
      · rw [if_neg hn] at hr
        rw [if_neg hn, if_neg hn]
        dsimp only at hr ⊢
        exact ih _ _ j k hk hr

/-- C5: every index mutation of one file's sync (id assignment,
row replacement, deletion of vanished ids, the `synced_files` upsert)
runs in one transaction: whichever step raises, the rollback leaves the
database exactly as it stood when the pass reached the failing file —
that is, as after a pass over the preceding files alone. -/
theorem claim_C5_transaction_rollback (db : Db) (fs : Fs) (now : Date)
    (force pt : Bool) (i k : Nat) (hk : k ≤ 3)
    (hr : (synchronize_diary db fs now force pt (some (i, k))).raised =
      true) :
    (synchronize_diary db fs now force pt (some (i, k))).db =
      (synchronize_diary db ⟨fs.files.take i, fs.clock⟩ now force pt
        none).db :=
  syncLoop_fault_rolls_back now force pt db.syncedFiles fs.files db
    fs.clock i k hk hr

theorem claim_C5_transaction_rollback_witness :
    ((0 : Nat) ≤ 3 ∧
      (synchronize_diary
        ⟨[], [], [], [], [], 0⟩
        ⟨[⟨"2025-09-01.txt".toList, ["10:00 [1]: hi".toList], true, 5⟩],
         6⟩
        ⟨2025, 9, 2⟩ false false (some (0, 0))).raised = true ∧
      (synchronize_diary
        ⟨[], [], [], [], [], 0⟩
        ⟨[⟨"2025-09-01.txt".toList, ["10:00 [1]: hi".toList], true, 5⟩],
         6⟩
        ⟨2025, 9, 2⟩ false false (some (0, 0))).db =
        (synchronize_diary
          ⟨[], [], [], [], [], 0⟩
          ⟨[⟨"2025-09-01.txt".toList,
             ["10:00 [1]: hi".toList], true, 5⟩].take 0, 6⟩
          ⟨2025, 9, 2⟩ false false none).db) :=
  ⟨by decide, by decide,
   claim_C5_transaction_rollback ⟨[], [], [], [], [], 0⟩
     ⟨[⟨"2025-09-01.txt".toList, ["10:00 [1]: hi".toList], true, 5⟩], 6⟩
     ⟨2025, 9, 2⟩ false false 0 0 (by decide) (by decide)⟩

theorem dateLt_irrefl (d : Date) : dateLt d d = false := by
  simp [dateLt]

theorem write_if_changed_name (f : FsFile) (r : List Str) (c : Nat) :
    (write_if_changed f r c).1.name = f.name := by
  unfold write_if_changed
  split <;> rfl

theorem normalizeStep1_syncedFiles (db : Db) (n : Str) (e : PEntry) :
    ∀ r, normalizeStep1 db n e = some r →
      r.1.syncedFiles = db.syncedFiles := by
  intro r heq
  unfold normalizeStep1 at heq
  split at heq
  · split at heq
    · dsimp only at heq
      split at heq
      · split at heq
        · rw [Option.some_inj] at heq
          subst heq
          rfl
        · exact Option.noConfusion heq
      · rw [Option.some_inj] at heq
        subst heq
        rfl
    · exact Option.noConfusion heq
  · exact Option.noConfusion heq

theorem normalizeResolve_syncedFiles (db : Db) (n : Str) (e : PEntry) :
    ((normalizeResolve db n e).1).syncedFiles = db.syncedFiles := by
  rcases hs : normalizeStep1 db n e with _ | r
  · unfold normalizeResolve
    rw [hs]
    rcases hf : db.entries.find? (fun r => r.uuid = e.uuid) with _ | row
    · rw [hf]
    · rw [hf]
  · unfold normalizeResolve
    rw [hs]
    exact normalizeStep1_syncedFiles db n e r hs

theorem normalizeOne_syncedFiles (n : Str)
    (st : Db × List Nat × List PEntry) (e : PEntry) :
    ((normalizeOne n st e).1).syncedFiles = st.1.syncedFiles := by
  obtain ⟨db, asg, nm⟩ := st
  calc ((normalizeOne n (db, asg, nm) e).1).syncedFiles
      = ((normalizeResolve db n e).1).syncedFiles := rfl
    _ = db.syncedFiles := normalizeResolve_syncedFiles db n e

theorem foldl_normalizeOne_syncedFiles (n : Str) :
    ∀ (es : List PEntry) (st : Db × List Nat × List PEntry),
      ((es.foldl (normalizeOne n) st).1).syncedFiles =
        st.1.syncedFiles := by
  intro es
  induction es with
  | nil => intro st; rfl
  | cons e rest ih =>
    intro st
    rw [List.foldl_cons, ih (normalizeOne n st e),
      normalizeOne_syncedFiles]

theorem normalize_entries_syncedFiles (db : Db) (n : Str)
    (es : List PEntry) :
    ((normalize_entries db n es).1).syncedFiles = db.syncedFiles :=
  foldl_normalizeOne_syncedFiles n es (db, [], [])

theorem reindexOne_syncedFiles (db : Db) (e : PEntry) :
    (reindexOne db e).syncedFiles = db.syncedFiles := by
  unfold reindexOne
  split <;> rfl

theorem reindex_entries_syncedFiles :
    ∀ (es : List PEntry) (db : Db),
      (reindex_entries db es).syncedFiles = db.syncedFiles := by
  intro es
  induction es with
  | nil => intro db; rfl
  | cons e rest ih =>
    intro db
    show (reindex_entries (reindexOne db e) rest).syncedFiles = _
    rw [ih, reindexOne_syncedFiles]

theorem find_map_replace (name : Str) (newRow : SyncedFileRow)
    (hnew : newRow.path = name) :
    ∀ rows : List SyncedFileRow,
      rows.any (fun r => r.path = name) = true →
      (rows.map fun r => if r.path = name then newRow else r).find?
        (fun r => r.path = name) = some newRow := by
  intro rows
  induction rows with
  | nil => intro h; cases h
  | cons r rest ih =>
    intro h
    by_cases hr : r.path = name
    · simp [List.find?_cons, hr, hnew]
    · simp only [List.map_cons, if_neg hr, List.find?_cons,
        decide_eq_true_eq, if_neg hr]
      rw [show (decide (r.path = name)) = false from by simp [hr]]
      apply ih
      simpa [hr] using h

theorem find_append_single (name : Str) (newRow : SyncedFileRow)
    (hnew : newRow.path = name) :
    ∀ rows : List SyncedFileRow,
      rows.any (fun r => r.path = name) = false →
      (rows ++ [newRow]).find? (fun r => r.path = name) =
        some newRow := by
  intro rows
  induction rows with
  | nil => intro _; simp [List.find?_cons, hnew]
  | cons r rest ih =>
    intro h
    simp only [List.any_cons, Bool.or_eq_false_iff] at h
    simp only [List.cons_append, List.find?_cons]
    rw [h.1]
    exact ih h.2

theorem find_map_replace_other (name name' : Str)
    (newRow : SyncedFileRow) (hnew : newRow.path = name)
    (hne : name' ≠ name) :
    ∀ rows : List SyncedFileRow,
      (rows.map fun r => if r.path = name then newRow else r).find?
        (fun r => r.path = name') =
      rows.find? (fun r => r.path = name') := by
  intro rows
  induction rows with
  | nil => rfl
  | cons r rest ih =>
    have hns : ¬name = name' := fun hcon => hne hcon.symm
    by_cases hr : r.path = name
    · have hnot : (decide (newRow.path = name')) = false := by
        simp [hnew, hns]
      have hnot2 : (decide (r.path = name')) = false := by
        simp [hr, hns]
      simp only [List.map_cons, if_pos hr, List.find?_cons, hnot, hnot2]
      exact ih
    · simp only [List.map_cons, if_neg hr, List.find?_cons]
      rcases hq : (decide (r.path = name')) with _ | _
      · exact ih
      · rfl

theorem find_append_single_other (name name' : Str)
    (newRow : SyncedFileRow) (hnew : newRow.path = name)
    (hne : name' ≠ name) :
    ∀ rows : List SyncedFileRow,
      (rows ++ [newRow]).find? (fun r => r.path = name') =
        rows.find? (fun r => r.path = name') := by
  intro rows
  induction rows with
  | nil =>
    have hns : ¬name = name' := fun hcon => hne hcon.symm
    have hnot : (decide (newRow.path = name')) = false := by
      simp [hnew, hns]
    simp [List.find?_cons, hnot]
  | cons r rest ih =>
    simp only [List.cons_append, List.find?_cons]
    rcases hq : (decide (r.path = name')) with _ | _
    · exact ih
    · rfl

theorem upsertSyncedFile_find_self (db : Db) (name : Str) (mt : Nat)
    (flag : Bool) :
    ((upsertSyncedFile db name mt flag).syncedFiles).find?
      (fun r => r.path = name) = some ⟨name, mt, flag⟩ := by
  unfold upsertSyncedFile
  by_cases h : db.syncedFiles.any (fun r => r.path = name) = true
  · rw [if_pos h]
    exact find_map_replace name ⟨name, mt, flag⟩ rfl db.syncedFiles h
  · rw [if_neg h]
    exact find_append_single name ⟨name, mt, flag⟩ rfl db.syncedFiles
      (Bool.eq_false_iff.mpr h)

theorem upsertSyncedFile_find_other (db : Db) (name : Str) (mt : Nat)
    (flag : Bool) (name' : Str) (hne : name' ≠ name) :
    ((upsertSyncedFile db name mt flag).syncedFiles).find?
      (fun r => r.path = name') =
    db.syncedFiles.find? (fun r => r.path = name') := by
  unfold upsertSyncedFile
  by_cases h : db.syncedFiles.any (fun r => r.path = name) = true
  · rw [if_pos h]
    exact find_map_replace_other name name' ⟨name, mt, flag⟩ rfl hne
      db.syncedFiles
  · rw [if_neg h]
    exact find_append_single_other name name' ⟨name, mt, flag⟩ rfl hne
      db.syncedFiles

theorem syncFileBody_spec (db : Db) (f : FsFile) (clock : Nat)
    (now : Date) (pt : Bool) :
    (syncFileBody db f clock now pt none).file.name = f.name ∧
    ∃ db2 flag,
      (syncFileBody db f clock now pt none).db =
        upsertSyncedFile db2 f.name
          ((syncFileBody db f clock now pt none).file.mtime) flag ∧
      db2.syncedFiles = db.syncedFiles ∧
      (flag = true → pendingDue f.name now = false) := by
  unfold syncFileBody
  have hno : ∀ j : Nat, ((none : Option Nat) = some j) = False :=
    fun j => by simp
  simp only [hno, if_false]
  split
  · next hskip =>
    refine ⟨rfl, _, true, rfl, ?_, ?_⟩
    · exact (reindex_entries_syncedFiles _ _).trans
        (normalize_entries_syncedFiles _ _ _)
    · intro _
      rcases hED : resolve_entry_date f.name with _ | d
      · rw [hED] at hskip
        exact Bool.noConfusion hskip
      · rw [hED] at hskip
        simp only [Bool.and_eq_true, decide_eq_true_eq] at hskip
        unfold pendingDue
        rw [hED, hskip.1.1]
        exact dateLt_irrefl now
  · refine ⟨?_, _, false, rfl, ?_, ?_⟩
    · apply write_if_changed_name
    · exact (reindex_entries_syncedFiles _ _).trans
        (normalize_entries_syncedFiles _ _ _)
    · intro h
      exact absurd h (by simp)

theorem syncLoop_frame (now : Date) (force pt : Bool)
    (tracked : List SyncedFileRow) (name : Str) :
    ∀ (files : List FsFile) (db : Db) (clock : Nat),
      (∀ f ∈ files, f.name ≠ name) →
      (((syncLoop now force pt tracked db files clock
          none).db).syncedFiles).find? (fun r => r.path = name) =
        db.syncedFiles.find? (fun r => r.path = name) := by
  intro files
  induction files with
  | nil => intro db clock _; rfl
  | cons f rest ih =>
    intro db clock hne
    simp only [syncLoop]
    by_cases hn : syncNeeds tracked f now force = true
    · rw [if_pos hn]
      rw [syncFileBody_none_raised db f clock now pt]
      simp only [Bool.false_eq_true, if_false]
      obtain ⟨_, db2, flag, hdb, hpres, _⟩ :=
        syncFileBody_spec db f clock now pt
      rw [ih _ _ (fun g hg => hne g (List.mem_cons_of_mem f hg))]
      rw [hdb]
      rw [upsertSyncedFile_find_other db2 f.name _ flag name
        (hne f (List.mem_cons_self f rest)).symm]
      rw [hpres]
    · rw [if_neg hn]
      exact ih _ _ (fun g hg => hne g (List.mem_cons_of_mem f hg))

theorem syncLoop_names (now : Date) (force pt : Bool)
    (tracked : List SyncedFileRow) :
    ∀ (files : List FsFile) (db : Db) (clock : Nat),
      ((syncLoop now force pt tracked db files clock none).files).map
        (fun f => f.name) = files.map (fun f => f.name) := by
  intro files
  induction files with
  | nil => intro db clock; rfl
  | cons f rest ih =>
    intro db clock
    simp only [syncLoop]
    by_cases hn : syncNeeds tracked f now force = true
    · rw [if_pos hn]
      rw [syncFileBody_none_raised db f clock now pt]
      simp only [Bool.false_eq_true, if_false]
      simp only [List.map_cons]
      rw [(syncFileBody_spec db f clock now pt).1, ih]
    · rw [if_neg hn]
      simp only [List.map_cons]
      rw [ih]

theorem syncNeeds_false_good (tracked : List SyncedFileRow)
    (f : FsFile) (now : Date)
    (h : syncNeeds tracked f now false = false) :
    goodRecord tracked now f := by
  unfold syncNeeds at h
  rcases hfind : tracked.find? (fun r => r.path = f.name) with _ | row
  · rw [hfind] at h
    simp at h
  · obtain ⟨rp, rm, rq⟩ := row
    rw [hfind] at h
    have hpath : rp = f.name := by
      have := List.find?_some hfind
      simpa using this
    have h' : (if rm ≠ f.mtime then true
        else if rq = true then pendingDue f.name now else false) =
        false := h
    by_cases hm : rm = f.mtime
    · refine ⟨rq, ?_, ?_⟩
      · rw [hfind, hpath, hm]
      · intro hq
        rw [if_neg (by simp [hm])] at h'
        subst hq
        simpa using h'
    · rw [if_pos hm] at h'
      exact Bool.noConfusion h'

theorem goodRecord_skip (tracked : List SyncedFileRow) (f : FsFile)
    (now : Date) (hg : goodRecord tracked now f) :
    syncNeeds tracked f now false = false := by
  obtain ⟨p, hfind, hp⟩ := hg
  unfold syncNeeds
  rw [hfind]
  show (if f.mtime ≠ f.mtime then true
    else if p = true then pendingDue f.name now else false) = false
  rw [if_neg (by simp)]
  cases p with
  | false => rfl
  | true => exact hp rfl

theorem syncLoop_all_skip (now : Date) (pt : Bool)
    (tracked : List SyncedFileRow) :
    ∀ (files : List FsFile) (db : Db) (clock : Nat),
      (∀ f ∈ files, syncNeeds tracked f now false = false) →
      syncLoop now false pt tracked db files clock none =
        ⟨db, files, clock, [], false⟩ := by
  intro files
  induction files with
  | nil => intro db clock _; rfl
  | cons f rest ih =>
    intro db clock h
    simp only [syncLoop]
    rw [if_neg (by simp [h f (List.mem_cons_self f rest)])]
    rw [ih db clock (fun g hg => h g (List.mem_cons_of_mem f hg))]

theorem syncLoop_pass1_good (now : Date) (pt : Bool)
    (tracked : List SyncedFileRow) :
    ∀ (files : List FsFile) (db : Db) (clock : Nat),
      (files.map fun f => f.name).Nodup →
      (∀ f ∈ files,
        db.syncedFiles.find? (fun r => r.path = f.name) =
          tracked.find? (fun r => r.path = f.name)) →
      ∀ g ∈ (syncLoop now false pt tracked db files clock none).files,
        goodRecord
          (((syncLoop now false pt tracked db files clock
            none).db).syncedFiles) now g := by
  intro files
  induction files with
  | nil => intro db clock _ _ g hg; cases hg
  | cons f rest ih =>
    intro db clock hnd h3
    have hpair : (∀ x ∈ rest, ¬x.name = f.name) ∧
        (rest.map fun g => g.name).Nodup := by simpa using hnd
    have hnames : ∀ g ∈ rest, g.name ≠ f.name := fun g hg =>
      hpair.1 g hg
    simp only [syncLoop]
    by_cases hn : syncNeeds tracked f now false = true
    · rw [if_pos hn]
      rw [syncFileBody_none_raised db f clock now pt]
      simp only [Bool.false_eq_true, if_false]
      obtain ⟨hname, db2, flag, hdb, hpres, hflag⟩ :=
        syncFileBody_spec db f clock now pt
      set bd := syncFileBody db f clock now pt none with hbd
      intro g hg
      rcases List.mem_cons.mp hg with hgf | hgr
      · subst hgf
        refine ⟨flag, ?_, ?_⟩
        · rw [hname]
          rw [syncLoop_frame now false pt tracked f.name rest bd.db
            bd.clock hnames]
          rw [hdb]
          exact upsertSyncedFile_find_self db2 f.name bd.file.mtime flag
        · intro hfl
          rw [hname]
          exact hflag hfl
      · refine ih bd.db bd.clock hpair.2 ?_ g hgr
        intro g' hg'
        rw [hdb]
        rw [upsertSyncedFile_find_other db2 f.name _ flag g'.name
          (hnames g' hg')]
        rw [hpres]
        exact h3 g' (List.mem_cons_of_mem f hg')
    · rw [if_neg hn]
      intro g hg
      rcases List.mem_cons.mp hg with hgf | hgr
      · subst hgf
        have hfalse : syncNeeds tracked g now false = false :=
          Bool.eq_false_iff.mpr hn
        obtain ⟨p, hfind, hp⟩ := syncNeeds_false_good tracked g now
          hfalse
        refine ⟨p, ?_, hp⟩
        rw [syncLoop_frame now false pt tracked g.name rest db clock
          hnames]
        rw [h3 g (List.mem_cons_self g rest)]
        exact hfind
      · exact ih db clock hpair.2
          (fun g' hg' => h3 g' (List.mem_cons_of_mem f hg')) g hgr

/-- C4: a second sync pass run immediately after a completed first pass
rewrites no file, reports no normalized file, and leaves the database —
every entries, tags, words, metadata, and `synced_files` row — and the
filesystem exactly as the first pass left them; and within a pass
`_write_if_changed` writes back exactly when the re-rendered text
differs from the file's current text, leaving the file untouched
otherwise. -/
theorem claim_C4_sync_idempotent (db : Db) (fs : Fs) (now : Date)
    (pt : Bool) (hnd : (fs.files.map fun f => f.name).Nodup) :
    (synchronize_diary (synchronize_diary db fs now false pt none).db
        ⟨(synchronize_diary db fs now false pt none).files,
         (synchronize_diary db fs now false pt none).clock⟩
        now false pt none =
      ⟨(synchronize_diary db fs now false pt none).db,
       (synchronize_diary db fs now false pt none).files,
       (synchronize_diary db fs now false pt none).clock, [], false⟩) ∧
    (∀ (f : FsFile) (rendered : List Str) (clock : Nat),
      ((write_if_changed f rendered clock).2 = true ↔
        rendered ≠ f.lines) ∧
      ((write_if_changed f rendered clock).2 = false →
        (write_if_changed f rendered clock).1 = f)) := by
  constructor
  · have hgood := syncLoop_pass1_good now pt db.syncedFiles fs.files db
      fs.clock hnd (fun _ _ => rfl)
    unfold synchronize_diary
    apply syncLoop_all_skip
    intro f hf
    exact goodRecord_skip _ f now (hgood f hf)
  · intro f rendered clock
    constructor
    · unfold write_if_changed
      by_cases h : rendered = f.lines
      · rw [if_pos h]
        simp [h]
      · rw [if_neg h]
        simp [h]
    · unfold write_if_changed
      by_cases h : rendered = f.lines
      · rw [if_pos h]
        intro _
        rfl
      · rw [if_neg h]
        intro hc
        exact absurd hc (by simp)

theorem claim_C4_sync_idempotent_witness :
    ((([⟨"2025-09-01.txt".toList, ["10:00 [1]: hi".toList], true, 5⟩] :
        List FsFile).map fun f => f.name).Nodup ∧
      synchronize_diary
        (synchronize_diary
          ⟨[⟨1, "2025-09-01.txt:1".toList, "2025-09-01.txt".toList,
             "10:00".toList⟩], [], [], [], [], 1⟩
          ⟨[⟨"2025-09-01.txt".toList, ["10:00 [1]: hi".toList], true,
             5⟩], 6⟩ ⟨2025, 9, 2⟩ false false none).db
        ⟨(synchronize_diary
          ⟨[⟨1, "2025-09-01.txt:1".toList, "2025-09-01.txt".toList,
             "10:00".toList⟩], [], [], [], [], 1⟩
          ⟨[⟨"2025-09-01.txt".toList, ["10:00 [1]: hi".toList], true,
             5⟩], 6⟩ ⟨2025, 9, 2⟩ false false none).files,
         (synchronize_diary
          ⟨[⟨1, "2025-09-01.txt:1".toList, "2025-09-01.txt".toList,
             "10:00".toList⟩], [], [], [], [], 1⟩
          ⟨[⟨"2025-09-01.txt".toList, ["10:00 [1]: hi".toList], true,
             5⟩], 6⟩ ⟨2025, 9, 2⟩ false false none).clock⟩
        ⟨2025, 9, 2⟩ false false none =
      ⟨(synchronize_diary
          ⟨[⟨1, "2025-09-01.txt:1".toList, "2025-09-01.txt".toList,
             "10:00".toList⟩], [], [], [], [], 1⟩
          ⟨[⟨"2025-09-01.txt".toList, ["10:00 [1]: hi".toList], true,
             5⟩], 6⟩ ⟨2025, 9, 2⟩ false false none).db,
       (synchronize_diary
          ⟨[⟨1, "2025-09-01.txt:1".toList, "2025-09-01.txt".toList,
             "10:00".toList⟩], [], [], [], [], 1⟩
          ⟨[⟨"2025-09-01.txt".toList, ["10:00 [1]: hi".toList], true,
             5⟩], 6⟩ ⟨2025, 9, 2⟩ false false none).files,
       (synchronize_diary
          ⟨[⟨1, "2025-09-01.txt:1".toList, "2025-09-01.txt".toList,
             "10:00".toList⟩], [], [], [], [], 1⟩
          ⟨[⟨"2025-09-01.txt".toList, ["10:00 [1]: hi".toList], true,
             5⟩], 6⟩ ⟨2025, 9, 2⟩ false false none).clock, [],
       false⟩) :=
  ⟨by decide,
   (claim_C4_sync_idempotent
     ⟨[⟨1, "2025-09-01.txt:1".toList, "2025-09-01.txt".toList,
        "10:00".toList⟩], [], [], [], [], 1⟩
     ⟨[⟨"2025-09-01.txt".toList, ["10:00 [1]: hi".toList], true, 5⟩],
      6⟩ ⟨2025, 9, 2⟩ false (by decide)).1⟩

theorem charOfNat_toNat (n : Nat) (h : n < 55296) :
    (Char.ofNat n).toNat = n := by
  unfold Char.ofNat
  split
  · next hv =>
    simp [Char.ofNatAux, Char.toNat, Nat.toUInt32, UInt32.ofNat,
      UInt32.toNat]
  · next hcon => exact absurd (Or.inl h) hcon

theorem digitVal_ofNat (k : Nat) (h : k < 10) :
    digitVal (Char.ofNat ('0'.toNat + k)) = k := by
  unfold digitVal
  rw [charOfNat_toNat ('0'.toNat + k) (by
    have : '0'.toNat = 48 := rfl
    omega)]
  have : '0'.toNat = 48 := rfl
  omega

theorem isDigitC_ofNat (k : Nat) (h : k < 10) :
    isDigitC (Char.ofNat ('0'.toNat + k)) = true := by
  unfold isDigitC
  rw [charOfNat_toNat ('0'.toNat + k) (by
    have : '0'.toNat = 48 := rfl
    omega)]
  have : '0'.toNat = 48 := rfl
  simp only [Bool.and_eq_true, decide_eq_true_eq]
  omega

theorem decVal_append_digit (s : Str) (c : Char) :
    decVal (s ++ [c]) = 10 * decVal s + digitVal c := by
  simp [decVal, List.foldl_append]

theorem decVal_decStrAux :
    ∀ (f n : Nat), n < 10 ^ f → decVal (decStrAux f n) = n := by
  intro f
  induction f with
  | zero =>
    intro n hn
    interval_cases n
    rfl
  | succ f ih =>
    intro n hn
    unfold decStrAux
    by_cases h10 : n < 10
    · rw [if_pos h10]
      show 10 * 0 + digitVal (Char.ofNat ('0'.toNat + n)) = n
      rw [digitVal_ofNat n h10]
      omega
    · rw [if_neg h10]
      rw [decVal_append_digit]
      have hdiv : n / 10 < 10 ^ f := by
        rw [Nat.div_lt_iff_lt_mul (by norm_num)]
        calc n < 10 ^ (f + 1) := hn
          _ = 10 ^ f * 10 := by rw [Nat.pow_succ]
      rw [ih (n / 10) hdiv, digitVal_ofNat (n % 10) (Nat.mod_lt n
        (by norm_num))]
      omega

theorem decVal_decStr (n : Nat) : decVal (decStr n) = n := by
  unfold decStr
  apply decVal_decStrAux
  calc n < 2 ^ n := Nat.lt_two_pow n
    _ ≤ 10 ^ n := Nat.pow_le_pow_left (by norm_num) n
    _ ≤ 10 ^ (n + 1) := Nat.pow_le_pow_right (by norm_num)
      (Nat.le_succ n)

theorem decStrAux_ne_nil (f n : Nat) : decStrAux (f + 1) n ≠ [] := by
  unfold decStrAux
  split
  · simp
  · simp

theorem decStr_ne_nil (n : Nat) : decStr n ≠ [] :=
  decStrAux_ne_nil n n

theorem decStrAux_digits :
    ∀ (f n : Nat), (decStrAux f n).all isDigitC = true := by
  intro f
  induction f with
  | zero => intro n; rfl
  | succ f ih =>
    intro n
    unfold decStrAux
    by_cases h10 : n < 10
    · rw [if_pos h10]
      simp only [List.all_cons, List.all_nil, Bool.and_true]
      exact isDigitC_ofNat n h10
    · rw [if_neg h10]
      rw [List.all_append]
      rw [ih (n / 10)]
      simp only [List.all_cons, List.all_nil, Bool.and_true,
        Bool.true_and]
      exact isDigitC_ofNat (n % 10) (Nat.mod_lt n (by norm_num))

theorem decStr_digits (n : Nat) : (decStr n).all isDigitC = true :=
  decStrAux_digits (n + 1) n

theorem colon_append_inj :
    ∀ (a : Str) {b : Str} (c : Str) {d : Str}, ':' ∉ a → ':' ∉ c →
      a ++ ':' :: b = c ++ ':' :: d → a = c ∧ b = d := by
  intro a
  induction a with
  | nil =>
    intro b c d _ hc h
    cases c with
    | nil => simpa using h
    | cons ch ct =>
      simp only [List.nil_append, List.cons_append, List.cons.injEq]
        at h
      exact absurd (h.1 ▸ List.mem_cons_self ch ct :
        (':' : Char) ∈ ch :: ct) hc
  | cons ah at2 ih =>
    intro b c d ha hc h
    cases c with
    | nil =>
      simp only [List.cons_append, List.nil_append, List.cons.injEq]
        at h
      exact absurd (h.1 ▸ List.mem_cons_self ah at2 :
        (':' : Char) ∈ ah :: at2) ha
    | cons ch ct =>
      simp only [List.cons_append, List.cons.injEq] at h
      have := ih ct (fun hm => ha (List.mem_cons_of_mem ah hm))
        (fun hm => hc (List.mem_cons_of_mem ch hm)) h.2
      exact ⟨by rw [h.1, this.1], this.2⟩

theorem find_unique_mem {α : Type} (p : α → Bool) (a : α) :
    ∀ l : List α, a ∈ l → p a = true →
      (∀ b ∈ l, p b = true → b = a) → l.find? p = some a := by
  intro l
  induction l with
  | nil => intro ha _ _; cases ha
  | cons x xs ih =>
    intro ha hp huniq
    rcases hx : p x with _ | _
    · rw [List.find?_cons, hx]
      refine ih ?_ hp (fun b hb hpb => huniq b
        (List.mem_cons_of_mem x hb) hpb)
      rcases List.mem_cons.mp ha with rfl | hm
      · exact absurd hp (by simp [hx])
      · exact hm
    · rw [List.find?_cons, hx]
      rw [huniq x (List.mem_cons_self x xs) hx]

theorem normalizeStep1_tables (db : Db) (n : Str) (e : PEntry) :
    ∀ r, normalizeStep1 db n e = some r →
      r.1.tags = db.tags ∧ r.1.words = db.words ∧
      r.1.metadata = db.metadata := by
  intro r heq
  unfold normalizeStep1 at heq
  split at heq
  · split at heq
    · dsimp only at heq
      split at heq
      · split at heq
        · rw [Option.some_inj] at heq
          subst heq
          exact ⟨rfl, rfl, rfl⟩
        · exact Option.noConfusion heq
      · rw [Option.some_inj] at heq
        subst heq
        exact ⟨rfl, rfl, rfl⟩
    · exact Option.noConfusion heq
  · exact Option.noConfusion heq

theorem normalizeResolve_tables (db : Db) (n : Str) (e : PEntry) :
    ((normalizeResolve db n e).1).tags = db.tags ∧
    ((normalizeResolve db n e).1).words = db.words ∧
    ((normalizeResolve db n e).1).metadata = db.metadata := by
  rcases hs : normalizeStep1 db n e with _ | r
  · unfold normalizeResolve
    rw [hs]
    rcases hf : db.entries.find? (fun r => r.uuid = e.uuid) with _ | row
    · rw [hf]
      exact ⟨rfl, rfl, rfl⟩
    · rw [hf]
      exact ⟨rfl, rfl, rfl⟩
  · unfold normalizeResolve
    rw [hs]
    exact normalizeStep1_tables db n e r hs

theorem normalizeOne_tables (n : Str)
    (st : Db × List Nat × List PEntry) (e : PEntry) :
    ((normalizeOne n st e).1).tags = st.1.tags ∧
    ((normalizeOne n st e).1).words = st.1.words ∧
    ((normalizeOne n st e).1).metadata = st.1.metadata := by
  obtain ⟨db, asg, nm⟩ := st
  have h1 : ((normalizeOne n (db, asg, nm) e).1).tags =
      ((normalizeResolve db n e).1).tags := rfl
  have h2 : ((normalizeOne n (db, asg, nm) e).1).words =
      ((normalizeResolve db n e).1).words := rfl
  have h3 : ((normalizeOne n (db, asg, nm) e).1).metadata =
      ((normalizeResolve db n e).1).metadata := rfl
  obtain ⟨t, w, m⟩ := normalizeResolve_tables db n e
  exact ⟨h1.trans t, h2.trans w, h3.trans m⟩

theorem foldl_normalizeOne_tables (n : Str) :
    ∀ (es : List PEntry) (st : Db × List Nat × List PEntry),
      ((es.foldl (normalizeOne n) st).1).tags = st.1.tags ∧
      ((es.foldl (normalizeOne n) st).1).words = st.1.words ∧
      ((es.foldl (normalizeOne n) st).1).metadata = st.1.metadata := by
  intro es
  induction es with
  | nil => intro st; exact ⟨rfl, rfl, rfl⟩
  | cons e rest ih =>
    intro st
    obtain ⟨t, w, m⟩ := ih (normalizeOne n st e)
    obtain ⟨t', w', m'⟩ := normalizeOne_tables n st e
    rw [List.foldl_cons]
    exact ⟨t.trans t', w.trans w', m.trans m'⟩

theorem reindexOne_entries (db : Db) (e : PEntry) :
    (reindexOne db e).entries = db.entries ∧
    (reindexOne db e).seq = db.seq ∧
    (reindexOne db e).syncedFiles = db.syncedFiles := by
  unfold reindexOne
  split <;> exact ⟨rfl, rfl, rfl⟩

theorem reindex_entries_entries :
    ∀ (es : List PEntry) (db : Db),
      (reindex_entries db es).entries = db.entries := by
  intro es
  induction es with
  | nil => intro db; rfl
  | cons e rest ih =>
    intro db
    show (reindex_entries (reindexOne db e) rest).entries = _
    rw [ih, (reindexOne_entries db e).1]

theorem filter_filter_of_imp {α : Type} (p q : α → Bool)
    (h : ∀ a, q a = true → p a = true) :
    ∀ l : List α, (l.filter p).filter q = l.filter q := by
  intro l
  induction l with
  | nil => rfl
  | cons x xs ih =>
    rcases hq : q x with _ | _
    · rcases hp : p x with _ | _
      · simp only [List.filter_cons, hp, hq, if_false]
        exact ih
      · simp only [List.filter_cons, hp, hq, if_true, if_false]
        exact ih
    · have hp : p x = true := h x hq
      simp only [List.filter_cons, hp, hq, if_true]
      rw [ih]

theorem filter_append_eq_nil {α : Type} (q : α → Bool) (l1 l2 : List α)
    (h : ∀ a ∈ l2, q a = false) :
    (l1 ++ l2).filter q = l1.filter q := by
  rw [List.filter_append]
  rw [show List.filter q l2 = [] from List.filter_eq_nil_iff.mpr
    (fun a ha => by simp [h a ha])]
  rw [List.append_nil]

theorem get_append_len {α : Type} (a : α) (l2 : List α) :
    ∀ l1 : List α, (l1 ++ a :: l2).get? l1.length = some a := by
  intro l1
  induction l1 with
  | nil => rfl
  | cons x xs ih => exact ih

theorem normalizeOne_norm (n : Str)
    (st : Db × List Nat × List PEntry) (e : PEntry) :
    (normalizeOne n st e).2.2 = st.2.2 ++
      [{ e with
          entryId := some (decStr (normalizeResolve st.1 n e).2),
          uuid := n ++ ':' :: decStr (normalizeResolve st.1 n e).2 }] := by
  obtain ⟨db, asg, nm⟩ := st
  rfl

theorem foldl_norm_prefix (n : Str) :
    ∀ (es : List PEntry) (st : Db × List Nat × List PEntry),
      ∃ tl, (es.foldl (normalizeOne n) st).2.2 = st.2.2 ++ tl := by
  intro es
  induction es with
  | nil => intro st; exact ⟨[], (List.append_nil _).symm⟩
  | cons e rest ih =>
    intro st
    obtain ⟨tl, htl⟩ := ih (normalizeOne n st e)
    refine ⟨[{ e with
        entryId := some (decStr (normalizeResolve st.1 n e).2),
        uuid := n ++ ':' :: decStr (normalizeResolve st.1 n e).2 }] ++
      tl, ?_⟩
    rw [List.foldl_cons, htl, normalizeOne_norm, List.append_assoc]

theorem foldl_norm_length (n : Str) :
    ∀ (es : List PEntry) (st : Db × List Nat × List PEntry),
      (es.foldl (normalizeOne n) st).2.2.length =
        st.2.2.length + es.length := by
  intro es
  induction es with
  | nil => intro st; rfl
  | cons e rest ih =>
    intro st
    rw [List.foldl_cons, ih (normalizeOne n st e), normalizeOne_norm]
    simp only [List.length_append, List.length_cons, List.length_nil,
      List.length]
    omega

theorem normalizeResolve_paths (dbc : Db) (n : Str) (e : PEntry) :
    (∃ s row, e.entryId = some s ∧ s ≠ [] ∧ s.all isDigitC = true ∧
      findEntryRowById dbc (decVal s) = some row ∧
      row.uuid = e.uuid ∧ row.sourceFile = n ∧
      normalizeResolve dbc n e = (dbc, decVal s)) ∨
    (∃ s, e.entryId = some s ∧ s ≠ [] ∧ s.all isDigitC = true ∧
      findEntryRowById dbc (decVal s) = none ∧
      normalizeResolve dbc n e = ({ dbc with
        entries := dbc.entries ++ [⟨decVal s, e.uuid, n, e.timestamp⟩],
        seq := max dbc.seq (decVal s) }, decVal s)) ∨
    (∃ row, dbc.entries.find? (fun r => r.uuid = e.uuid) = some row ∧
      normalizeResolve dbc n e = (dbc, row.id)) ∨
    (dbc.entries.find? (fun r => r.uuid = e.uuid) = none ∧
      normalizeResolve dbc n e = ({ dbc with
        entries := dbc.entries ++
          [⟨dbc.seq + 1, e.uuid, n, e.timestamp⟩],
        seq := dbc.seq + 1 }, dbc.seq + 1)) := by
  rcases he : e.entryId with _ | s
  · have hs : normalizeStep1 dbc n e = none := by
      unfold normalizeStep1
      rw [he]
    right; right
    rcases hf : dbc.entries.find? (fun r => r.uuid = e.uuid) with _ | row
    · right
      exact ⟨hf, by unfold normalizeResolve; rw [hs, hf]⟩
    · left
      exact ⟨row, hf, by unfold normalizeResolve; rw [hs, hf]⟩
  · by_cases hd : s ≠ [] ∧ s.all isDigitC = true
    · rcases hfi : findEntryRowById dbc (decVal s) with _ | row
      · right; left
        refine ⟨s, rfl, hd.1, hd.2, hfi, ?_⟩
        have hs : normalizeStep1 dbc n e =
            some ({ dbc with
              entries := dbc.entries ++
                [⟨decVal s, e.uuid, n, e.timestamp⟩],
              seq := max dbc.seq (decVal s) }, decVal s) := by
          unfold normalizeStep1
          simp only [he]
          rw [if_pos hd]
          simp only [hfi]
        unfold normalizeResolve
        rw [hs]
      · by_cases hc : row.uuid = e.uuid ∧ row.sourceFile = n
        · left
          refine ⟨s, row, rfl, hd.1, hd.2, hfi, hc.1, hc.2, ?_⟩
          have hs : normalizeStep1 dbc n e = some (dbc, decVal s) := by
            unfold normalizeStep1
            simp only [he]
            rw [if_pos hd]
            simp only [hfi]
            rw [if_pos hc]
          unfold normalizeResolve
          rw [hs]
        · have hs : normalizeStep1 dbc n e = none := by
            unfold normalizeStep1
            simp only [he]
            rw [if_pos hd]
            simp only [hfi]
            rw [if_neg hc]
          right; right
          rcases hf : dbc.entries.find? (fun r => r.uuid = e.uuid) with
            _ | row2
          · right
            exact ⟨hf, by unfold normalizeResolve; rw [hs, hf]⟩
          · left
            exact ⟨row2, hf, by unfold normalizeResolve; rw [hs, hf]⟩
    · have hs : normalizeStep1 dbc n e = none := by
        unfold normalizeStep1
        simp only [he]
        rw [if_neg hd]
      right; right
      rcases hf : dbc.entries.find? (fun r => r.uuid = e.uuid) with
        _ | row
      · right
        exact ⟨hf, by unfold normalizeResolve; rw [hs, hf]⟩
      · left
        exact ⟨row, hf, by unfold normalizeResolve; rw [hs, hf]⟩

theorem normalizeResolve_ne_owner (dbc : Db) (fileName : Str)
    (e : PEntry) (owner : DbEntry) (db0 : Db)
    (how : owner.sourceFile ≠ fileName) (hcolF : ':' ∉ fileName)
    (hshape : entryShape fileName e)
    (hinv : normInv db0 owner dbc) :
    (normalizeResolve dbc fileName e).2 ≠ owner.id := by
  obtain ⟨hmem, huniq, hle, hseq0, hrs⟩ := hinv
  rcases normalizeResolve_paths dbc fileName e with
    ⟨s, row, he, h1, h2, hfi, hcu, hcs, hres⟩ |
    ⟨s, he, h1, h2, hfi, hres⟩ | ⟨row, hf, hres⟩ | ⟨hf, hres⟩
  · rw [hres]
    intro hco
    have hcand : decVal s = owner.id := hco
    unfold findEntryRowById at hfi
    have hrmem := List.mem_of_find?_eq_some hfi
    have hrid : row.id = decVal s := by
      simpa using List.find?_some hfi
    have hrow : row = owner := huniq row hrmem (hrid.trans hcand)
    exact how (hrow ▸ hcs)
  · rw [hres]
    intro hco
    have hcand : decVal s = owner.id := hco
    unfold findEntryRowById at hfi
    have := List.find?_eq_none.mp hfi owner hmem
    simp only [decide_eq_true_eq] at this
    exact this hcand.symm
  · rw [hres]
    intro hco
    have hco' : row.id = owner.id := hco
    have hrmem := List.mem_of_find?_eq_some hf
    have hru : row.uuid = e.uuid := by
      simpa using List.find?_some hf
    have hrow : row = owner := huniq row hrmem hco'
    subst hrow
    rcases hdig : hasDigitId e with _ | _
    · have hnc := hshape.2 hdig
      obtain ⟨hou, _⟩ := hrs row hrmem
      rw [hru] at hou
      refine hnc ?_
      rw [hou]
      exact List.mem_append_right _ (List.mem_cons_self _ _)
    · unfold hasDigitId at hdig
      rcases he : e.entryId with _ | s'
      · rw [he] at hdig
        exact Bool.noConfusion hdig
      · rw [he] at hdig
        simp only [Bool.and_eq_true, decide_eq_true_eq] at hdig
        have heu := hshape.1 s' he hdig.1 hdig.2
        obtain ⟨hou, hoc⟩ := hrs row hrmem
        have hkey : row.sourceFile ++ ':' :: decStr row.id =
            fileName ++ ':' :: s' := by
          rw [← hou, hru, heu]
        obtain ⟨hfe, _⟩ := colon_append_inj row.sourceFile fileName
          hoc hcolF hkey
        exact how hfe
  · rw [hres]
    intro hco
    have hco' : dbc.seq + 1 = owner.id := hco
    have := hle owner hmem
    omega

theorem normalizeResolve_conflict (dbc : Db) (fileName : Str)
    (e : PEntry) (owner : DbEntry) (db0 : Db) (s : Str)
    (he : e.entryId = some s) (hs1 : s ≠ [])
    (hs2 : s.all isDigitC = true) (hdv : decVal s = owner.id)
    (how : owner.sourceFile ≠ fileName) (hcolF : ':' ∉ fileName)
    (hshape : entryShape fileName e)
    (hinv : normInv db0 owner dbc) :
    normalizeResolve dbc fileName e = ({ dbc with
      entries := dbc.entries ++
        [⟨dbc.seq + 1, e.uuid, fileName, e.timestamp⟩],
      seq := dbc.seq + 1 }, dbc.seq + 1) := by
  obtain ⟨hmem, huniq, hle, hseq0, hrs⟩ := hinv
  rcases normalizeResolve_paths dbc fileName e with
    ⟨s', row, he', h1, h2, hfi, hcu, hcs, hres⟩ |
    ⟨s', he', h1, h2, hfi, hres⟩ | ⟨row, hf, hres⟩ | ⟨hf, hres⟩
  · exfalso
    rw [he] at he'
    rw [Option.some_inj] at he'
    subst he'
    unfold findEntryRowById at hfi
    have hrmem := List.mem_of_find?_eq_some hfi
    have hrid : row.id = decVal s := by
      simpa using List.find?_some hfi
    have hrow : row = owner := huniq row hrmem (hrid.trans hdv)
    exact how (hrow ▸ hcs)
  · exfalso
    rw [he] at he'
    rw [Option.some_inj] at he'
    subst he'
    unfold findEntryRowById at hfi
    have := List.find?_eq_none.mp hfi owner hmem
    simp only [decide_eq_true_eq] at this
    exact this hdv.symm
  · exfalso
    have hrmem := List.mem_of_find?_eq_some hf
    have hru : row.uuid = e.uuid := by
      simpa using List.find?_some hf
    have heu := hshape.1 s he hs1 hs2
    obtain ⟨hou, hoc⟩ := hrs row hrmem
    have hkey : row.sourceFile ++ ':' :: decStr row.id =
        fileName ++ ':' :: s := by
      rw [← hou, hru, heu]
    obtain ⟨hfe, hdec⟩ := colon_append_inj row.sourceFile fileName
      hoc hcolF hkey
    have hrid : row.id = owner.id := by
      rw [← hdv, ← hdec, decVal_decStr]
    have hrow : row = owner := huniq row hrmem hrid
    exact how (hrow ▸ hfe)
  · exact hres

theorem normalizeResolve_cases (dbc : Db) (n : Str) (e : PEntry) :
    (normalizeResolve dbc n e).1 = dbc ∨
    (normalizeResolve dbc n e).1 = { dbc with
      entries := dbc.entries ++
        [⟨(normalizeResolve dbc n e).2, e.uuid, n, e.timestamp⟩],
      seq := max dbc.seq ((normalizeResolve dbc n e).2) } := by
  rcases normalizeResolve_paths dbc n e with
    ⟨s, row, _, _, _, _, _, _, hres⟩ | ⟨s, _, _, _, _, hres⟩ |
    ⟨row, _, hres⟩ | ⟨_, hres⟩
  · left; rw [hres]
  · right; rw [hres]
  · left; rw [hres]
  · right
    have hmax : max dbc.seq (dbc.seq + 1) = dbc.seq + 1 :=
      Nat.max_eq_right (Nat.le_succ _)
    rw [hres]
    show ({ dbc with
      entries := dbc.entries ++
        [⟨dbc.seq + 1, e.uuid, n, e.timestamp⟩],
      seq := dbc.seq + 1 } : Db) = { dbc with
      entries := dbc.entries ++
        [⟨dbc.seq + 1, e.uuid, n, e.timestamp⟩],
      seq := max dbc.seq (dbc.seq + 1) }
    rw [hmax]

theorem normalizeResolve_mid (dbc : Db) (fileName : Str) (e : PEntry)
    (db0 : Db) (owner : DbEntry)
    (hinv : normInv db0 owner dbc)
    (hne : (normalizeResolve dbc fileName e).2 ≠ owner.id) :
    owner ∈ ((normalizeResolve dbc fileName e).1).entries ∧
    (∀ r ∈ ((normalizeResolve dbc fileName e).1).entries,
      r.id = owner.id → r = owner) ∧
    (∀ r ∈ ((normalizeResolve dbc fileName e).1).entries,
      r.id ≤ ((normalizeResolve dbc fileName e).1).seq) ∧
    db0.seq ≤ ((normalizeResolve dbc fileName e).1).seq ∧
    (∀ r ∈ ((normalizeResolve dbc fileName e).1).entries,
      r.id ≠ (normalizeResolve dbc fileName e).2 → rowShape r) := by
  obtain ⟨hmem, huniq, hle, hseq0, hrs⟩ := hinv
  rcases normalizeResolve_cases dbc fileName e with hres | hres
  · rw [hres]
    exact ⟨hmem, huniq, hle, hseq0, fun r hr _ => hrs r hr⟩
  · rw [hres]
    refine ⟨List.mem_append_left _ hmem, ?_, ?_,
      le_trans hseq0 (le_max_left _ _), ?_⟩
    · intro r hr hid
      rcases List.mem_append.mp hr with h1 | h2
      · exact huniq r h1 hid
      · have hr2 : r = ⟨(normalizeResolve dbc fileName e).2, e.uuid,
            fileName, e.timestamp⟩ := by simpa using h2
        rw [hr2] at hid
        exact absurd hid hne
    · intro r hr
      rcases List.mem_append.mp hr with h1 | h2
      · exact le_trans (hle r h1) (le_max_left _ _)
      · have hr2 : r = ⟨(normalizeResolve dbc fileName e).2, e.uuid,
            fileName, e.timestamp⟩ := by simpa using h2
        rw [hr2]
        exact le_max_right _ _
    · intro r hr hrne
      rcases List.mem_append.mp hr with h1 | h2
      · exact hrs r h1
      · have hr2 : r = ⟨(normalizeResolve dbc fileName e).2, e.uuid,
            fileName, e.timestamp⟩ := by simpa using h2
        exact absurd (by rw [hr2]) hrne

theorem normalizeOne_inv (fileName : Str) (db0 : Db) (owner : DbEntry)
    (how : owner.sourceFile ≠ fileName) (hcolF : ':' ∉ fileName)
    (e : PEntry) (hshape : entryShape fileName e)
    (st : Db × List Nat × List PEntry)
    (hinv : normInv db0 owner st.1) :
    normInv db0 owner ((normalizeOne fileName st e).1) := by
  obtain ⟨db, asg, nm⟩ := st
  have hne := normalizeResolve_ne_owner db fileName e owner db0 how
    hcolF hshape hinv
  obtain ⟨hmem1, huniq1, hle1, hseq01, hrs1⟩ :=
    normalizeResolve_mid db fileName e db0 owner hinv hne
  have hres : (normalizeOne fileName (db, asg, nm) e).1 =
      updateEntryRow (normalizeResolve db fileName e).1
        (normalizeResolve db fileName e).2
        (fileName ++ ':' :: decStr (normalizeResolve db fileName e).2)
        fileName e.timestamp := rfl
  rw [hres]
  unfold updateEntryRow
  refine ⟨?_, ?_, ?_, hseq01, ?_⟩
  · refine List.mem_map.mpr ⟨owner, hmem1, ?_⟩
    exact if_neg (fun hcon => hne hcon.symm)
  · intro r hr hid
    obtain ⟨a, ha, hfa⟩ := List.mem_map.mp hr
    by_cases hai : a.id = (normalizeResolve db fileName e).2
    · rw [if_pos hai] at hfa
      rw [← hfa] at hid
      exact absurd hid hne
    · rw [if_neg hai] at hfa
      rw [← hfa]
      exact huniq1 a ha (by rw [hfa]; exact hid)
  · intro r hr
    obtain ⟨a, ha, hfa⟩ := List.mem_map.mp hr
    by_cases hai : a.id = (normalizeResolve db fileName e).2
    · rw [if_pos hai] at hfa
      rw [← hfa]
      show (normalizeResolve db fileName e).2 ≤
        ((normalizeResolve db fileName e).1).seq
      rw [← hai]
      exact hle1 a ha
    · rw [if_neg hai] at hfa
      rw [← hfa]
      exact hle1 a ha
  · intro r hr
    obtain ⟨a, ha, hfa⟩ := List.mem_map.mp hr
    by_cases hai : a.id = (normalizeResolve db fileName e).2
    · rw [if_pos hai] at hfa
      rw [← hfa]
      exact ⟨rfl, hcolF⟩
    · rw [if_neg hai] at hfa
      rw [← hfa]
      exact hrs1 a ha hai

theorem normalizeOne_asg (n : Str)
    (st : Db × List Nat × List PEntry) (e : PEntry) :
    (normalizeOne n st e).2.1 = st.2.1 ++
      [(normalizeResolve st.1 n e).2] := by
  obtain ⟨db, asg, nm⟩ := st
  rfl

theorem foldl_normalizeOne_inv (fileName : Str) (db0 : Db)
    (owner : DbEntry) (how : owner.sourceFile ≠ fileName)
    (hcolF : ':' ∉ fileName) :
    ∀ (es : List PEntry) (st : Db × List Nat × List PEntry),
      (∀ e ∈ es, entryShape fileName e) →
      normInv db0 owner st.1 →
      (∀ i ∈ st.2.1, i ≠ owner.id) →
      (∀ ne ∈ st.2.2, hasDigitId ne = true ∧
        decVal ((ne.entryId).getD []) ≠ owner.id) →
      normInv db0 owner ((es.foldl (normalizeOne fileName) st).1) ∧
      (∀ i ∈ (es.foldl (normalizeOne fileName) st).2.1,
        i ≠ owner.id) ∧
      (∀ ne ∈ (es.foldl (normalizeOne fileName) st).2.2,
        hasDigitId ne = true ∧
        decVal ((ne.entryId).getD []) ≠ owner.id) := by
  intro es
  induction es with
  | nil => intro st _ hinv hasg hnm; exact ⟨hinv, hasg, hnm⟩
  | cons e rest ih =>
    intro st hshapes hinv hasg hnm
    rw [List.foldl_cons]
    have hne := normalizeResolve_ne_owner st.1 fileName e owner db0
      how hcolF (hshapes e (List.mem_cons_self e rest)) hinv
    refine ih (normalizeOne fileName st e)
      (fun g hg => hshapes g (List.mem_cons_of_mem e hg))
      (normalizeOne_inv fileName db0 owner how hcolF e
        (hshapes e (List.mem_cons_self e rest)) st hinv) ?_ ?_
    · intro i hi
      rw [normalizeOne_asg] at hi
      rcases List.mem_append.mp hi with h1 | h2
      · exact hasg i h1
      · rw [List.mem_singleton.mp h2]
        exact hne
    · intro ne hnemem
      rw [normalizeOne_norm] at hnemem
      rcases List.mem_append.mp hnemem with h1 | h2
      · exact hnm ne h1
      · rw [List.mem_singleton.mp h2]
        constructor
        · unfold hasDigitId
          simp only [Bool.and_eq_true, decide_eq_true_eq]
          exact ⟨decStr_ne_nil _, decStr_digits _⟩
        · show decVal (decStr (normalizeResolve st.1 fileName e).2) ≠
            owner.id
          rw [decVal_decStr]
          exact hne

theorem reindexOne_filter_owner (db : Db) (ne : PEntry) (o : Nat)
    (h : hasDigitId ne = true → decVal ((ne.entryId).getD []) ≠ o) :
    (reindexOne db ne).tags.filter (fun t => t.entryId = o) =
      db.tags.filter (fun t => t.entryId = o) ∧
    (reindexOne db ne).words.filter (fun w => w.entryId = o) =
      db.words.filter (fun w => w.entryId = o) ∧
    (reindexOne db ne).metadata.filter (fun m => m.entryId = o) =
      db.metadata.filter (fun m => m.entryId = o) := by
  unfold reindexOne
  rcases hd : hasDigitId ne with _ | _
  · rw [if_neg (by simp)]
    exact ⟨rfl, rfl, rfl⟩
  · rw [if_pos rfl]
    have hio := h hd
    dsimp only
    refine ⟨?_, ?_, ?_⟩
    · rw [filter_append_eq_nil]
      · refine filter_filter_of_imp _ _ ?_ db.tags
        intro a ha
        simp only [decide_eq_true_eq] at ha
        simp [ha, Ne.symm hio]
      · intro a ha
        rcases List.mem_ite_nil_right.mp ha with ⟨_, ha2⟩
        obtain ⟨tg, _, rfl⟩ := List.mem_map.mp ha2
        simp [hio]
    · rw [filter_append_eq_nil]
      · refine filter_filter_of_imp _ _ ?_ db.words
        intro a ha
        simp only [decide_eq_true_eq] at ha
        simp [ha, Ne.symm hio]
      · intro a ha
        rcases List.mem_ite_nil_right.mp ha with ⟨_, ha2⟩
        obtain ⟨w, _, rfl⟩ := List.mem_map.mp ha2
        simp [hio]
    · rw [filter_append_eq_nil]
      · refine filter_filter_of_imp _ _ ?_ db.metadata
        intro a ha
        simp only [decide_eq_true_eq] at ha
        simp [ha, Ne.symm hio]
      · intro a ha
        rcases List.mem_ite_nil_right.mp ha with ⟨_, ha2⟩
        obtain ⟨kv, _, rfl⟩ := List.mem_map.mp ha2
        simp [hio]

theorem reindex_filter_owner (o : Nat) :
    ∀ (es : List PEntry) (db : Db),
      (∀ ne ∈ es, hasDigitId ne = true →
        decVal ((ne.entryId).getD []) ≠ o) →
      (reindex_entries db es).tags.filter (fun t => t.entryId = o) =
        db.tags.filter (fun t => t.entryId = o) ∧
      (reindex_entries db es).words.filter (fun w => w.entryId = o) =
        db.words.filter (fun w => w.entryId = o) ∧
      (reindex_entries db es).metadata.filter
          (fun m => m.entryId = o) =
        db.metadata.filter (fun m => m.entryId = o) := by
  intro es
  induction es with
  | nil => intro db _; exact ⟨rfl, rfl, rfl⟩
  | cons ne rest ih =>
    intro db h
    obtain ⟨t1, w1, m1⟩ := reindexOne_filter_owner db ne o
      (h ne (List.mem_cons_self ne rest))
    obtain ⟨t2, w2, m2⟩ := ih (reindexOne db ne)
      (fun g hg => h g (List.mem_cons_of_mem ne hg))
    exact ⟨t2.trans t1, w2.trans w1, m2.trans m1⟩

/-- C3: when a day file holds an entry stamped with a numeric id whose
indexed owner is a different source file, one sync pass over that file
leaves the owner's entries row and its tag, word, and metadata rows
unchanged, and re-registers the conflicting entry under a freshly
minted id different from every id already present in the entries
table. -/
theorem claim_C3_id_conflict (db : Db) (fileName : Str)
    (entries pre post : List PEntry) (e : PEntry) (s : Str)
    (owner : DbEntry)
    (hsplit : entries = pre ++ e :: post)
    (hid : e.entryId = some s) (hs1 : s ≠ [])
    (hs2 : s.all isDigitC = true)
    (hown : findEntryRowById db (decVal s) = some owner)
    (how : owner.sourceFile ≠ fileName)
    (hcolF : ':' ∉ fileName)
    (hshapes : ∀ g ∈ entries, entryShape fileName g)
    (hrows : ∀ r ∈ db.entries, rowShape r)
    (hseq : ∀ r ∈ db.entries, r.id ≤ db.seq)
    (huniq : ∀ r ∈ db.entries, ∀ r2 ∈ db.entries,
      r.id = r2.id → r = r2) :
    findEntryRowById (syncIndexFile db fileName entries).1 owner.id =
      some owner ∧
    (syncIndexFile db fileName entries).1.tags.filter
        (fun t => t.entryId = owner.id) =
      db.tags.filter (fun t => t.entryId = owner.id) ∧
    (syncIndexFile db fileName entries).1.words.filter
        (fun w => w.entryId = owner.id) =
      db.words.filter (fun w => w.entryId = owner.id) ∧
    (syncIndexFile db fileName entries).1.metadata.filter
        (fun m => m.entryId = owner.id) =
      db.metadata.filter (fun m => m.entryId = owner.id) ∧
    ∃ idv, ((syncIndexFile db fileName entries).2).get? pre.length =
        some { e with entryId := some (decStr idv), uuid := fileName ++ ':' :: decStr idv } ∧
      (∀ r ∈ db.entries, r.id ≠ idv) := by
  subst hsplit
  have hownmem : owner ∈ db.entries := by
    unfold findEntryRowById at hown
    exact List.mem_of_find?_eq_some hown
  have hodv : owner.id = decVal s := by
    unfold findEntryRowById at hown
    simpa using List.find?_some hown
  have huniq2 : ∀ r ∈ db.entries, r.id = owner.id → r = owner :=
    fun r hr h => huniq r hr owner hownmem h
  have hinv0 : normInv db owner db :=
    ⟨hownmem, huniq2, hseq, le_refl _, hrows⟩
  obtain ⟨hinvF, hasgF, hnmF⟩ := foldl_normalizeOne_inv fileName db
    owner how hcolF (pre ++ e :: post) (db, [], []) hshapes hinv0
    (fun i hi => absurd hi (List.not_mem_nil i))
    (fun g hg => absurd hg (List.not_mem_nil g))
  obtain ⟨hinvP, _, _⟩ := foldl_normalizeOne_inv fileName db owner
    how hcolF pre (db, [], [])
    (fun g hg => hshapes g (List.mem_append_left _ hg)) hinv0
    (fun i hi => absurd hi (List.not_mem_nil i))
    (fun g hg => absurd hg (List.not_mem_nil g))
  set full := (pre ++ e :: post).foldl (normalizeOne fileName)
    ((db, [], []) : Db × List Nat × List PEntry) with hfulldef
  set stp := pre.foldl (normalizeOne fileName)
    ((db, [], []) : Db × List Nat × List PEntry) with hstpdef
  set missing := ((full.1.entries.filter fun r =>
      r.sourceFile = fileName).map fun r => r.id).filter
      (fun i => i ∉ full.2.1) with hmissdef
  have hres : normalize_entries db fileName (pre ++ e :: post) =
      ({ full.1 with
          tags := full.1.tags.filter fun t => t.entryId ∉ missing,
          words := full.1.words.filter fun w => w.entryId ∉ missing,
          metadata := full.1.metadata.filter fun m =>
            m.entryId ∉ missing,
          entries := full.1.entries.filter fun r => r.id ∉ missing },
       full.2.2) := rfl
  have hofree : owner.id ∉ missing := by
    rw [hmissdef]
    intro hmem
    rcases List.mem_filter.mp hmem with ⟨hex, _⟩
    obtain ⟨r, hrmem2, hrid⟩ := List.mem_map.mp hex
    rcases List.mem_filter.mp hrmem2 with ⟨hrdb1, hrsrc⟩
    have hro : r = owner := hinvF.2.1 r hrdb1 hrid
    rw [hro] at hrsrc
    simp only [decide_eq_true_eq] at hrsrc
    exact how hrsrc
  have htags : full.1.tags = db.tags :=
    (foldl_normalizeOne_tables fileName (pre ++ e :: post)
      (db, [], [])).1
  have hwords : full.1.words = db.words :=
    (foldl_normalizeOne_tables fileName (pre ++ e :: post)
      (db, [], [])).2.1
  have hmeta : full.1.metadata = db.metadata :=
    (foldl_normalizeOne_tables fileName (pre ++ e :: post)
      (db, [], [])).2.2
  have hents : (syncIndexFile db fileName (pre ++ e :: post)).1.entries
      = full.1.entries.filter (fun r => r.id ∉ missing) := by
    have h1 : (syncIndexFile db fileName
        (pre ++ e :: post)).1.entries =
        (normalize_entries db fileName (pre ++ e :: post)).1.entries :=
      reindex_entries_entries _ _
    rw [h1, hres]
  have hG1 : findEntryRowById
      (syncIndexFile db fileName (pre ++ e :: post)).1 owner.id =
      some owner := by
    unfold findEntryRowById
    rw [hents]
    apply find_unique_mem
    · exact List.mem_filter.mpr ⟨hinvF.1, by simp [hofree]⟩
    · simp
    · intro b hb hpb
      have hbdb1 : b ∈ full.1.entries := (List.mem_filter.mp hb).1
      simp only [decide_eq_true_eq] at hpb
      exact hinvF.2.1 b hbdb1 hpb
  have hnres2 : (normalize_entries db fileName
      (pre ++ e :: post)).2 = full.2.2 := by rw [hres]
  have hhyp : ∀ g ∈ (normalize_entries db fileName
      (pre ++ e :: post)).2, hasDigitId g = true →
      decVal ((g.entryId).getD []) ≠ owner.id := by
    rw [hnres2]
    exact fun g hg _ => (hnmF g hg).2
  obtain ⟨ht, hw, hm⟩ := reindex_filter_owner owner.id
    (normalize_entries db fileName (pre ++ e :: post)).2
    (normalize_entries db fileName (pre ++ e :: post)).1 hhyp
  have himpT : ∀ a : TagRow,
      (decide (a.entryId = owner.id)) = true →
      (decide (a.entryId ∉ missing)) = true := fun a ha => by
    simp only [decide_eq_true_eq] at ha
    simp [ha, hofree]
  have himpW : ∀ a : WordRow,
      (decide (a.entryId = owner.id)) = true →
      (decide (a.entryId ∉ missing)) = true := fun a ha => by
    simp only [decide_eq_true_eq] at ha
    simp [ha, hofree]
  have himpM : ∀ a : MetaRow,
      (decide (a.entryId = owner.id)) = true →
      (decide (a.entryId ∉ missing)) = true := fun a ha => by
    simp only [decide_eq_true_eq] at ha
    simp [ha, hofree]
  have hnt : (normalize_entries db fileName
      (pre ++ e :: post)).1.tags =
      full.1.tags.filter (fun t => t.entryId ∉ missing) := by
    rw [hres]
  have hnw : (normalize_entries db fileName
      (pre ++ e :: post)).1.words =
      full.1.words.filter (fun w => w.entryId ∉ missing) := by
    rw [hres]
  have hnm : (normalize_entries db fileName
      (pre ++ e :: post)).1.metadata =
      full.1.metadata.filter (fun m => m.entryId ∉ missing) := by
    rw [hres]
  have ht2 : (syncIndexFile db fileName
      (pre ++ e :: post)).1.tags.filter
      (fun t => t.entryId = owner.id) =
      (normalize_entries db fileName (pre ++ e :: post)).1.tags.filter
      (fun t => t.entryId = owner.id) := ht
  have hw2 : (syncIndexFile db fileName
      (pre ++ e :: post)).1.words.filter
      (fun w => w.entryId = owner.id) =
      (normalize_entries db fileName
        (pre ++ e :: post)).1.words.filter
      (fun w => w.entryId = owner.id) := hw
  have hm2 : (syncIndexFile db fileName
      (pre ++ e :: post)).1.metadata.filter
      (fun m => m.entryId = owner.id) =
      (normalize_entries db fileName
        (pre ++ e :: post)).1.metadata.filter
      (fun m => m.entryId = owner.id) := hm
  have hG2 : (syncIndexFile db fileName
      (pre ++ e :: post)).1.tags.filter
      (fun t => t.entryId = owner.id) =
      db.tags.filter (fun t => t.entryId = owner.id) := by
    rw [ht2, hnt, filter_filter_of_imp _ _ himpT full.1.tags, htags]
  have hG3 : (syncIndexFile db fileName
      (pre ++ e :: post)).1.words.filter
      (fun w => w.entryId = owner.id) =
      db.words.filter (fun w => w.entryId = owner.id) := by
    rw [hw2, hnw, filter_filter_of_imp _ _ himpW full.1.words,
      hwords]
  have hG4 : (syncIndexFile db fileName
      (pre ++ e :: post)).1.metadata.filter
      (fun m => m.entryId = owner.id) =
      db.metadata.filter (fun m => m.entryId = owner.id) := by
    rw [hm2, hnm, filter_filter_of_imp _ _ himpM full.1.metadata,
      hmeta]
  have hconf := normalizeResolve_conflict stp.1 fileName e owner db s
    hid hs1 hs2 hodv.symm how hcolF
    (hshapes e (List.mem_append_right _ (List.mem_cons_self _ _)))
    hinvP
  have hidv : (normalizeResolve stp.1 fileName e).2 =
      stp.1.seq + 1 := by rw [hconf]
  refine ⟨hG1, hG2, hG3, hG4, stp.1.seq + 1, ?_, ?_⟩
  · have hsplit2 : (pre ++ e :: post).foldl (normalizeOne fileName)
        ((db, [], []) : Db × List Nat × List PEntry) =
        post.foldl (normalizeOne fileName)
          (normalizeOne fileName stp e) := by
      rw [List.foldl_append, List.foldl_cons]
    obtain ⟨tl, htl⟩ := foldl_norm_prefix fileName post
      (normalizeOne fileName stp e)
    have hlen : stp.2.2.length = pre.length := by
      simpa using foldl_norm_length fileName pre
        ((db, [], []) : Db × List Nat × List PEntry)
    have hf0 : (syncIndexFile db fileName (pre ++ e :: post)).2 =
        (normalize_entries db fileName (pre ++ e :: post)).2 := rfl
    have hfin : (syncIndexFile db fileName (pre ++ e :: post)).2 =
        stp.2.2 ++ ({ e with
          entryId := some (decStr (stp.1.seq + 1)),
          uuid := fileName ++ ':' ::
            decStr (stp.1.seq + 1) } :: tl) := by
      rw [hf0, hnres2, hfulldef, hsplit2, htl, normalizeOne_norm,
        hidv, List.append_assoc]
      rfl
    rw [hfin, ← hlen]
    exact get_append_len _ tl stp.2.2
  · intro r hr
    have h1 := hseq r hr
    have h2 : db.seq ≤ stp.1.seq := hinvP.2.2.2.1
    omega

theorem claim_C3_id_conflict_witness :
    findEntryRowById (syncIndexFile
        ⟨[⟨1, "a.txt:1".toList, "a.txt".toList, "09:00".toList⟩],
         [⟨1, "w".toList⟩], [⟨1, "hi".toList⟩],
         [⟨1, "k".toList, "v".toList, none⟩], [], 1⟩
        "b.txt".toList
        [⟨"b.txt:1".toList, some "1".toList, none, "10:00".toList,
          [], [], [], []⟩]).1 1 =
      some ⟨1, "a.txt:1".toList, "a.txt".toList, "09:00".toList⟩ ∧
    (syncIndexFile
        ⟨[⟨1, "a.txt:1".toList, "a.txt".toList, "09:00".toList⟩],
         [⟨1, "w".toList⟩], [⟨1, "hi".toList⟩],
         [⟨1, "k".toList, "v".toList, none⟩], [], 1⟩
        "b.txt".toList
        [⟨"b.txt:1".toList, some "1".toList, none, "10:00".toList,
          [], [], [], []⟩]).1.tags.filter
        (fun t => t.entryId = 1) =
      ([⟨1, "w".toList⟩] : List TagRow).filter
        (fun t => t.entryId = 1) ∧
    (syncIndexFile
        ⟨[⟨1, "a.txt:1".toList, "a.txt".toList, "09:00".toList⟩],
         [⟨1, "w".toList⟩], [⟨1, "hi".toList⟩],
         [⟨1, "k".toList, "v".toList, none⟩], [], 1⟩
        "b.txt".toList
        [⟨"b.txt:1".toList, some "1".toList, none, "10:00".toList,
          [], [], [], []⟩]).1.words.filter
        (fun w => w.entryId = 1) =
      ([⟨1, "hi".toList⟩] : List WordRow).filter
        (fun w => w.entryId = 1) ∧
    (syncIndexFile
        ⟨[⟨1, "a.txt:1".toList, "a.txt".toList, "09:00".toList⟩],
         [⟨1, "w".toList⟩], [⟨1, "hi".toList⟩],
         [⟨1, "k".toList, "v".toList, none⟩], [], 1⟩
        "b.txt".toList
        [⟨"b.txt:1".toList, some "1".toList, none, "10:00".toList,
          [], [], [], []⟩]).1.metadata.filter
        (fun m => m.entryId = 1) =
      ([⟨1, "k".toList, "v".toList, none⟩] : List MetaRow).filter
        (fun m => m.entryId = 1) ∧
    ∃ idv, ((syncIndexFile
        ⟨[⟨1, "a.txt:1".toList, "a.txt".toList, "09:00".toList⟩],
         [⟨1, "w".toList⟩], [⟨1, "hi".toList⟩],
         [⟨1, "k".toList, "v".toList, none⟩], [], 1⟩
        "b.txt".toList
        [⟨"b.txt:1".toList, some "1".toList, none, "10:00".toList,
          [], [], [], []⟩]).2).get? 0 =
        some ⟨"b.txt".toList ++ ':' :: decStr idv, some (decStr idv),
          none, "10:00".toList, [], [], [], []⟩ ∧
      (∀ r ∈ ([⟨1, "a.txt:1".toList, "a.txt".toList,
          "09:00".toList⟩] : List DbEntry), r.id ≠ idv) :=
  claim_C3_id_conflict
    ⟨[⟨1, "a.txt:1".toList, "a.txt".toList, "09:00".toList⟩],
     [⟨1, "w".toList⟩], [⟨1, "hi".toList⟩],
     [⟨1, "k".toList, "v".toList, none⟩], [], 1⟩
    "b.txt".toList
    [⟨"b.txt:1".toList, some "1".toList, none, "10:00".toList,
      [], [], [], []⟩]
    [] []
    ⟨"b.txt:1".toList, some "1".toList, none, "10:00".toList,
      [], [], [], []⟩
    "1".toList
    ⟨1, "a.txt:1".toList, "a.txt".toList, "09:00".toList⟩
    rfl rfl (by decide) (by decide) (by decide) (by decide)
    (by decide)
    (by
      intro g hg
      rw [List.mem_singleton.mp hg]
      refine ⟨?_, by decide⟩
      intro s2 hs2 _ _
      have hs3 : some ("1".toList) = some s2 := hs2
      rw [Option.some_inj] at hs3
      subst hs3
      decide)
    (by decide) (by decide) (by decide)

end Kaydet
